import Mathlib

/-!
Verification of the red-black ordered-collection engine (`RedBlackTree` in
package `ds`) of the `collections` repository.

The Go implementation is a pointer-based red-black tree whose nodes carry a
payload `Elem`, a color bit `black`, a parent back-pointer, and two child
pointers indexed by a direction (`Left = 0`, `Right = 1`).  We embed it
shallowly:

* a heap node becomes a constructor of the inductive type `TreeNode`, with a
  `Nat` identifier standing for the node's address (pointer identity);
  the `nil` constructor is the null pointer;
* the parent chain of a node is represented by the zipper context
  `List (Frame α)`: one `Frame` per ancestor, recording on which side the
  focused node hangs (`dir`), the ancestor's id, color and element, and the
  sibling subtree.  A Go value of type `**TreeNode` (a slot) is a focus
  position of such a zipper;
* the tree object (`root`, cached `first`/`last` pointers, `size`,
  allocation of fresh nodes) becomes the structure `RedBlackTree`, where the
  cached pointers are stored as node ids;
* Go code that would dereference a nil pointer is modelled by an `Option`
  result (`none` = runtime panic) in the one place the source can actually
  reach such a dereference (`balanceBlackLeafForDeletion` reading the
  children of a sibling).
-/

namespace RBV

/-- Direction of a child pointer, `Left = 0`, `Right = 1` in the source;
`1 - d` in the source is `flip` here. -/
inductive Dir : Type where
  | left : Dir
  | right : Dir
deriving DecidableEq, Repr

/-- The source's `1 - d`. -/
def Dir.flip : Dir → Dir
  | .left => .right
  | .right => .left

@[simp] theorem Dir.flip_flip (d : Dir) : d.flip.flip = d := by cases d <;> rfl

@[simp] theorem Dir.flip_left : Dir.flip .left = .right := rfl

@[simp] theorem Dir.flip_right : Dir.flip .right = .left := rfl

theorem Dir.flip_ne (d : Dir) : d.flip ≠ d := by cases d <;> simp [Dir.flip]

/-- A `*TreeNode[E]` value: either the null pointer or a node.  The first
field is the node's identity (its address); `black` is the color bit of the
source's `TreeNode`. -/
inductive TreeNode (α : Type) : Type where
  | nil : TreeNode α
  | node (id : Nat) (black : Bool) (l : TreeNode α) (elem : α) (r : TreeNode α) : TreeNode α
deriving DecidableEq, Repr

namespace TreeNode

/-- `n.child[d]` of the source (only read on non-nil nodes there). -/
def child {α : Type} : TreeNode α → Dir → TreeNode α
  | .nil, _ => .nil
  | .node _ _ l _ _, .left => l
  | .node _ _ _ _ r, .right => r

/-- Source `isRed`: non-nil and not black. -/
def isRed {α : Type} : TreeNode α → Bool
  | .nil => false
  | .node _ b _ _ _ => !b

/-- Source `isBlack`: nil or black. -/
def isBlack {α : Type} : TreeNode α → Bool
  | .nil => true
  | .node _ b _ _ _ => b

/-- Whether a pointer is nil (`n == nil` comparisons in the source). -/
def isNil {α : Type} : TreeNode α → Bool
  | .nil => true
  | .node _ _ _ _ _ => false

/-- Source `n.black = true` (assignment in rebalancing; only performed on
non-nil nodes in the source). -/
def paintBlack {α : Type} : TreeNode α → TreeNode α
  | .nil => .nil
  | .node i _ l x r => .node i true l x r

/-- Source `n.black = false`. -/
def paintRed {α : Type} : TreeNode α → TreeNode α
  | .nil => .nil
  | .node i _ l x r => .node i false l x r

@[simp] theorem child_left {α : Type} (i : Nat) (b : Bool) (l r : TreeNode α)
    (x : α) : (TreeNode.node i b l x r).child .left = l := rfl

@[simp] theorem child_right {α : Type} (i : Nat) (b : Bool) (l r : TreeNode α)
    (x : α) : (TreeNode.node i b l x r).child .right = r := rfl

@[simp] theorem child_nil {α : Type} (d : Dir) :
    (TreeNode.nil : TreeNode α).child d = .nil := by cases d <;> rfl

@[simp] theorem isRed_nil {α : Type} : (TreeNode.nil : TreeNode α).isRed = false := rfl

@[simp] theorem isRed_node {α : Type} (i : Nat) (b : Bool) (l r : TreeNode α)
    (x : α) : (TreeNode.node i b l x r).isRed = !b := rfl

@[simp] theorem isBlack_nil {α : Type} : (TreeNode.nil : TreeNode α).isBlack = true := rfl

@[simp] theorem isBlack_node {α : Type} (i : Nat) (b : Bool) (l r : TreeNode α)
    (x : α) : (TreeNode.node i b l x r).isBlack = b := rfl

@[simp] theorem paintBlack_nil {α : Type} :
    (TreeNode.nil : TreeNode α).paintBlack = .nil := rfl

@[simp] theorem paintBlack_node {α : Type} (i : Nat) (b : Bool)
    (l r : TreeNode α) (x : α) :
    (TreeNode.node i b l x r).paintBlack = .node i true l x r := rfl

@[simp] theorem paintRed_nil {α : Type} :
    (TreeNode.nil : TreeNode α).paintRed = .nil := rfl

@[simp] theorem paintRed_node {α : Type} (i : Nat) (b : Bool)
    (l r : TreeNode α) (x : α) :
    (TreeNode.node i b l x r).paintRed = .node i false l x r := rfl

end TreeNode

/-- Build a node with focus subtree `a` placed on side `d` and subtree `b`
on side `d.flip` (the source writes `n.child[d] = a; n.child[1-d] = b`). -/
def mkN {α : Type} (d : Dir) (i : Nat) (b : Bool) (a : TreeNode α) (x : α)
    (s : TreeNode α) : TreeNode α :=
  match d with
  | .left => .node i b a x s
  | .right => .node i b s x a

/-- One ancestor on the parent chain of a focused node: the focus hangs at
`parent.child[dir]`, the frame records the parent's id, color and element,
and `sib = parent.child[dir.flip]`. -/
structure Frame (α : Type) : Type where
  dir : Dir
  id : Nat
  black : Bool
  elem : α
  sib : TreeNode α
deriving DecidableEq, Repr

/-- Rebuild the node a frame describes, with focus `t` in its slot. -/
def Frame.close {α : Type} (f : Frame α) (t : TreeNode α) : TreeNode α :=
  mkN f.dir f.id f.black t f.elem f.sib

/-- Rebuild the whole tree from a focus subtree and its parent chain
(innermost ancestor first). -/
def plug {α : Type} (t : TreeNode α) : List (Frame α) → TreeNode α
  | [] => t
  | f :: rest => plug (f.close t) rest

@[simp] theorem plug_nil {α : Type} (t : TreeNode α) : plug t [] = t := rfl

@[simp] theorem plug_cons {α : Type} (t : TreeNode α) (f : Frame α)
    (rest : List (Frame α)) : plug t (f :: rest) = plug (f.close t) rest := rfl

/-- In-order listing of the (id, element) pairs of a tree. -/
def inorderP {α : Type} : TreeNode α → List (Nat × α)
  | .nil => []
  | .node i _ l x r => inorderP l ++ (i, x) :: inorderP r

/-- In-order listing of the elements of a tree. -/
def inorder {α : Type} (t : TreeNode α) : List α :=
  (inorderP t).map Prod.snd

/-- Elements of the pairs to the left of the focus in the rebuilt tree. -/
def ctxL {α : Type} : List (Frame α) → List (Nat × α)
  | [] => []
  | f :: rest =>
      ctxL rest ++ (match f.dir with
        | .left => []
        | .right => inorderP f.sib ++ [(f.id, f.elem)])

/-- Elements of the pairs to the right of the focus in the rebuilt tree. -/
def ctxR {α : Type} : List (Frame α) → List (Nat × α)
  | [] => []
  | f :: rest =>
      (match f.dir with
        | .left => (f.id, f.elem) :: inorderP f.sib
        | .right => []) ++ ctxR rest

theorem inorderP_close {α : Type} (f : Frame α) (t : TreeNode α) :
    inorderP (f.close t) =
      (match f.dir with
        | .left => inorderP t ++ (f.id, f.elem) :: inorderP f.sib
        | .right => inorderP f.sib ++ (f.id, f.elem) :: inorderP t) := by
  cases f with
  | mk d i b x s => cases d <;> simp [Frame.close, mkN, inorderP]

theorem inorderP_plug {α : Type} (t : TreeNode α) (path : List (Frame α)) :
    inorderP (plug t path) = ctxL path ++ inorderP t ++ ctxR path := by
  induction path generalizing t with
  | nil => simp [ctxL, ctxR]
  | cons f rest ih =>
      cases hd : f.dir <;> simp [ih, inorderP_close, hd, ctxL, ctxR]

/-! ## The balance invariant

`Bal t c n` asserts that `t` satisfies the local red-black invariants:
no red node has a red child, and every path from the root of `t` to a nil
position passes through the same number of black nodes.  `c = true` means
the root of `t` is black (nil counts as black), `c = false` means it is
red.  `n` is the black height with the same convention as the repository's
`validateTree`: `n = 1` for nil, black nodes add one. -/
inductive Bal {α : Type} : TreeNode α → Bool → Nat → Prop where
  | nil : Bal .nil true 1
  | red {l r : TreeNode α} {x : α} {i : Nat} {n : Nat} :
      Bal l true n → Bal r true n → Bal (.node i false l x r) false n
  | black {l r : TreeNode α} {x : α} {i : Nat} {cl cr : Bool} {n : Nat} :
      Bal l cl n → Bal r cr n → Bal (.node i true l x r) true (n + 1)

theorem Bal.one_le {α : Type} {t : TreeNode α} {c : Bool} {n : Nat}
    (h : Bal t c n) : 1 ≤ n := by
  induction h with
  | nil => exact le_refl 1
  | red _ _ ih _ => exact ih
  | black _ _ ih _ => omega

theorem Bal.ne_nil_of_two_le {α : Type} {t : TreeNode α} {c : Bool} {n : Nat}
    (h : Bal t c n) (h2 : 2 ≤ n) : t ≠ .nil := by
  cases h with
  | nil => omega
  | red _ _ => intro hc; cases hc
  | black _ _ => intro hc; cases hc

theorem Bal.paintBlack {α : Type} {t : TreeNode α} {n : Nat}
    (h : Bal t false n) : Bal t.paintBlack true (n + 1) := by
  cases h with
  | red hl hr => exact .black hl hr

/-- `mkN` respects `Bal`: a black node from two balanced children. -/
theorem Bal.mk_black {α : Type} (d : Dir) (i : Nat) {a s : TreeNode α} (x : α)
    {ca cs : Bool} {n : Nat} (ha : Bal a ca n) (hs : Bal s cs n) :
    Bal (mkN d i true a x s) true (n + 1) := by
  cases d with
  | left => exact .black ha hs
  | right => exact .black hs ha

/-- `mkN` respects `Bal`: a red node from two black-rooted children. -/
theorem Bal.mk_red {α : Type} (d : Dir) (i : Nat) {a s : TreeNode α} (x : α)
    {n : Nat} (ha : Bal a true n) (hs : Bal s true n) :
    Bal (mkN d i false a x s) false n := by
  cases d with
  | left => exact .red ha hs
  | right => exact .red hs ha

/-! ## The context invariant

`CtxBal path cb n N` asserts that `path` is the ancestor chain of a hole in
an otherwise balanced tree: filling the hole with any tree `t` such that
`Bal t c n` — black-rooted if `cb = true` — yields a tree satisfying
`Bal _ c' N` for some root color `c'`. -/
inductive CtxBal {α : Type} : List (Frame α) → Bool → Nat → Nat → Prop where
  | root {n : Nat} : CtxBal [] false n n
  | redF {d : Dir} {i : Nat} {x : α} {sib : TreeNode α} {rest : List (Frame α)}
      {n N : Nat} :
      Bal sib true n → CtxBal rest false n N →
      CtxBal (⟨d, i, false, x, sib⟩ :: rest) true n N
  | blackF {d : Dir} {i : Nat} {x : α} {sib : TreeNode α} {rest : List (Frame α)}
      {cs cb : Bool} {n N : Nat} :
      Bal sib cs n → CtxBal rest cb (n + 1) N →
      CtxBal (⟨d, i, true, x, sib⟩ :: rest) false n N

/-- Filling the hole of a balanced context with a color-compatible balanced
tree of the right black height yields a balanced tree. -/
theorem CtxBal.fill {α : Type} {path : List (Frame α)} {cb : Bool} {n N : Nat}
    (hp : CtxBal path cb n N) {t : TreeNode α} {c : Bool} (ht : Bal t c n)
    (hc : cb = true → c = true) : ∃ c', Bal (plug t path) c' N := by
  induction hp generalizing t c with
  | root => exact ⟨c, ht⟩
  | redF hs _ ih =>
      refine ih (Bal.mk_red _ _ _ ?_ hs) (fun h => by cases h)
      have := hc rfl; subst this; exact ht
  | blackF hs _ ih =>
      exact ih (Bal.mk_black _ _ _ ht hs) (fun _ => rfl)

/-! ## The tree object and the operations of the engine -/

/-- The `RedBlackTree[E]` struct: root tree, cached `first`/`last` node
pointers (as node ids, `none` = nil), `size`, and the allocation counter
`nextId` used to model the address of the next node created by `Put`. -/
structure RedBlackTree (α : Type) : Type where
  root : TreeNode α
  first : Option Nat
  last : Option Nat
  size : Int
  nextId : Nat
deriving DecidableEq, Repr

/-- A fresh, empty `RedBlackTree` (Go zero value). -/
def emptyTree (α : Type) : RedBlackTree α :=
  { root := .nil, first := none, last := none, size := 0, nextId := 0 }

/-- Dereference a node pointer held in `first`/`last`: the element of the
node with id `j` in tree `t` (`none` when no live node has this id, in
which case the Go code would read a detached node; the model keeps the
cache unchanged in that situation — no claim depends on that branch). -/
def elemOfId {α : Type} : TreeNode α → Nat → Option α
  | .nil, _ => none
  | .node i _ l x r, j =>
      if i = j then some x
      else (elemOfId l j).orElse (fun _ => elemOfId r j)

/-- The id of the root node of a subtree (the pointer value). -/
def rootId {α : Type} : TreeNode α → Option Nat
  | .nil => none
  | .node i _ _ _ _ => some i

/-! ### `Walk` (source lines 40-59) -/

/-- The descent loop of `Walk`: `for t.child[1-d] != nil { t = t.child[1-d] }`,
where `dd` is the descent direction `1-d`. -/
def walkDown {α : Type} (dd : Dir) : TreeNode α → List (Frame α) →
    TreeNode α × List (Frame α)
  | .nil, path => (.nil, path)
  | .node i b l x r, path =>
      match dd with
      | .left =>
          match l with
          | .nil => (.node i b l x r, path)
          | .node li lb ll lx lr =>
              walkDown .left (.node li lb ll lx lr) (⟨.left, i, b, x, r⟩ :: path)
      | .right =>
          match r with
          | .nil => (.node i b l x r, path)
          | .node ri rb rl rx rr =>
              walkDown .right (.node ri rb rl rx rr) (⟨.right, i, b, x, l⟩ :: path)

/-- The climb loop of `Walk`: `for t.parent != nil && childDir(t) == d
{ t = t.parent }; return t.parent`.  The head frame's `dir` is `childDir`. -/
def walkUp {α : Type} (d : Dir) : List (Frame α) → TreeNode α →
    Option (TreeNode α × List (Frame α))
  | [], _ => none
  | f :: rest, t =>
      if f.dir = d then walkUp d rest (f.close t)
      else some (f.close t, rest)

/-- `n.Walk(d)`: the in-order neighbor of the focused node in direction
`d`, as a zipper location (`none` = the source returns nil). -/
def Walk {α : Type} (t : TreeNode α) (path : List (Frame α)) (d : Dir) :
    Option (TreeNode α × List (Frame α)) :=
  match t with
  | .nil => none
  | .node i b l x r =>
      match d with
      | .left =>
          match l with
          | .nil => walkUp .left path (.node i b l x r)
          | .node li lb ll lx lr =>
              some (walkDown .right (.node li lb ll lx lr) (⟨.left, i, b, x, r⟩ :: path))
      | .right =>
          match r with
          | .nil => walkUp .right path (.node i b l x r)
          | .node ri rb rl rx rr =>
              some (walkDown .left (.node ri rb rl rx rr) (⟨.right, i, b, x, l⟩ :: path))

/-! ### Insertion (source lines 70-139) -/

/-- `insertionRebalance` (source lines 102-139), expressed on the parent
chain of the freshly placed red node `e`.  The loop climbs two ancestors
per iteration (parent and grandparent); rotations are expressed by
rebuilding the affected ancestors around the focus.  The `.nil` focus case
is unreachable: the focus is always the (non-nil) node `e` of the source. -/
def insertionRebalance {α : Type} (e : TreeNode α) : List (Frame α) → TreeNode α
  | [] => e
  | f :: rest =>
      if f.black then
        -- parent black: invariants hold
        plug e (f :: rest)
      else
        match rest with
        | [] =>
            -- parent is red and the root: recolor it black
            plug e [⟨f.dir, f.id, true, f.elem, f.sib⟩]
        | g :: rest2 =>
            if g.sib.isRed then
              -- parent and uncle red: recolor both black, grandparent red,
              -- continue from the grandparent
              insertionRebalance
                (mkN g.dir g.id false (mkN f.dir f.id true e f.elem f.sib)
                  g.elem g.sib.paintBlack) rest2
            else
              if f.dir = g.dir then
                -- outer grandchild: rotate the grandparent away from the
                -- parent, parent black, grandparent red
                plug (mkN g.dir f.id true e f.elem
                  (mkN g.dir g.id false f.sib g.elem g.sib)) rest2
              else
                -- inner grandchild (`e == parent.child[1-dir]`): rotate the
                -- parent then the grandparent; `e` ends on top, black
                match e with
                | .nil => plug e (f :: g :: rest2)
                | .node ei _ el ex er =>
                    plug (mkN g.dir ei true
                      (mkN g.dir f.id false f.sib f.elem
                        ((TreeNode.node ei false el ex er).child g.dir))
                      ex
                      (mkN g.dir g.id false
                        ((TreeNode.node ei false el ex er).child g.dir.flip)
                        g.elem g.sib)) rest2

/-- `putRecursive` (source lines 81-100): BST descent; on a nil slot the
new red node `e` is placed and `insertionRebalance` runs from it (the
returned flag records whether `size` was incremented); on an equal node
the payload is overwritten in place. -/
def putRecursive {α : Type} (lt : α → α → Bool) :
    TreeNode α → α → Nat → List (Frame α) → TreeNode α × Bool
  | .nil, e, eid, path =>
      (insertionRebalance (.node eid false .nil e .nil) path, true)
  | .node i b l x r, e, eid, path =>
      if lt e x then putRecursive lt l e eid (⟨.left, i, b, x, r⟩ :: path)
      else if lt x e then putRecursive lt r e eid (⟨.right, i, b, x, l⟩ :: path)
      else (plug (.node i b l e r) path, false)

/-- `Put` (source lines 70-79): insert, then update the `first`/`last`
caches by comparing the new node's element against the elements of the
cached nodes. -/
def Put {α : Type} (lt : α → α → Bool) (m : RedBlackTree α) (elem : α) :
    RedBlackTree α :=
  let res := putRecursive lt m.root elem m.nextId []
  let first1 : Option Nat :=
    match m.first with
    | none => some m.nextId
    | some fid =>
        match elemOfId res.1 fid with
        | some fe => if lt elem fe then some m.nextId else m.first
        | none => m.first
  let last1 : Option Nat :=
    match m.last with
    | none => some m.nextId
    | some lid =>
        match elemOfId res.1 lid with
        | some le => if lt le elem then some m.nextId else m.last
        | none => m.last
  { root := res.1, first := first1, last := last1,
    size := m.size + (if res.2 then 1 else 0), nextId := m.nextId + 1 }

/-! ### Lookup (source lines 181-201) -/

/-- `getRecursive`: pure BST descent; `some x` models `(x, true)`. -/
def getRecursive {α : Type} (lt : α → α → Bool) : TreeNode α → α → Option α
  | .nil, _ => none
  | .node _ _ l x r, e =>
      if lt e x then getRecursive lt l e
      else if lt x e then getRecursive lt r e
      else some x

/-- `Get` (source lines 181-183). -/
def Get {α : Type} (lt : α → α → Bool) (m : RedBlackTree α) (elem : α) :
    Option α :=
  getRecursive lt m.root elem

/-- `Has` (source lines 185-188). -/
def Has {α : Type} (lt : α → α → Bool) (m : RedBlackTree α) (elem : α) : Bool :=
  (getRecursive lt m.root elem).isSome

/-- `Len` (source lines 398-400). -/
def Len {α : Type} (m : RedBlackTree α) : Int := m.size

/-- `First` (source lines 402-404): returns the cached `first` pointer. -/
def First {α : Type} (m : RedBlackTree α) : Option Nat := m.first

/-- `Last` (source lines 406-408): the source returns `m.first`, not
`m.last`. -/
def Last {α : Type} (m : RedBlackTree α) : Option Nat := m.first

/-! ### Deletion (source lines 203-396) -/

/-- `balanceBlackLeafForDeletion` (source lines 282-396), expressed as a
transformation of the parent chain of the deficient node `n` (the focus
subtree itself is never modified by the source's rotations, which all
happen at `n`'s ancestors).  `none` models the nil-pointer dereference the
source would perform when reading the children of a nil sibling (lines
302-303, and line 347 after the sibling-red rotation). -/
def balanceBlackLeafForDeletion {α : Type} : List (Frame α) →
    Option (List (Frame α))
  | [] => some []
  | f :: rest =>
      match f.sib with
      | .nil => none
      | .node sid sb sl sx sr =>
          let S : TreeNode α := .node sid sb sl sx sr
          let C := S.child f.dir
          let F := S.child f.dir.flip
          if S.isRed then
            -- case siblingRed: rotate the parent toward `n`, parent red,
            -- sibling black; the old close nephew is the new sibling
            match C with
            | .nil => none
            | .node cid cb2 cl cx cr =>
                let CN : TreeNode α := .node cid cb2 cl cx cr
                let CF := CN.child f.dir.flip
                if CF.isRed then
                  -- then case siblingBlackFarNephewRed
                  some (⟨f.dir, f.id, true, f.elem, CN.child f.dir⟩ ::
                        ⟨f.dir, cid, false, cx, CF.paintBlack⟩ ::
                        ⟨f.dir, sid, true, sx, F⟩ :: rest)
                else
                  if (CN.child f.dir).isRed then
                    -- then case siblingFarNephewBlackCloseNephewRed,
                    -- falling through to siblingBlackFarNephewRed
                    match CN.child f.dir with
                    | .node ccid _ _ ccx _ =>
                        some (⟨f.dir, f.id, true, f.elem,
                                (CN.child f.dir).child f.dir⟩ ::
                              ⟨f.dir, ccid, false, ccx,
                                mkN f.dir cid true
                                  ((CN.child f.dir).child f.dir.flip) cx CF⟩ ::
                              ⟨f.dir, sid, true, sx, F⟩ :: rest)
                    | .nil => none
                  else
                    -- then case parentRedSiblingAndNephewsBlack
                    some (⟨f.dir, f.id, true, f.elem, CN.paintRed⟩ ::
                          ⟨f.dir, sid, true, sx, F⟩ :: rest)
          else if F.isRed then
            -- case siblingBlackFarNephewRed: rotate the parent toward `n`,
            -- sibling takes the parent's color, parent and far nephew black
            some (⟨f.dir, f.id, true, f.elem, C⟩ ::
                  ⟨f.dir, sid, f.black, sx, F.paintBlack⟩ :: rest)
          else if C.isRed then
            -- case siblingFarNephewBlackCloseNephewRed, falling through to
            -- siblingBlackFarNephewRed
            match C with
            | .node cid _ _ cx _ =>
                some (⟨f.dir, f.id, true, f.elem, C.child f.dir⟩ ::
                      ⟨f.dir, cid, f.black, cx,
                        mkN f.dir sid true (C.child f.dir.flip) sx F⟩ :: rest)
            | .nil => none
          else if !f.black then
            -- case parentRedSiblingAndNephewsBlack
            some (⟨f.dir, f.id, true, f.elem, S.paintRed⟩ :: rest)
          else
            -- parent, sibling and nephews black: recolor the sibling red
            -- and continue from the parent
            match balanceBlackLeafForDeletion rest with
            | none => none
            | some rest2 => some (⟨f.dir, f.id, true, f.elem, S.paintRed⟩ :: rest2)

/-- The element of the leftmost node of a subtree (`none` only for nil). -/
def leftmost {α : Type} : TreeNode α → Option α
  | .nil => none
  | .node _ _ .nil x _ => some x
  | .node _ _ (.node li lb ll lx lr) _ _ => leftmost (.node li lb ll lx lr)

/-- The in-order-successor descent of `deleteRecursive` (source lines
226-233): follow left children from the right child, building the parent
chain. -/
def succToSlot {α : Type} : TreeNode α → List (Frame α) →
    TreeNode α × List (Frame α)
  | .nil, path => (.nil, path)
  | .node i b .nil x r, path => (.node i b .nil x r, path)
  | .node i b (.node li lb ll lx lr) x r, path =>
      succToSlot (.node li lb ll lx lr) (⟨.left, i, b, x, r⟩ :: path)

/-- The removal tail of `deleteRecursive` (source lines 238-277): the slot
`u`/`upath` holds the node actually removed (at most one non-nil child).
Only the last path (black, childless, non-root) touches the `first`/`last`
caches. -/
def removeAt {α : Type} (m : RedBlackTree α) (u : TreeNode α)
    (upath : List (Frame α)) : Option (RedBlackTree α) :=
  match u with
  | .nil => some m
  | .node ui ub ul ux ur =>
      if (!ub) || (upath.isEmpty && ul.isNil && ur.isNil) then
        some { m with root := plug .nil upath, size := m.size - 1 }
      else
        match ur with
        | .node ri rb rl rx rr =>
            some { m with
              root := plug (TreeNode.paintBlack (.node ri rb rl rx rr)) upath,
              size := m.size - 1 }
        | .nil =>
            match ul with
            | .node li lb ll lx lr =>
                some { m with
                  root := plug (TreeNode.paintBlack (.node li lb ll lx lr)) upath,
                  size := m.size - 1 }
            | .nil =>
                match balanceBlackLeafForDeletion upath with
                | none => none
                | some upath2 =>
                    let u2 : TreeNode α := .node ui ub ul ux ur
                    let first2 :=
                      if m.first = some ui then
                        (Walk u2 upath2 .right).bind (fun lc => rootId lc.1)
                      else m.first
                    let last2 :=
                      if m.last = some ui then
                        (Walk u2 upath2 .left).bind (fun lc => rootId lc.1)
                      else m.last
                    some { root := plug .nil upath2, first := first2,
                           last := last2, size := m.size - 1,
                           nextId := m.nextId }

/-- `deleteRecursive` (source lines 207-277): BST descent; a miss returns
the tree unchanged; a node with two children swaps its element with its
in-order successor and redirects removal to the successor slot. -/
def deleteRecursive {α : Type} (lt : α → α → Bool) (m : RedBlackTree α) :
    TreeNode α → List (Frame α) → α → Option (RedBlackTree α)
  | .nil, _, _ => some m
  | .node i b l x r, path, elem =>
      if lt elem x then
        deleteRecursive lt m l (⟨.left, i, b, x, r⟩ :: path) elem
      else if lt x elem then
        deleteRecursive lt m r (⟨.right, i, b, x, l⟩ :: path) elem
      else
        match l, r with
        | .node li lb ll lx lr, .node ri rb rl rx rr =>
            match leftmost (.node ri rb rl rx rr) with
            | some y =>
                let sl := succToSlot (.node ri rb rl rx rr)
                  (⟨.right, i, b, y, .node li lb ll lx lr⟩ :: path)
                removeAt m sl.1 sl.2
            | none => none
        | _, _ => removeAt m (.node i b l x r) path

/-- `Delete` (source lines 203-205). -/
def Delete {α : Type} (lt : α → α → Bool) (m : RedBlackTree α) (elem : α) :
    Option (RedBlackTree α) :=
  deleteRecursive lt m m.root [] elem

/-! ## The ordering contract (package `compare`, `Ordering` documentation) -/

/-- The contract a caller-supplied `Ordering` must satisfy (doc comment of
`compare.Ordering`): irreflexivity, transitivity of strictly-before and of
not-strictly-before, and asymmetry. -/
structure OrderingContract {α : Type} (lt : α → α → Bool) : Prop where
  irrefl : ∀ a, lt a a = false
  trans : ∀ a b c, lt a b = true → lt b c = true → lt a c = true
  negTrans : ∀ a b c, lt a b = false → lt b c = false → lt a c = false
  asymm : ∀ a b, lt a b = true → lt b a = false

/-! ## Claim-level red-black predicates

These mirror the properties named by the specification (and checked by the
repository's `validateTree`): no red node has a red child, and every path
from the root to a nil position passes through the same number of black
nodes (`blackHeight` returns `none` on a mismatch, with `validateTree`'s
convention that nil has black height 1). -/

/-- No red node has a red child. -/
def noRedRed {α : Type} : TreeNode α → Bool
  | .nil => true
  | .node _ b l _ r =>
      (b || (l.isBlack && r.isBlack)) && noRedRed l && noRedRed r

/-- The common black height of all root-to-nil paths, `none` on mismatch. -/
def blackHeight {α : Type} : TreeNode α → Option Nat
  | .nil => some 1
  | .node _ b l _ r =>
      match blackHeight l, blackHeight r with
      | some m, some k =>
          if m = k then some (m + (if b then 1 else 0)) else none
      | _, _ => none

theorem Bal.isBlack_eq {α : Type} {t : TreeNode α} {c : Bool} {n : Nat}
    (h : Bal t c n) : t.isBlack = c := by
  cases h <;> rfl

theorem Bal.checks {α : Type} {t : TreeNode α} {c : Bool} {n : Nat}
    (h : Bal t c n) : noRedRed t = true ∧ blackHeight t = some n := by
  induction h with
  | nil => exact ⟨rfl, rfl⟩
  | @red l r x i n hl hr ihl ihr =>
      refine ⟨?_, ?_⟩
      · simp [noRedRed, ihl.1, ihr.1, hl.isBlack_eq, hr.isBlack_eq]
      · simp [blackHeight, ihl.2, ihr.2]
  | @black l r x i cl cr n hl hr ihl ihr =>
      refine ⟨?_, ?_⟩
      · simp [noRedRed, ihl.1, ihr.1]
      · simp [blackHeight, ihl.2, ihr.2]

theorem Bal.of_checks {α : Type} {t : TreeNode α} :
    ∀ {n : Nat}, noRedRed t = true → blackHeight t = some n →
      Bal t t.isBlack n := by
  induction t with
  | nil =>
      intro n _ hbh
      have h1 : (1 : Nat) = n := by
        simpa [blackHeight] using hbh
      subst h1; exact .nil
  | node i b l x r ihl ihr =>
      intro n hnr hbh
      simp only [noRedRed, Bool.and_eq_true] at hnr
      obtain ⟨⟨hcol, hl⟩, hr⟩ := hnr
      simp only [blackHeight] at hbh
      cases hbl : blackHeight l with
      | none => rw [hbl] at hbh; cases hbr : blackHeight r <;> rw [hbr] at hbh <;> cases hbh
      | some m =>
          cases hbr : blackHeight r with
          | none => rw [hbl, hbr] at hbh; cases hbh
          | some k =>
              rw [hbl, hbr] at hbh
              replace hbh : (if m = k then some (m + (if b = true then 1 else 0))
                  else (none : Option Nat)) = some n := hbh
              by_cases hmk : m = k
              · subst hmk
                rw [if_pos rfl] at hbh
                have Hl := ihl hl hbl
                have Hr := ihr hr hbr
                cases b with
                | false =>
                    simp only [Bool.false_or, Bool.and_eq_true] at hcol
                    have hn : m = n := by simpa using hbh
                    subst hn
                    exact Bal.red (hcol.1 ▸ Hl) (hcol.2 ▸ Hr)
                | true =>
                    have hn : m + 1 = n := by simpa using hbh
                    subst hn
                    exact Bal.black Hl Hr
              · rw [if_neg hmk] at hbh; cases hbh

theorem Bal.red_inv {α : Type} {t : TreeNode α} {n : Nat}
    (h : Bal t false n) :
    ∃ i el x er, t = .node i false el x er ∧ Bal el true n ∧ Bal er true n := by
  cases h with
  | red hl hr => exact ⟨_, _, _, _, rfl, hl, hr⟩

theorem Bal.isRed_of_node {α : Type} {t : TreeNode α} {c : Bool} {n : Nat}
    (h : Bal t c n) (hr : t.isRed = true) : c = false := by
  cases h with
  | nil => cases hr
  | red _ _ => rfl
  | black _ _ => cases hr

theorem Bal.isRed_false {α : Type} {t : TreeNode α} {c : Bool} {n : Nat}
    (h : Bal t c n) (hr : t.isRed = false) : c = true := by
  cases h with
  | nil => rfl
  | red _ _ => cases hr
  | black _ _ => rfl

/-! Branch-unfolding equations for `insertionRebalance`. -/

theorem insRe_parentBlack {α : Type} (e : TreeNode α) (d : Dir) (i : Nat)
    (x : α) (sib : TreeNode α) (rest : List (Frame α)) :
    insertionRebalance e (⟨d, i, true, x, sib⟩ :: rest) =
      plug e (⟨d, i, true, x, sib⟩ :: rest) := by
  rw [insertionRebalance.eq_def]
  simp

theorem insRe_redRoot {α : Type} (e : TreeNode α) (d : Dir) (i : Nat)
    (x : α) (sib : TreeNode α) :
    insertionRebalance e [⟨d, i, false, x, sib⟩] =
      plug e [⟨d, i, true, x, sib⟩] := by
  rw [insertionRebalance.eq_def]
  simp

theorem insRe_uncleRed {α : Type} (e : TreeNode α) (d : Dir) (i : Nat)
    (x : α) (sib : TreeNode α) (g : Frame α) (rest2 : List (Frame α))
    (hyp : g.sib.isRed = true) :
    insertionRebalance e (⟨d, i, false, x, sib⟩ :: g :: rest2) =
      insertionRebalance
        (mkN g.dir g.id false (mkN d i true e x sib) g.elem g.sib.paintBlack)
        rest2 := by
  rw [insertionRebalance.eq_def]
  simp [hyp]

theorem insRe_outer {α : Type} (e : TreeNode α) (d : Dir) (i : Nat)
    (x : α) (sib : TreeNode α) (g : Frame α) (rest2 : List (Frame α))
    (hyp : g.sib.isRed = false) (hdir : d = g.dir) :
    insertionRebalance e (⟨d, i, false, x, sib⟩ :: g :: rest2) =
      plug (mkN g.dir i true e x (mkN g.dir g.id false sib g.elem g.sib))
        rest2 := by
  rw [insertionRebalance.eq_def]
  simp [hyp, hdir]

theorem insRe_inner {α : Type} (ei : Nat) (eb : Bool) (el er : TreeNode α)
    (ex : α) (d : Dir) (i : Nat) (x : α) (sib : TreeNode α) (g : Frame α)
    (rest2 : List (Frame α)) (hyp : g.sib.isRed = false) (hdir : ¬d = g.dir) :
    insertionRebalance (.node ei eb el ex er)
        (⟨d, i, false, x, sib⟩ :: g :: rest2) =
      plug (mkN g.dir ei true
          (mkN g.dir i false sib x ((TreeNode.node ei false el ex er).child g.dir))
          ex
          (mkN g.dir g.id false
            ((TreeNode.node ei false el ex er).child g.dir.flip) g.elem g.sib))
        rest2 := by
  rw [insertionRebalance.eq_def]
  simp [hyp, hdir]

/-- `insertionRebalance` restores the balance invariant: starting from a
red focus whose parent chain is a balanced context, the rebuilt tree is
balanced (with some root color and black height). -/
theorem insertionRebalance_bal {α : Type} (e : TreeNode α)
    (path : List (Frame α)) :
    ∀ {n N : Nat} {cb : Bool}, Bal e false n → CtxBal path cb n N →
      ∃ c N2, Bal (insertionRebalance e path) c N2 := by
  induction e, path using insertionRebalance.induct with
  | case1 e => exact fun he _ => ⟨false, _, he⟩
  | case2 e f rest hfb =>
      intro n N cb he hctx
      obtain ⟨d, i, fb, x, sib⟩ := f
      simp only at hfb
      subst hfb
      cases hctx with
      | blackF hs hrest =>
          rw [insRe_parentBlack, plug_cons]
          obtain ⟨c2, h2⟩ := hrest.fill (Bal.mk_black d i x he hs) (fun _ => rfl)
          exact ⟨c2, _, h2⟩
  | case3 e f hfb =>
      intro n N cb he hctx
      obtain ⟨d, i, fb, x, sib⟩ := f
      simp only [Bool.not_eq_true] at hfb
      subst hfb
      cases hctx with
      | redF hs hrest =>
          cases hrest with
          | root =>
              rw [insRe_redRoot, plug_cons, plug_nil]
              exact ⟨true, _, Bal.mk_black d i x he hs⟩
  | case4 e f hfb g rest2 hyp ih =>
      intro n N cb he hctx
      obtain ⟨d, i, fb, x, sib⟩ := f
      simp only [Bool.not_eq_true] at hfb
      subst hfb
      cases hctx with
      | redF hs hrest =>
          cases hrest with
          | blackF hgs hrest2 =>
              rw [insRe_uncleRed _ _ _ _ _ _ _ hyp]
              have hgsc := hgs.isRed_of_node hyp
              subst hgsc
              exact ih (Bal.mk_red _ _ _
                (Bal.mk_black _ _ _ he hs) hgs.paintBlack) hrest2
  | case5 e f hfb g rest2 hyp hdir =>
      intro n N cb he hctx
      obtain ⟨d, i, fb, x, sib⟩ := f
      simp only [Bool.not_eq_true] at hfb
      subst hfb
      simp only [Bool.not_eq_true] at hyp
      cases hctx with
      | redF hs hrest =>
          cases hrest with
          | blackF hgs hrest2 =>
              rw [insRe_outer _ _ _ _ _ _ _ hyp hdir]
              have hgsc := hgs.isRed_false hyp
              subst hgsc
              obtain ⟨c2, h2⟩ := hrest2.fill
                (Bal.mk_black _ _ _ he (Bal.mk_red _ _ _ hs hgs))
                (fun _ => rfl)
              exact ⟨c2, _, h2⟩
  | case6 f hfb g rest2 hyp hdir =>
      intro n N cb he hctx
      cases he
  | case7 f hfb g rest2 hyp hdir ei eb el ex er =>
      intro n N cb he hctx
      obtain ⟨d, i, fb, x, sib⟩ := f
      simp only [Bool.not_eq_true] at hfb
      subst hfb
      simp only [Bool.not_eq_true] at hyp
      cases hctx with
      | redF hs hrest =>
          cases hrest with
          | blackF hgs hrest2 =>
              have hgsc := hgs.isRed_false hyp
              subst hgsc
              cases he with
              | red hel her =>
                  rw [insRe_inner _ _ _ _ _ _ _ _ _ _ _ hyp hdir]
                  have hch : ∀ dd,
                      Bal ((TreeNode.node ei false el ex er).child dd) true n := by
                    intro dd; cases dd <;> [exact hel; exact her]
                  obtain ⟨c2, h2⟩ := hrest2.fill
                    (Bal.mk_black _ _ _
                      (Bal.mk_red _ _ _ hs (hch _)) (Bal.mk_red _ _ _ (hch _) hgs))
                    (fun _ => rfl)
                  exact ⟨c2, _, h2⟩

/-! ## Deletion rebalance: balance bookkeeping -/

@[simp] theorem child_mkN_self {α : Type} (d : Dir) (i : Nat) (b : Bool)
    (a : TreeNode α) (x : α) (s : TreeNode α) : (mkN d i b a x s).child d = a := by
  cases d <;> rfl

@[simp] theorem child_mkN_flip {α : Type} (d : Dir) (i : Nat) (b : Bool)
    (a : TreeNode α) (x : α) (s : TreeNode α) :
    (mkN d i b a x s).child d.flip = s := by
  cases d <;> rfl

@[simp] theorem isRed_mkN {α : Type} (d : Dir) (i : Nat) (b : Bool)
    (a : TreeNode α) (x : α) (s : TreeNode α) : (mkN d i b a x s).isRed = !b := by
  cases d <;> rfl

@[simp] theorem paintRed_mkN {α : Type} (d : Dir) (i : Nat) (b : Bool)
    (a : TreeNode α) (x : α) (s : TreeNode α) :
    (mkN d i b a x s).paintRed = mkN d i false a x s := by
  cases d <;> rfl

@[simp] theorem paintBlack_mkN {α : Type} (d : Dir) (i : Nat) (b : Bool)
    (a : TreeNode α) (x : α) (s : TreeNode α) :
    (mkN d i b a x s).paintBlack = mkN d i true a x s := by
  cases d <;> rfl

/-- Present a node through its children in a given direction. -/
theorem node_eq_mkN {α : Type} (d : Dir) (i : Nat) (b : Bool)
    (l : TreeNode α) (x : α) (r : TreeNode α) :
    TreeNode.node i b l x r =
      mkN d i b ((TreeNode.node i b l x r).child d) x
        ((TreeNode.node i b l x r).child d.flip) := by
  cases d <;> rfl

theorem Bal.mk_black_inv {α : Type} {d : Dir} {i : Nat} {a s : TreeNode α}
    {x : α} {c : Bool} {n : Nat} (h : Bal (mkN d i true a x s) c n) :
    ∃ ca cs m, n = m + 1 ∧ c = true ∧ Bal a ca m ∧ Bal s cs m := by
  cases d with
  | left => cases h with | black hl hr => exact ⟨_, _, _, rfl, rfl, hl, hr⟩
  | right => cases h with | black hl hr => exact ⟨_, _, _, rfl, rfl, hr, hl⟩

theorem Bal.mk_red_inv {α : Type} {d : Dir} {i : Nat} {a s : TreeNode α}
    {x : α} {c : Bool} {n : Nat} (h : Bal (mkN d i false a x s) c n) :
    c = false ∧ Bal a true n ∧ Bal s true n := by
  cases d with
  | left => cases h with | red hl hr => exact ⟨rfl, hl, hr⟩
  | right => cases h with | red hl hr => exact ⟨rfl, hr, hl⟩

/-! Branch-unfolding equations for `balanceBlackLeafForDeletion`, stating
each sibling subtree through its children in the deficient node's
direction (`mkN d sid _ C sx F` has close nephew `C` and far nephew `F`). -/

theorem balDel_nilSib {α : Type} (d : Dir) (i : Nat) (fb : Bool) (x : α)
    (rest : List (Frame α)) :
    balanceBlackLeafForDeletion (⟨d, i, fb, x, .nil⟩ :: rest) = none := by
  rw [balanceBlackLeafForDeletion.eq_def]

theorem balDel_sibRed_nilC {α : Type} (d : Dir) (i : Nat) (fb : Bool) (x : α)
    (sid : Nat) (sx : α) (F : TreeNode α) (rest : List (Frame α)) :
    balanceBlackLeafForDeletion (⟨d, i, fb, x, mkN d sid false .nil sx F⟩ :: rest) =
      none := by
  cases d <;>
    · rw [balanceBlackLeafForDeletion.eq_def]
      simp [mkN]

theorem balDel_sibRed_farRed {α : Type} (d : Dir) (i : Nat) (fb : Bool) (x : α)
    (sid : Nat) (sx : α) (cid : Nat) (cb2 : Bool) (CC : TreeNode α) (cx : α)
    (CF F : TreeNode α) (rest : List (Frame α)) (hCF : CF.isRed = true) :
    balanceBlackLeafForDeletion
        (⟨d, i, fb, x, mkN d sid false (mkN d cid cb2 CC cx CF) sx F⟩ :: rest) =
      some (⟨d, i, true, x, CC⟩ :: ⟨d, cid, false, cx, CF.paintBlack⟩ ::
            ⟨d, sid, true, sx, F⟩ :: rest) := by
  cases d <;>
    · rw [balanceBlackLeafForDeletion.eq_def]
      simp [mkN, hCF]

theorem balDel_sibRed_closeRed {α : Type} (d : Dir) (i : Nat) (fb : Bool)
    (x : α) (sid : Nat) (sx : α) (cid : Nat) (cb2 : Bool) (cx : α)
    (ccid : Nat) (CCC : TreeNode α) (ccx : α) (CCF CF F : TreeNode α)
    (rest : List (Frame α)) (hCF : CF.isRed = false) :
    balanceBlackLeafForDeletion
        (⟨d, i, fb, x,
          mkN d sid false (mkN d cid cb2 (mkN d ccid false CCC ccx CCF) cx CF)
            sx F⟩ :: rest) =
      some (⟨d, i, true, x, CCC⟩ ::
            ⟨d, ccid, false, ccx, mkN d cid true CCF cx CF⟩ ::
            ⟨d, sid, true, sx, F⟩ :: rest) := by
  cases d <;>
    · rw [balanceBlackLeafForDeletion.eq_def]
      simp [mkN, hCF]

theorem balDel_sibRed_bothBlack {α : Type} (d : Dir) (i : Nat) (fb : Bool)
    (x : α) (sid : Nat) (sx : α) (cid : Nat) (cb2 : Bool) (CC : TreeNode α)
    (cx : α) (CF F : TreeNode α) (rest : List (Frame α))
    (hCF : CF.isRed = false) (hCC : CC.isRed = false) :
    balanceBlackLeafForDeletion
        (⟨d, i, fb, x, mkN d sid false (mkN d cid cb2 CC cx CF) sx F⟩ :: rest) =
      some (⟨d, i, true, x, mkN d cid false CC cx CF⟩ ::
            ⟨d, sid, true, sx, F⟩ :: rest) := by
  cases d <;>
    · rw [balanceBlackLeafForDeletion.eq_def]
      simp [mkN, hCF, hCC]

theorem balDel_farRed {α : Type} (d : Dir) (i : Nat) (fb : Bool) (x : α)
    (sid : Nat) (sx : α) (C F : TreeNode α) (rest : List (Frame α))
    (hF : F.isRed = true) :
    balanceBlackLeafForDeletion (⟨d, i, fb, x, mkN d sid true C sx F⟩ :: rest) =
      some (⟨d, i, true, x, C⟩ :: ⟨d, sid, fb, sx, F.paintBlack⟩ :: rest) := by
  cases d <;>
    · rw [balanceBlackLeafForDeletion.eq_def]
      simp [mkN, hF]

theorem balDel_closeRed {α : Type} (d : Dir) (i : Nat) (fb : Bool) (x : α)
    (sid : Nat) (sx : α) (cid : Nat) (CC : TreeNode α) (cx : α)
    (CF F : TreeNode α) (rest : List (Frame α)) (hF : F.isRed = false) :
    balanceBlackLeafForDeletion
        (⟨d, i, fb, x, mkN d sid true (mkN d cid false CC cx CF) sx F⟩ :: rest) =
      some (⟨d, i, true, x, CC⟩ ::
            ⟨d, cid, fb, cx, mkN d sid true CF sx F⟩ :: rest) := by
  cases d <;>
    · rw [balanceBlackLeafForDeletion.eq_def]
      simp [mkN, hF]

theorem balDel_parentRed {α : Type} (d : Dir) (i : Nat) (x : α)
    (sid : Nat) (sx : α) (C F : TreeNode α) (rest : List (Frame α))
    (hF : F.isRed = false) (hC : C.isRed = false) :
    balanceBlackLeafForDeletion
        (⟨d, i, false, x, mkN d sid true C sx F⟩ :: rest) =
      some (⟨d, i, true, x, mkN d sid false C sx F⟩ :: rest) := by
  cases d <;>
    · rw [balanceBlackLeafForDeletion.eq_def]
      simp [mkN, hF, hC]

theorem balDel_allBlack {α : Type} (d : Dir) (i : Nat) (x : α)
    (sid : Nat) (sx : α) (C F : TreeNode α) (rest : List (Frame α))
    (hF : F.isRed = false) (hC : C.isRed = false) :
    balanceBlackLeafForDeletion
        (⟨d, i, true, x, mkN d sid true C sx F⟩ :: rest) =
      (balanceBlackLeafForDeletion rest).map
        (fun rest2 => ⟨d, i, true, x, mkN d sid false C sx F⟩ :: rest2) := by
  cases d <;>
    · rw [balanceBlackLeafForDeletion.eq_def]
      simp [mkN, hF, hC]
      cases balanceBlackLeafForDeletion rest <;> simp

/-- A red balanced tree decomposes as an `mkN` node in any direction. -/
theorem Bal.red_as_mk {α : Type} (d : Dir) {t : TreeNode α} {n : Nat}
    (h : Bal t false n) :
    ∃ i a x s, t = mkN d i false a x s ∧ Bal a true n ∧ Bal s true n := by
  cases h with
  | @red l r x i m hl hr =>
      cases d with
      | left => exact ⟨i, l, x, r, rfl, hl, hr⟩
      | right => exact ⟨i, r, x, l, rfl, hr, hl⟩

/-- A black balanced tree of height at least 2 decomposes as a black `mkN`
node in any direction. -/
theorem Bal.black_as_mk {α : Type} (d : Dir) {t : TreeNode α} {b : Nat}
    (h : Bal t true (b + 2)) :
    ∃ i a x s ca cs, t = mkN d i true a x s ∧ Bal a ca (b + 1) ∧
      Bal s cs (b + 1) := by
  cases h with
  | @black l r x i cl cr m hl hr =>
      cases d with
      | left => exact ⟨i, l, x, r, cl, cr, rfl, hl, hr⟩
      | right => exact ⟨i, r, x, l, cr, cl, rfl, hr, hl⟩

/-- The deletion rebalance transforms the parent chain of the deficient
node so that the context afterwards expects a black height one lower at
the focus slot: the sibling is never nil (no panic there), and filling the
new context with a tree of black height `b + 1` rebalances the whole
tree. -/
theorem balanceBlackLeafForDeletion_bal {α : Type} (path : List (Frame α)) :
    ∀ {cb : Bool} {b N : Nat}, CtxBal path cb (b + 2) N →
      ∃ path2 N2, balanceBlackLeafForDeletion path = some path2 ∧
        CtxBal path2 false (b + 1) N2 := by
  induction path with
  | nil =>
      intro cb b N _
      exact ⟨[], b + 1, rfl, .root⟩
  | cons f rest ih =>
      intro cb b N hctx
      obtain ⟨d, i, fb, x, S⟩ := f
      cases hctx with
      | redF hS hrest =>
          -- the parent is red, so the sibling is black of height b+2
          obtain ⟨sid, C, sx, F, cC, cF, hSeq, hC, hF⟩ := hS.black_as_mk d
          subst hSeq
          cases hFr : F.isRed with
          | true =>
              -- case siblingBlackFarNephewRed
              have hcF := hF.isRed_of_node hFr
              subst hcF
              exact ⟨_, N, balDel_farRed d i false x sid sx _ _ rest hFr,
                .blackF hC (.redF hF.paintBlack hrest)⟩
          | false =>
              have hcF := hF.isRed_false hFr
              subst hcF
              cases hCr : C.isRed with
              | true =>
                  -- case siblingFarNephewBlackCloseNephewRed
                  have hcC := hC.isRed_of_node hCr
                  subst hcC
                  obtain ⟨cid, CC, cx, CF, hCeq, hCC, hCF⟩ := hC.red_as_mk d
                  subst hCeq
                  exact ⟨_, N, balDel_closeRed d i false x sid sx cid CC cx CF _
                      rest hFr,
                    .blackF hCC
                      (.redF (Bal.mk_black d sid sx hCF hF) hrest)⟩
              | false =>
                  -- case parentRedSiblingAndNephewsBlack
                  have hcC := hC.isRed_false hCr
                  subst hcC
                  exact ⟨_, N, balDel_parentRed d i x sid sx _ _ rest hFr hCr,
                    .blackF (Bal.mk_red d sid sx hC hF) hrest⟩
      | blackF hS hrest =>
          cases hSr : S.isRed with
          | true =>
              -- case siblingRed
              have hcS := hS.isRed_of_node hSr
              subst hcS
              obtain ⟨sid, C, sx, F, hSeq, hC, hF⟩ := hS.red_as_mk d
              subst hSeq
              obtain ⟨cid, CC, cx, CF, cCC, cCF, hCeq, hCC, hCF⟩ := hC.black_as_mk d
              subst hCeq
              cases hCFr : CF.isRed with
              | true =>
                  have hcCF := hCF.isRed_of_node hCFr
                  subst hcCF
                  exact ⟨_, N,
                    balDel_sibRed_farRed d i true x sid sx cid true CC cx CF _
                      rest hCFr,
                    .blackF hCC
                      (.redF hCF.paintBlack (.blackF hF hrest))⟩
              | false =>
                  have hcCF := hCF.isRed_false hCFr
                  subst hcCF
                  cases hCCr : CC.isRed with
                  | true =>
                      have hcCC := hCC.isRed_of_node hCCr
                      subst hcCC
                      obtain ⟨ccid, CCC, ccx, CCF, hCCeq, hCCC, hCCF⟩ :=
                        hCC.red_as_mk d
                      subst hCCeq
                      exact ⟨_, N,
                        balDel_sibRed_closeRed d i true x sid sx cid true cx
                          ccid CCC ccx CCF CF _ rest hCFr,
                        .blackF hCCC
                          (.redF (Bal.mk_black d cid cx hCCF hCF)
                            (.blackF hF hrest))⟩
                  | false =>
                      have hcCC := hCC.isRed_false hCCr
                      subst hcCC
                      exact ⟨_, N,
                        balDel_sibRed_bothBlack d i true x sid sx cid true CC
                          cx CF _ rest hCFr hCCr,
                        .blackF (Bal.mk_red d cid cx hCC hCF)
                          (.blackF hF hrest)⟩
          | false =>
              have hcS := hS.isRed_false hSr
              subst hcS
              obtain ⟨sid, C, sx, F, cC, cF, hSeq, hC, hF⟩ := hS.black_as_mk d
              subst hSeq
              cases hFr : F.isRed with
              | true =>
                  have hcF := hF.isRed_of_node hFr
                  subst hcF
                  exact ⟨_, N, balDel_farRed d i true x sid sx _ _ rest hFr,
                    .blackF hC (.blackF hF.paintBlack hrest)⟩
              | false =>
                  have hcF := hF.isRed_false hFr
                  subst hcF
                  cases hCr : C.isRed with
                  | true =>
                      have hcC := hC.isRed_of_node hCr
                      subst hcC
                      obtain ⟨cid, CC, cx, CF, hCeq, hCC, hCF⟩ := hC.red_as_mk d
                      subst hCeq
                      exact ⟨_, N,
                        balDel_closeRed d i true x sid sx cid CC cx CF _
                          rest hFr,
                        .blackF hCC
                          (.blackF (Bal.mk_black d sid sx hCF hF) hrest)⟩
                  | false =>
                      have hcC := hC.isRed_false hCr
                      subst hcC
                      -- all black: recolor the sibling red and climb
                      obtain ⟨rest2, N2, heq, hctx2⟩ := ih hrest
                      refine ⟨⟨d, i, true, x, mkN d sid false C sx F⟩ :: rest2,
                        N2, ?_, ?_⟩
                      · rw [balDel_allBlack d i x sid sx _ _ rest hFr hCr, heq]
                        rfl
                      · exact .blackF (Bal.mk_red d sid sx hC hF) hctx2

/-! ## Balance preservation by `Put` and `Delete` -/

/-- A context whose hole admits a red tree has `cb = false`. -/
theorem CtxBal.of_red {α : Type} {path : List (Frame α)} {cb : Bool}
    {n N : Nat} (h : CtxBal path cb n N) (hc : cb = true → false = true) :
    CtxBal path false n N := by
  cases cb with
  | false => exact h
  | true => cases hc rfl

/-- Replacing the payload of a node does not affect balance. -/
theorem Bal.set_elem {α : Type} {i : Nat} {b : Bool} {l r : TreeNode α}
    {x : α} {c : Bool} {n : Nat} (h : Bal (.node i b l x r) c n) (e : α) :
    Bal (.node i b l e r) c n := by
  cases h with
  | red hl hr => exact .red hl hr
  | black hl hr => exact .black hl hr

/-- `putRecursive` keeps the tree balanced. -/
theorem putRecursive_bal {α : Type} (lt : α → α → Bool) (t : TreeNode α)
    (e : α) (eid : Nat) (path : List (Frame α)) :
    ∀ {c cb : Bool} {n N : Nat}, Bal t c n → CtxBal path cb n N →
      (cb = true → c = true) →
      ∃ c2 N2, Bal (putRecursive lt t e eid path).1 c2 N2 := by
  induction t generalizing path with
  | nil =>
      intro c cb n N ht hctx hcompat
      cases ht
      exact insertionRebalance_bal _ path (.red .nil .nil) hctx
  | node i b l x r ihl ihr =>
      intro c cb n N ht hctx hcompat
      rw [putRecursive]
      by_cases h1 : lt e x = true
      · rw [if_pos h1]
        cases ht with
        | red hl hr =>
            exact ihl _ hl (.redF hr (hctx.of_red hcompat)) (fun _ => rfl)
        | black hl hr =>
            exact ihl _ hl (.blackF hr hctx) (fun h => by cases h)
      · rw [if_neg h1]
        by_cases h2 : lt x e = true
        · rw [if_pos h2]
          cases ht with
          | red hl hr =>
              exact ihr _ hr (.redF hl (hctx.of_red hcompat)) (fun _ => rfl)
          | black hl hr =>
              exact ihr _ hr (.blackF hl hctx) (fun h => by cases h)
        · rw [if_neg h2]
          obtain ⟨c2, h2⟩ := hctx.fill (ht.set_elem e) hcompat
          exact ⟨c2, _, h2⟩

/-- `Put` keeps the tree balanced. -/
theorem Put_bal {α : Type} (lt : α → α → Bool) (m : RedBlackTree α) (e : α)
    (h : ∃ c n, Bal m.root c n) :
    ∃ c2 N2, Bal (Put lt m e).root c2 N2 := by
  obtain ⟨c, n, h⟩ := h
  have := putRecursive_bal lt m.root e m.nextId [] h .root (fun hc => by cases hc)
  simpa [Put] using this

/-- A non-nil tree has a leftmost element. -/
theorem leftmost_isSome {α : Type} :
    ∀ (t : TreeNode α), t.isNil = false → (leftmost t).isSome = true := by
  intro t
  induction t with
  | nil => intro h; cases h
  | node i b l x r ihl ihr =>
      intro _
      cases l with
      | nil => rw [leftmost]; rfl
      | node li lb ll lx lr => rw [leftmost]; exact ihl rfl

/-- The balance facts for the slot returned by `succToSlot`: its focus is a
node without left child, balanced in a balanced context. -/
theorem succToSlot_bal {α : Type} (t : TreeNode α) (path : List (Frame α)) :
    ∀ {c cb : Bool} {n N : Nat}, Bal t c n → CtxBal path cb n N →
      (cb = true → c = true) → t.isNil = false →
      ∃ ui ub ux ur upath2 cu cbu nu,
        succToSlot t path = (.node ui ub .nil ux ur, upath2) ∧
        Bal (.node ui ub .nil ux ur) cu nu ∧
        CtxBal upath2 cbu nu N ∧ (cbu = true → cu = true) := by
  induction t generalizing path with
  | nil => intro _ _ _ _ _ _ _ hnil; cases hnil
  | node i b l x r ihl ihr =>
      intro c cb n N ht hctx hcompat _
      cases l with
      | nil =>
          refine ⟨i, b, x, r, path, c, cb, n, ?_, ht, hctx, hcompat⟩
          rw [succToSlot]
      | node li lb ll lx lr =>
          rw [succToSlot]
          cases ht with
          | red hl hr =>
              exact ihl _ hl (.redF hr (hctx.of_red hcompat))
                (fun _ => rfl) rfl
          | black hl hr =>
              exact ihl _ hl (.blackF hr hctx) (fun h => by cases h) rfl

/-- `removeAt` (the removal tail of `deleteRecursive`) succeeds and keeps
the tree balanced, provided the removed node has at most one non-nil
child. -/
theorem removeAt_bal {α : Type} (m : RedBlackTree α) (ui : Nat) (ub : Bool)
    (ul ur : TreeNode α) (ux : α) (upath : List (Frame α)) :
    ∀ {cu cb : Bool} {n N : Nat}, Bal (.node ui ub ul ux ur) cu n →
      CtxBal upath cb n N → (cb = true → cu = true) →
      (ul = .nil ∨ ur = .nil) →
      ∃ m2, removeAt m (.node ui ub ul ux ur) upath = some m2 ∧
        ∃ c2 N2, Bal m2.root c2 N2 := by
  intro cu cb n N hu hctx hcompat hone
  cases ub with
  | false =>
      -- red node: by balance it has black height 1 and both children nil
      cases hu with
      | red hl hr =>
          cases hone with
          | inl h =>
              subst h
              cases hl
              cases hr with
              | nil =>
                  rw [removeAt.eq_def]
                  simp only [TreeNode.isNil, Bool.not_false, Bool.true_or,
                    if_true]
                  obtain ⟨c2, h2⟩ := hctx.fill .nil (fun _ => rfl)
                  exact ⟨_, rfl, c2, N, h2⟩
              | black hbl hbr => exact absurd hbl.one_le (by omega)
          | inr h =>
              subst h
              cases hr
              cases hl with
              | nil =>
                  rw [removeAt.eq_def]
                  simp only [TreeNode.isNil, Bool.not_false, Bool.true_or,
                    if_true]
                  obtain ⟨c2, h2⟩ := hctx.fill .nil (fun _ => rfl)
                  exact ⟨_, rfl, c2, N, h2⟩
              | black hbl hbr => exact absurd hbl.one_le (by omega)
  | true =>
      cases hu with
      | @black _ _ _ _ cl cr m2 hl hr =>
          rw [removeAt.eq_def]
          cases hpath : upath with
          | nil =>
              subst hpath
              cases hctx with
              | root =>
                  cases hul : ul with
                  | nil =>
                      cases hur : ur with
                      | nil =>
                          simp only [TreeNode.isNil, List.isEmpty_nil,
                            Bool.not_true, Bool.and_true, Bool.false_or,
                            Bool.true_and, if_true]
                          exact ⟨_, rfl, true, 1, .nil⟩
                      | node ri rb rl rx rr =>
                          -- one right child: it is red of height 1
                          subst hul; subst hur
                          cases hl
                          cases hr with
                          | red hrl hrr =>
                              simp only [TreeNode.isNil, Bool.not_true,
                                Bool.and_false, Bool.false_and, Bool.false_or,
                                if_false]
                              exact ⟨_, rfl, true, 2,
                                (Bal.red hrl hrr).paintBlack⟩
                          | black hbl _ => exact absurd hbl.one_le (by omega)
                  | node li lb ll lx lr =>
                      cases hur : ur with
                      | nil =>
                          subst hul; subst hur
                          cases hr
                          cases hl with
                          | red hll hlr =>
                              simp only [TreeNode.isNil, Bool.not_true,
                                Bool.false_and, Bool.and_false, Bool.false_or,
                                if_false]
                              exact ⟨_, rfl, true, 2,
                                (Bal.red hll hlr).paintBlack⟩
                          | black hbl _ => exact absurd hbl.one_le (by omega)
                      | node ri rb rl rx rr =>
                          cases hone with
                          | inl h => rw [hul] at h; cases h
                          | inr h => rw [hur] at h; cases h
          | cons f rest =>
              subst hpath
              cases hul : ul with
              | nil =>
                  cases hur : ur with
                  | nil =>
                      -- black childless non-root: run the rebalance
                      subst hul; subst hur
                      cases hl
                      cases hr
                      simp only [TreeNode.isNil, Bool.not_true,
                        List.isEmpty_cons, Bool.false_and, Bool.false_or,
                        if_false]
                      obtain ⟨path2, N2, heq, hctx2⟩ :=
                        balanceBlackLeafForDeletion_bal (f :: rest)
                          (b := 0) hctx
                      rw [heq]
                      obtain ⟨c2, h2⟩ := hctx2.fill .nil (fun _ => rfl)
                      exact ⟨_, rfl, c2, N2, h2⟩
                  | node ri rb rl rx rr =>
                      subst hul; subst hur
                      cases hl
                      cases hr with
                      | red hrl hrr =>
                          simp only [TreeNode.isNil, Bool.not_true,
                            List.isEmpty_cons, Bool.false_and, Bool.and_false,
                            Bool.false_or, if_false]
                          obtain ⟨c2, h2⟩ :=
                            hctx.fill (Bal.red hrl hrr).paintBlack
                              (fun _ => rfl)
                          exact ⟨_, rfl, c2, N, h2⟩
                      | black hbl _ => exact absurd hbl.one_le (by omega)
              | node li lb ll lx lr =>
                  cases hur : ur with
                  | nil =>
                      subst hul; subst hur
                      cases hr
                      cases hl with
                      | red hll hlr =>
                          simp only [TreeNode.isNil, Bool.not_true,
                            List.isEmpty_cons, Bool.false_and, Bool.and_false,
                            Bool.false_or, if_false]
                          obtain ⟨c2, h2⟩ :=
                            hctx.fill (Bal.red hll hlr).paintBlack
                              (fun _ => rfl)
                          exact ⟨_, rfl, c2, N, h2⟩
                      | black hbl _ => exact absurd hbl.one_le (by omega)
                  | node ri2 rb2 rl2 rx2 rr2 =>
                      cases hone with
                      | inl h => rw [hul] at h; cases h
                      | inr h => rw [hur] at h; cases h

/-! Branch-unfolding equations for `deleteRecursive`. -/

theorem delRec_nil {α : Type} (lt : α → α → Bool) (m : RedBlackTree α)
    (path : List (Frame α)) (elem : α) :
    deleteRecursive lt m .nil path elem = some m := by
  rw [deleteRecursive.eq_def]

theorem delRec_lt {α : Type} (lt : α → α → Bool) (m : RedBlackTree α)
    (i : Nat) (b : Bool) (l r : TreeNode α) (x : α) (path : List (Frame α))
    (elem : α) (h1 : lt elem x = true) :
    deleteRecursive lt m (.node i b l x r) path elem =
      deleteRecursive lt m l (⟨.left, i, b, x, r⟩ :: path) elem := by
  rw [deleteRecursive.eq_def]
  simp [h1]

theorem delRec_gt {α : Type} (lt : α → α → Bool) (m : RedBlackTree α)
    (i : Nat) (b : Bool) (l r : TreeNode α) (x : α) (path : List (Frame α))
    (elem : α) (h1 : lt elem x = false) (h2 : lt x elem = true) :
    deleteRecursive lt m (.node i b l x r) path elem =
      deleteRecursive lt m r (⟨.right, i, b, x, l⟩ :: path) elem := by
  rw [deleteRecursive.eq_def]
  simp [h1, h2]

theorem delRec_found_lnil {α : Type} (lt : α → α → Bool) (m : RedBlackTree α)
    (i : Nat) (b : Bool) (r : TreeNode α) (x : α) (path : List (Frame α))
    (elem : α) (h1 : lt elem x = false) (h2 : lt x elem = false) :
    deleteRecursive lt m (.node i b .nil x r) path elem =
      removeAt m (.node i b .nil x r) path := by
  rw [deleteRecursive.eq_def]
  simp [h1, h2]

theorem delRec_found_rnil {α : Type} (lt : α → α → Bool) (m : RedBlackTree α)
    (i li : Nat) (b lb : Bool) (ll lr : TreeNode α) (x lx : α)
    (path : List (Frame α)) (elem : α) (h1 : lt elem x = false)
    (h2 : lt x elem = false) :
    deleteRecursive lt m (.node i b (.node li lb ll lx lr) x .nil) path elem =
      removeAt m (.node i b (.node li lb ll lx lr) x .nil) path := by
  rw [deleteRecursive.eq_def]
  simp [h1, h2]

theorem delRec_found_two {α : Type} (lt : α → α → Bool) (m : RedBlackTree α)
    (i li ri : Nat) (b lb rb : Bool) (ll lr rl rr : TreeNode α)
    (x lx rx y : α) (path : List (Frame α)) (elem : α)
    (h1 : lt elem x = false) (h2 : lt x elem = false)
    (hy : leftmost (.node ri rb rl rx rr) = some y) :
    deleteRecursive lt m
        (.node i b (.node li lb ll lx lr) x (.node ri rb rl rx rr)) path elem =
      removeAt m
        (succToSlot (.node ri rb rl rx rr)
          (⟨.right, i, b, y, .node li lb ll lx lr⟩ :: path)).1
        (succToSlot (.node ri rb rl rx rr)
          (⟨.right, i, b, y, .node li lb ll lx lr⟩ :: path)).2 := by
  rw [deleteRecursive.eq_def]
  simp [h1, h2, hy]

/-- `deleteRecursive` succeeds and keeps the tree balanced. -/
theorem deleteRecursive_bal {α : Type} (lt : α → α → Bool)
    (m : RedBlackTree α) (elem : α) (t : TreeNode α) (path : List (Frame α)) :
    ∀ {c cb : Bool} {n N : Nat}, Bal t c n → CtxBal path cb n N →
      (cb = true → c = true) → plug t path = m.root →
      ∃ m2, deleteRecursive lt m t path elem = some m2 ∧
        ∃ c2 N2, Bal m2.root c2 N2 := by
  induction t generalizing path with
  | nil =>
      intro c cb n N ht hctx hcompat hroot
      cases ht
      rw [delRec_nil]
      refine ⟨m, rfl, ?_⟩
      obtain ⟨c2, h2⟩ := hctx.fill .nil (fun _ => rfl)
      exact ⟨c2, N, hroot ▸ h2⟩
  | node i b l x r ihl ihr =>
      intro c cb n N ht hctx hcompat hroot
      by_cases h1 : lt elem x = true
      · rw [delRec_lt lt m i b l r x path elem h1]
        cases ht with
        | red hl hr =>
            exact ihl _ hl (.redF hr (hctx.of_red hcompat))
              (fun _ => rfl) (by simpa [Frame.close, mkN] using hroot)
        | black hl hr =>
            exact ihl _ hl (.blackF hr hctx) (fun h => by cases h)
              (by simpa [Frame.close, mkN] using hroot)
      · rw [Bool.not_eq_true] at h1
        by_cases h2 : lt x elem = true
        · rw [delRec_gt lt m i b l r x path elem h1 h2]
          cases ht with
          | red hl hr =>
              exact ihr _ hr (.redF hl (hctx.of_red hcompat))
                (fun _ => rfl) (by simpa [Frame.close, mkN] using hroot)
          | black hl hr =>
              exact ihr _ hr (.blackF hl hctx) (fun h => by cases h)
                (by simpa [Frame.close, mkN] using hroot)
        · rw [Bool.not_eq_true] at h2
          cases hlc : l with
          | nil =>
              subst hlc
              rw [delRec_found_lnil lt m i b r x path elem h1 h2]
              cases hrc : r with
              | nil =>
                  subst hrc
                  exact removeAt_bal m i b .nil .nil x path ht hctx hcompat
                    (Or.inl rfl)
              | node ri rb rl rx rr =>
                  subst hrc
                  exact removeAt_bal m i b .nil _ x path ht hctx hcompat
                    (Or.inl rfl)
          | node li lb ll lx lr =>
              subst hlc
              cases hrc : r with
              | nil =>
                  subst hrc
                  rw [delRec_found_rnil lt m i li b lb ll lr x lx path elem h1 h2]
                  exact removeAt_bal m i b _ .nil x path ht hctx hcompat
                    (Or.inr rfl)
              | node ri rb rl rx rr =>
                  subst hrc
                  -- two children: swap with the in-order successor
                  cases hlm : leftmost (.node ri rb rl rx rr) with
                  | none =>
                      have hs := leftmost_isSome
                        (.node ri rb rl rx rr : TreeNode α) rfl
                      rw [hlm] at hs
                      cases hs
                  | some y =>
                      rw [delRec_found_two lt m i li ri b lb rb ll lr rl rr x
                        lx rx y path elem h1 h2 hlm]
                      have hone : ∃ ui2 ub2 ux2 ur2 upath2 cu2 cbu2 nu2,
                          succToSlot (.node ri rb rl rx rr)
                            (⟨.right, i, b, y, .node li lb ll lx lr⟩ :: path) =
                            (.node ui2 ub2 .nil ux2 ur2, upath2) ∧
                          Bal (.node ui2 ub2 .nil ux2 ur2) cu2 nu2 ∧
                          CtxBal upath2 cbu2 nu2 N ∧
                          (cbu2 = true → cu2 = true) := by
                        cases ht with
                        | red hl hr =>
                            exact succToSlot_bal _ _ hr
                              (.redF hl (hctx.of_red hcompat))
                              (fun _ => rfl) rfl
                        | black hl hr =>
                            exact succToSlot_bal _ _ hr (.blackF hl hctx)
                              (fun h => by cases h) rfl
                      obtain ⟨ui2, ub2, ux2, ur2, upath2, cu2, cbu2, nu2, hfst,
                        hbu, hctxu, hcompatu⟩ := hone
                      rw [hfst]
                      exact removeAt_bal m ui2 ub2 .nil ur2 ux2 _ hbu hctxu
                        hcompatu (Or.inl rfl)

/-- `Delete` succeeds and keeps the tree balanced. -/

theorem Delete_bal {α : Type} (lt : α → α → Bool) (m : RedBlackTree α)
    (e : α) (h : ∃ c n, Bal m.root c n) :
    ∃ m2, Delete lt m e = some m2 ∧ ∃ c2 N2, Bal m2.root c2 N2 := by
  obtain ⟨c, n, h⟩ := h
  exact deleteRecursive_bal lt m e m.root [] h .root (fun hc => by cases hc) rfl

/-! ## Deleting an absent element is a no-op (claim C6) -/

/-- `deleteRecursive` on an element no tree node compares equal to returns
the object completely unchanged. -/
theorem deleteRecursive_absent {α : Type} (lt : α → α → Bool)
    (m : RedBlackTree α) (e : α) :
    ∀ (t : TreeNode α) (path : List (Frame α)),
      (∀ p ∈ inorderP t, lt e p.2 = true ∨ lt p.2 e = true) →
      deleteRecursive lt m t path e = some m := by
  intro t
  induction t with
  | nil => intro path _; exact delRec_nil lt m path e
  | node i b l x r ihl ihr =>
      intro path habs
      by_cases h1 : lt e x = true
      · rw [delRec_lt lt m i b l r x path e h1]
        exact ihl _ (fun p hp => habs p (by simp [inorderP]; exact Or.inl hp))
      · rw [Bool.not_eq_true] at h1
        by_cases h2 : lt x e = true
        · rw [delRec_gt lt m i b l r x path e h1 h2]
          exact ihr _ (fun p hp => habs p (by simp [inorderP]; tauto))
        · rw [Bool.not_eq_true] at h2
          have := habs (i, x) (by simp [inorderP])
          simp only at this
          rw [h1, h2] at this
          rcases this with h | h <;> cases h

/-- `Delete` of an absent element returns the tree object unchanged. -/
theorem Delete_absent {α : Type} (lt : α → α → Bool) (m : RedBlackTree α)
    (e : α) (habs : ∀ p ∈ inorderP m.root, lt e p.2 = true ∨ lt p.2 e = true) :
    Delete lt m e = some m :=
  deleteRecursive_absent lt m e m.root [] habs

/-! ## The five-way case dispatch of the deletion rebalance (claim C9) -/

/-- The five case conditions of `balanceBlackLeafForDeletion`, evaluated as
the source's dispatch reads them (empty for a nil sibling, which the
source would fail on). -/
def delCaseFlags {α : Type} (f : Frame α) : List Bool :=
  match f.sib with
  | .nil => []
  | .node sid sb sl sx sr =>
      let S : TreeNode α := .node sid sb sl sx sr
      let C := S.child f.dir
      let F := S.child f.dir.flip
      [S.isRed,
       !S.isRed && F.isRed,
       !S.isRed && !F.isRed && C.isRed,
       !S.isRed && !F.isRed && !C.isRed && !f.black,
       !S.isRed && !F.isRed && !C.isRed && f.black]

/-- The rebalance never panics: in a balanced context the whole case
analysis, including the climb, avoids every nil-sibling dereference. -/
theorem balanceBlackLeafForDeletion_isSome {α : Type} (path : List (Frame α))
    {cb : Bool} {b N : Nat} (hctx : CtxBal path cb (b + 2) N) :
    (balanceBlackLeafForDeletion path).isSome = true := by
  obtain ⟨path2, N2, heq, _⟩ := balanceBlackLeafForDeletion_bal path hctx
  rw [heq]
  rfl

/-- In a balanced context the deficient node's sibling is a non-nil node. -/
theorem sibling_ne_nil {α : Type} (f : Frame α) (rest : List (Frame α))
    {cb : Bool} {b N : Nat} (hctx : CtxBal (f :: rest) cb (b + 2) N) :
    f.sib.isNil = false := by
  obtain ⟨d, i, fb, x, S⟩ := f
  cases hctx with
  | redF hS _ =>
      cases S with
      | nil => cases hS
      | node _ _ _ _ _ => rfl
  | blackF hS _ =>
      cases S with
      | nil => cases hS
      | node _ _ _ _ _ => rfl

/-- The five dispatch conditions are mutually exclusive and exhaustive on
any non-nil sibling: exactly one of them evaluates to true. -/
theorem delCaseFlags_one {α : Type} (f : Frame α)
    (hne : f.sib.isNil = false) : (delCaseFlags f).count true = 1 := by
  obtain ⟨d, i, fb, x, S⟩ := f
  cases S with
  | nil => cases hne
  | node sid sb sl sx sr =>
      simp only [delCaseFlags]
      cases hS : (TreeNode.node sid sb sl sx sr).isRed <;>
        cases hF : ((TreeNode.node sid sb sl sx sr).child d.flip).isRed <;>
          cases hC : ((TreeNode.node sid sb sl sx sr).child d).isRed <;>
            cases fb <;> rfl

/-! ## Claims -/

/-- The standard strict ordering on `Int`, used for concrete witnesses. -/
def intLt : Int → Int → Bool := fun a b => decide (a < b)

/-- Claim C1, counterexample: the empty tree satisfies all three stated
invariants (root empty, no red-red, equal black counts), but after the
single operation `Put 0` the root is a red node, violating the "root is
empty or black" part of the claim (`insertionRebalance` returns without
recoloring when the new node is the root; the repository's own
`validateTree` never checks the root color). -/
theorem claim_C1_counterexample :
    (noRedRed (emptyTree Int).root = true ∧
     blackHeight (emptyTree Int).root = some 1 ∧
     (emptyTree Int).root.isBlack = true) ∧
    (Put intLt (emptyTree Int) 0).root.isBlack = false ∧
    noRedRed (Put intLt (emptyTree Int) 0).root = true := by
  decide

/-- Claim C1 (amended: root color dropped): for every tree with no
red-red violation and consistent black counts, a single `Put` or `Delete`
yields a tree with no red-red violation and consistent black counts (the
`Delete` also succeeds); the root may however be left red. -/
theorem claim_C1 {α : Type} (lt : α → α → Bool) (m : RedBlackTree α) (e : α)
    (h1 : noRedRed m.root = true) (h2 : (blackHeight m.root).isSome = true) :
    (noRedRed (Put lt m e).root = true ∧
      (blackHeight (Put lt m e).root).isSome = true) ∧
    (∃ m2, Delete lt m e = some m2 ∧ noRedRed m2.root = true ∧
      (blackHeight m2.root).isSome = true) := by
  have hb : ∃ c n, Bal m.root c n := by
    cases hbh : blackHeight m.root with
    | none => rw [hbh] at h2; cases h2
    | some n => exact ⟨_, n, Bal.of_checks h1 hbh⟩
  constructor
  · obtain ⟨c2, N2, hput⟩ := Put_bal lt m e hb
    exact ⟨hput.checks.1, by rw [hput.checks.2]; rfl⟩
  · obtain ⟨m2, heq, c2, N2, hdel⟩ := Delete_bal lt m e hb
    exact ⟨m2, heq, hdel.checks.1, by rw [hdel.checks.2]; rfl⟩

/-- Witness for claim C1 at a concrete tree and element. -/
theorem claim_C1_witness :
    (noRedRed (Put intLt (Put intLt (emptyTree Int) 1) 2).root = true) ∧
    ((noRedRed (Put intLt (Put intLt (Put intLt (emptyTree Int) 1) 2) 3).root = true ∧
      (blackHeight (Put intLt (Put intLt (Put intLt (emptyTree Int) 1) 2) 3).root).isSome = true) ∧
     (∃ m2, Delete intLt (Put intLt (Put intLt (emptyTree Int) 1) 2) 3 = some m2 ∧
      noRedRed m2.root = true ∧ (blackHeight m2.root).isSome = true)) :=
  ⟨by decide, claim_C1 intLt (Put intLt (Put intLt (emptyTree Int) 1) 2) 3
    (by decide) (by decide)⟩

/-- Claim C2: the code of `Last()` returns `m.first` (source line 407).
On the tree `{1, 2}` built by two `Put`s, node 0 holds the minimum 1 and
node 1 holds the maximum 2; the `last` cache correctly points to node 1,
but `Last()` returns node 0, the minimum node, contradicting the claim
that `Last()` returns the cached reference to the node holding the
maximum. -/
theorem claim_C2 :
    inorderP (Put intLt (Put intLt (emptyTree Int) 1) 2).root =
      [(0, 1), (1, 2)] ∧
    (Put intLt (Put intLt (emptyTree Int) 1) 2).last = some 1 ∧
    Last (Put intLt (Put intLt (emptyTree Int) 1) 2) = some 0 ∧
    First (Put intLt (Put intLt (emptyTree Int) 1) 2) = some 0 := by
  decide

/-- Claim C3: deleting the red leaf holding 2 from the tree `{1, 2}`
(where the caches correctly reference node 0 = min and node 1 = max)
returns through the direct-unlink path of `deleteRecursive`, which never
touches the caches: afterwards `last` still holds the id 1 of the
detached node, while the only remaining node is node 0 — the caches are
not recomputed on this removal path, contradicting the claim. -/
theorem claim_C3 :
    Delete intLt (Put intLt (Put intLt (emptyTree Int) 1) 2) 2 =
      some { root := .node 0 true .nil 1 .nil, first := some 0,
             last := some 1, size := 1, nextId := 2 } := by
  decide

/-- Claim C6: deleting an element that compares strictly before or after
every stored element succeeds and returns the tree object completely
unchanged: same root (nodes, links, colors), same `first`/`last` caches,
same size. -/
theorem claim_C6 {α : Type} (lt : α → α → Bool) (m : RedBlackTree α) (e : α)
    (habs : ∀ p ∈ inorderP m.root, lt e p.2 = true ∨ lt p.2 e = true) :
    Delete lt m e = some m :=
  Delete_absent lt m e habs

/-- Witness for claim C6: deleting 5 from the tree `{1, 2}`. -/
theorem claim_C6_witness :
    (∀ p ∈ inorderP (Put intLt (Put intLt (emptyTree Int) 1) 2).root,
      intLt 5 p.2 = true ∨ intLt p.2 5 = true) ∧
    Delete intLt (Put intLt (Put intLt (emptyTree Int) 1) 2) 5 =
      some (Put intLt (Put intLt (emptyTree Int) 1) 2) :=
  ⟨by decide, claim_C6 intLt (Put intLt (Put intLt (emptyTree Int) 1) 2) 5
    (by decide)⟩

/-- Claim C9: in a balanced context (`CtxBal path cb (b+2) N` is the
parent chain of a black, childless, non-root node of a tree satisfying
the red-black invariants), the deletion rebalance never dereferences a
nil sibling — neither in the initial dispatch nor at any climb iteration
nor after the sibling-red rotation (`isSome`) — the deficient node's
sibling is a non-nil node, and the five case conditions are mutually
exclusive and exhaustive: exactly one holds. -/
theorem claim_C9 {α : Type} (f : Frame α) (rest : List (Frame α))
    {cb : Bool} {b N : Nat} (hctx : CtxBal (f :: rest) cb (b + 2) N) :
    (balanceBlackLeafForDeletion (f :: rest)).isSome = true ∧
    f.sib.isNil = false ∧
    (delCaseFlags f).count true = 1 :=
  ⟨balanceBlackLeafForDeletion_isSome _ hctx, sibling_ne_nil f rest hctx,
    delCaseFlags_one f (sibling_ne_nil f rest hctx)⟩

/-- Witness for claim C9: the context of the left black leaf of a
three-node all-black tree. -/
theorem claim_C9_witness :
    CtxBal [(⟨.left, 10, true, (5 : Int),
        TreeNode.node 2 true .nil 8 .nil⟩ : Frame Int)] false 2 3 ∧
    ((balanceBlackLeafForDeletion
        [(⟨.left, 10, true, (5 : Int),
          TreeNode.node 2 true .nil 8 .nil⟩ : Frame Int)]).isSome = true ∧
     (⟨.left, 10, true, (5 : Int),
        TreeNode.node 2 true .nil 8 .nil⟩ : Frame Int).sib.isNil = false ∧
     (delCaseFlags (⟨.left, 10, true, (5 : Int),
        TreeNode.node 2 true .nil 8 .nil⟩ : Frame Int)).count true = 1) :=
  have hctx : CtxBal [(⟨.left, 10, true, (5 : Int),
      TreeNode.node 2 true .nil 8 .nil⟩ : Frame Int)] false 2 3 :=
    .blackF (.black .nil .nil) .root
  ⟨hctx, claim_C9 _ _ (b := 0) hctx⟩

/-! ## In-order preservation -/

theorem inorderP_mkN {α : Type} (dd : Dir) (i : Nat) (b : Bool)
    (a : TreeNode α) (x : α) (s : TreeNode α) :
    inorderP (mkN dd i b a x s) =
      (match dd with
        | .left => inorderP a ++ (i, x) :: inorderP s
        | .right => inorderP s ++ (i, x) :: inorderP a) := by
  cases dd <;> rfl

theorem inorderP_paintBlack {α : Type} (t : TreeNode α) :
    inorderP t.paintBlack = inorderP t := by
  cases t <;> rfl

theorem inorderP_paintRed {α : Type} (t : TreeNode α) :
    inorderP t.paintRed = inorderP t := by
  cases t <;> rfl

theorem insRe_inner_nil {α : Type} (d : Dir) (i : Nat) (x : α)
    (sib : TreeNode α) (g : Frame α) (rest2 : List (Frame α))
    (hyp : g.sib.isRed = false) (hdir : ¬d = g.dir) :
    insertionRebalance .nil (⟨d, i, false, x, sib⟩ :: g :: rest2) =
      plug .nil (⟨d, i, false, x, sib⟩ :: g :: rest2) := by
  rw [insertionRebalance.eq_def]
  simp [hyp, hdir]

/-- The insertion rebalance only rotates and recolors: the in-order pair
sequence of the rebuilt tree is that of the focus in its context. -/
theorem insertionRebalance_inorder {α : Type} (e : TreeNode α)
    (path : List (Frame α)) :
    inorderP (insertionRebalance e path) =
      ctxL path ++ inorderP e ++ ctxR path := by
  induction e, path using insertionRebalance.induct with
  | case1 e => simp [insertionRebalance, ctxL, ctxR]
  | case2 e f rest hfb =>
      obtain ⟨d, i, fb, x, sib⟩ := f
      simp only at hfb
      subst hfb
      rw [insRe_parentBlack, inorderP_plug]
  | case3 e f hfb =>
      obtain ⟨d, i, fb, x, sib⟩ := f
      simp only [Bool.not_eq_true] at hfb
      subst hfb
      rw [insRe_redRoot, inorderP_plug]
      cases d <;> simp [ctxL, ctxR]
  | case4 e f hfb g rest2 hyp ih =>
      obtain ⟨d, i, fb, x, sib⟩ := f
      simp only [Bool.not_eq_true] at hfb
      subst hfb
      rw [insRe_uncleRed _ _ _ _ _ _ _ hyp, ih]
      obtain ⟨gd, gi, gb, gx, gsib⟩ := g
      cases d <;> cases gd <;>
        simp [mkN, inorderP, ctxL, ctxR, inorderP_paintBlack]
  | case5 e f hfb g rest2 hyp hdir =>
      obtain ⟨d, i, fb, x, sib⟩ := f
      simp only [Bool.not_eq_true] at hfb
      subst hfb
      simp only [Bool.not_eq_true] at hyp
      rw [insRe_outer _ _ _ _ _ _ _ hyp hdir, inorderP_plug]
      obtain ⟨gd, gi, gb, gx, gsib⟩ := g
      simp only at hdir
      subst hdir
      cases d <;> simp [mkN, inorderP, ctxL, ctxR]
  | case6 f hfb g rest2 hyp hdir =>
      obtain ⟨d, i, fb, x, sib⟩ := f
      simp only [Bool.not_eq_true] at hfb
      subst hfb
      simp only [Bool.not_eq_true] at hyp
      rw [insRe_inner_nil _ _ _ _ _ _ hyp hdir, inorderP_plug]
  | case7 f hfb g rest2 hyp hdir ei eb el ex er =>
      obtain ⟨d, i, fb, x, sib⟩ := f
      simp only [Bool.not_eq_true] at hfb
      subst hfb
      simp only [Bool.not_eq_true] at hyp
      rw [insRe_inner _ _ _ _ _ _ _ _ _ _ _ hyp hdir, inorderP_plug]
      obtain ⟨gd, gi, gb, gx, gsib⟩ := g
      simp only at hdir
      have hd : d = gd.flip := by
        cases d <;> cases gd <;> first | rfl | exact absurd rfl hdir
      subst hd
      cases gd <;> simp [mkN, inorderP, ctxL, ctxR]

/-- The deletion rebalance only rotates and recolors around the focus
slot: the pair sequences to the left and right of the slot are
unchanged. -/
theorem balanceBlackLeafForDeletion_ctx {α : Type} (path : List (Frame α)) :
    ∀ path2, balanceBlackLeafForDeletion path = some path2 →
      ctxL path2 = ctxL path ∧ ctxR path2 = ctxR path := by
  induction path with
  | nil =>
      intro path2 h
      injection h with h
      subst h
      exact ⟨rfl, rfl⟩
  | cons f rest ih =>
      intro path2 h
      obtain ⟨d, i, fb, x, sib⟩ := f
      cases sib with
      | nil =>
          have h2 := (balDel_nilSib d i fb x rest).symm.trans h
          cases h2
      | node sid sb sl sx sr =>
          cases d with
          | left =>
              cases sb with
              | false =>
                  cases sl with
                  | nil =>
                      have h2 :=
                        (balDel_sibRed_nilC .left i fb x sid sx sr rest).symm.trans h
                      cases h2
                  | node cid cb2 cl2 cx cr2 =>
                      cases hCF : cr2.isRed with
                      | true =>
                          have h2 := (balDel_sibRed_farRed .left i fb x sid sx
                            cid cb2 cl2 cx cr2 sr rest hCF).symm.trans h
                          injection h2 with h3
                          subst h3
                          constructor <;>
                            simp [ctxL, ctxR, inorderP, inorderP_paintBlack, mkN]
                      | false =>
                          cases hCC : cl2.isRed with
                          | true =>
                              cases cl2 with
                              | nil => cases hCC
                              | node ccid ccb ccl ccx ccr =>
                                  have hccb : ccb = false := by simpa using hCC
                                  subst hccb
                                  have h2 := (balDel_sibRed_closeRed .left i fb
                                    x sid sx cid cb2 cx ccid ccl ccx ccr cr2 sr
                                    rest hCF).symm.trans h
                                  injection h2 with h3
                                  subst h3
                                  constructor <;>
                                    simp [ctxL, ctxR, inorderP, mkN]
                          | false =>
                              have h2 := (balDel_sibRed_bothBlack .left i fb x
                                sid sx cid cb2 cl2 cx cr2 sr rest hCF
                                hCC).symm.trans h
                              injection h2 with h3
                              subst h3
                              constructor <;>
                                simp [ctxL, ctxR, inorderP, mkN]
              | true =>
                  cases hF : sr.isRed with
                  | true =>
                      have h2 := (balDel_farRed .left i fb x sid sx sl sr rest
                        hF).symm.trans h
                      injection h2 with h3
                      subst h3
                      constructor <;>
                        simp [ctxL, ctxR, inorderP, inorderP_paintBlack, mkN]
                  | false =>
                      cases hCred : sl.isRed with
                      | true =>
                          cases sl with
                          | nil => cases hCred
                          | node cid ccb cl2 cx cr2 =>
                              have hccb : ccb = false := by simpa using hCred
                              subst hccb
                              have h2 := (balDel_closeRed .left i fb x sid sx
                                cid cl2 cx cr2 sr rest hF).symm.trans h
                              injection h2 with h3
                              subst h3
                              constructor <;>
                                simp [ctxL, ctxR, inorderP, mkN]
                      | false =>
                          cases fb with
                          | false =>
                              have h2 := (balDel_parentRed .left i x sid sx sl
                                sr rest hF hCred).symm.trans h
                              injection h2 with h3
                              subst h3
                              constructor <;>
                                simp [ctxL, ctxR, inorderP, mkN]
                          | true =>
                              have h2 := (balDel_allBlack .left i x sid sx sl
                                sr rest hF hCred).symm.trans h
                              cases hrec : balanceBlackLeafForDeletion rest with
                              | none => rw [hrec] at h2; cases h2
                              | some rest2 =>
                                  rw [hrec] at h2
                                  simp only [Option.map_some', Option.some.injEq] at h2
                                  subst h2
                                  obtain ⟨e1, e2⟩ := ih rest2 hrec
                                  constructor <;>
                                    simp [ctxL, ctxR, inorderP, mkN, e1, e2]
          | right =>
              cases sb with
              | false =>
                  cases sr with
                  | nil =>
                      have h2 :=
                        (balDel_sibRed_nilC .right i fb x sid sx sl rest).symm.trans h
                      cases h2
                  | node cid cb2 cl2 cx cr2 =>
                      cases hCF : cl2.isRed with
                      | true =>
                          have h2 := (balDel_sibRed_farRed .right i fb x sid sx
                            cid cb2 cr2 cx cl2 sl rest hCF).symm.trans h
                          injection h2 with h3
                          subst h3
                          constructor <;>
                            simp [ctxL, ctxR, inorderP, inorderP_paintBlack, mkN]
                      | false =>
                          cases hCC : cr2.isRed with
                          | true =>
                              cases cr2 with
                              | nil => cases hCC
                              | node ccid ccb ccl ccx ccr =>
                                  have hccb : ccb = false := by simpa using hCC
                                  subst hccb
                                  have h2 := (balDel_sibRed_closeRed .right i fb
                                    x sid sx cid cb2 cx ccid ccr ccx ccl cl2 sl
                                    rest hCF).symm.trans h
                                  injection h2 with h3
                                  subst h3
                                  constructor <;>
                                    simp [ctxL, ctxR, inorderP, mkN]
                          | false =>
                              have h2 := (balDel_sibRed_bothBlack .right i fb x
                                sid sx cid cb2 cr2 cx cl2 sl rest hCF
                                hCC).symm.trans h
                              injection h2 with h3
                              subst h3
                              constructor <;>
                                simp [ctxL, ctxR, inorderP, mkN]
              | true =>
                  cases hF : sl.isRed with
                  | true =>
                      have h2 := (balDel_farRed .right i fb x sid sx sr sl rest
                        hF).symm.trans h
                      injection h2 with h3
                      subst h3
                      constructor <;>
                        simp [ctxL, ctxR, inorderP, inorderP_paintBlack, mkN]
                  | false =>
                      cases hCred : sr.isRed with
                      | true =>
                          cases sr with
                          | nil => cases hCred
                          | node cid ccb cl2 cx cr2 =>
                              have hccb : ccb = false := by simpa using hCred
                              subst hccb
                              have h2 := (balDel_closeRed .right i fb x sid sx
                                cid cr2 cx cl2 sl rest hF).symm.trans h
                              injection h2 with h3
                              subst h3
                              constructor <;>
                                simp [ctxL, ctxR, inorderP, mkN]
                      | false =>
                          cases fb with
                          | false =>
                              have h2 := (balDel_parentRed .right i x sid sx sr
                                sl rest hF hCred).symm.trans h
                              injection h2 with h3
                              subst h3
                              constructor <;>
                                simp [ctxL, ctxR, inorderP, mkN]
                          | true =>
                              have h2 := (balDel_allBlack .right i x sid sx sr
                                sl rest hF hCred).symm.trans h
                              cases hrec : balanceBlackLeafForDeletion rest with
                              | none => rw [hrec] at h2; cases h2
                              | some rest2 =>
                                  rw [hrec] at h2
                                  simp only [Option.map_some', Option.some.injEq] at h2
                                  subst h2
                                  obtain ⟨e1, e2⟩ := ih rest2 hrec
                                  constructor <;>
                                    simp [ctxL, ctxR, inorderP, mkN, e1, e2]

/-! ## Sorted insertion (claims C4, C5, C8) -/

/-- The pair list is strictly sorted by `lt` on the elements. -/
def SortedP {α : Type} (lt : α → α → Bool) (l : List (Nat × α)) : Prop :=
  l.Pairwise (fun p q => lt p.2 q.2 = true)

@[simp] theorem ctxL_left {α : Type} (i : Nat) (b : Bool) (x : α)
    (s : TreeNode α) (p : List (Frame α)) :
    ctxL (⟨.left, i, b, x, s⟩ :: p) = ctxL p := by
  simp [ctxL]

@[simp] theorem ctxL_right {α : Type} (i : Nat) (b : Bool) (x : α)
    (s : TreeNode α) (p : List (Frame α)) :
    ctxL (⟨.right, i, b, x, s⟩ :: p) = ctxL p ++ (inorderP s ++ [(i, x)]) := by
  simp [ctxL]

@[simp] theorem ctxR_left {α : Type} (i : Nat) (b : Bool) (x : α)
    (s : TreeNode α) (p : List (Frame α)) :
    ctxR (⟨.left, i, b, x, s⟩ :: p) = (i, x) :: inorderP s ++ ctxR p := by
  simp [ctxR]

@[simp] theorem ctxR_right {α : Type} (i : Nat) (b : Bool) (x : α)
    (s : TreeNode α) (p : List (Frame α)) :
    ctxR (⟨.right, i, b, x, s⟩ :: p) = ctxR p := by
  simp [ctxR]

theorem SortedP.mid {α : Type} {lt : α → α → Bool} {P M Q : List (Nat × α)}
    (h : SortedP lt (P ++ M ++ Q)) : SortedP lt M := by
  refine List.Pairwise.sublist ?_ h
  rw [List.append_assoc]
  exact (List.sublist_append_left M Q).trans (List.sublist_append_right P _)

theorem sortedP_node_facts {α : Type} {lt : α → α → Bool}
    {l r : List (Nat × α)} {i : Nat} {x : α}
    (h : SortedP lt (l ++ (i, x) :: r)) :
    (∀ p ∈ l, lt p.2 x = true) ∧ (∀ q ∈ r, lt x q.2 = true) := by
  rw [SortedP, List.pairwise_append] at h
  obtain ⟨hl, hmr, hcross⟩ := h
  rw [List.pairwise_cons] at hmr
  exact ⟨fun p hp => hcross p hp (i, x) (List.mem_cons_self _ _),
    fun q hq => hmr.1 q hq⟩

/-- BST descent of `putRecursive`: in a sorted context with compatible
bounds, the result's in-order sequence is the old one with `(eid, e)`
inserted at its ordered position (fresh insertion, flag `true`), or with
the unique equal pair's element overwritten in place (flag `false`). -/
theorem putRecursive_sorted {α : Type} (lt : α → α → Bool)
    (H : OrderingContract lt) (e : α) (eid : Nat) :
    ∀ (t : TreeNode α) (path : List (Frame α)),
      SortedP lt (ctxL path ++ inorderP t ++ ctxR path) →
      (∀ p ∈ ctxL path, lt p.2 e = true) →
      (∀ p ∈ ctxR path, lt e p.2 = true) →
      ∃ A B,
        (∀ p ∈ A, lt p.2 e = true) ∧ (∀ p ∈ B, lt e p.2 = true) ∧
        (((putRecursive lt t e eid path).2 = true ∧ inorderP t = A ++ B ∧
          inorderP (putRecursive lt t e eid path).1 =
            ctxL path ++ A ++ (eid, e) :: B ++ ctxR path) ∨
         (∃ j x0, (putRecursive lt t e eid path).2 = false ∧
          inorderP t = A ++ (j, x0) :: B ∧ lt e x0 = false ∧
          lt x0 e = false ∧
          inorderP (putRecursive lt t e eid path).1 =
            ctxL path ++ A ++ (j, e) :: B ++ ctxR path)) := by
  intro t
  induction t with
  | nil =>
      intro path hsorted hbL hbR
      refine ⟨[], [], by simp, by simp, Or.inl ⟨rfl, rfl, ?_⟩⟩
      show inorderP (insertionRebalance (.node eid false .nil e .nil) path) = _
      rw [insertionRebalance_inorder]
      simp [inorderP]
  | node i b l x r ihl ihr =>
      intro path hsorted hbL hbR
      have hmidfacts := sortedP_node_facts
        (l := inorderP l) (r := inorderP r) (i := i) (x := x)
        (SortedP.mid (by simpa [inorderP] using hsorted))
      by_cases h1 : lt e x = true
      · -- descend left
        rw [putRecursive, if_pos h1]
        have hsorted2 : SortedP lt
            (ctxL (⟨.left, i, b, x, r⟩ :: path) ++ inorderP l ++
              ctxR (⟨.left, i, b, x, r⟩ :: path)) := by
          simpa [inorderP] using hsorted
        have hbL2 : ∀ p ∈ ctxL (⟨.left, i, b, x, r⟩ :: path),
            lt p.2 e = true := by
          rw [ctxL_left]; exact hbL
        have hbR2 : ∀ p ∈ ctxR (⟨.left, i, b, x, r⟩ :: path),
            lt e p.2 = true := by
          rw [ctxR_left]
          intro p hp
          rcases List.mem_cons.mp hp with hp | hp
          · subst hp; exact h1
          · rcases List.mem_append.mp hp with hp | hp
            · exact H.trans _ _ _ h1 (hmidfacts.2 p hp)
            · exact hbR p hp
        obtain ⟨A, B, hA, hB, hres⟩ := ihl (⟨.left, i, b, x, r⟩ :: path)
          hsorted2 hbL2 hbR2
        refine ⟨A, B ++ (i, x) :: inorderP r, hA, ?_, ?_⟩
        · intro p hp
          rcases List.mem_append.mp hp with hp | hp
          · exact hB p hp
          · rcases List.mem_cons.mp hp with hp | hp
            · subst hp; exact h1
            · exact H.trans _ _ _ h1 (hmidfacts.2 p hp)
        · rcases hres with ⟨hflag, hsplit, hres⟩ |
            ⟨j, x0, hflag, hsplit, he1, he2, hres⟩
          · exact Or.inl ⟨hflag, by simp [inorderP, hsplit],
              by simpa [inorderP] using hres⟩
          · exact Or.inr ⟨j, x0, hflag, by simp [inorderP, hsplit], he1, he2,
              by simpa [inorderP] using hres⟩
      · rw [putRecursive, if_neg h1]
        have h1b : lt e x = false := by rwa [Bool.not_eq_true] at h1
        by_cases h2 : lt x e = true
        · -- descend right
          rw [if_pos h2]
          have hsorted2 : SortedP lt
              (ctxL (⟨.right, i, b, x, l⟩ :: path) ++ inorderP r ++
                ctxR (⟨.right, i, b, x, l⟩ :: path)) := by
            simpa [inorderP] using hsorted
          have hbL2 : ∀ p ∈ ctxL (⟨.right, i, b, x, l⟩ :: path),
              lt p.2 e = true := by
            rw [ctxL_right]
            intro p hp
            rcases List.mem_append.mp hp with hp | hp
            · exact hbL p hp
            · rcases List.mem_append.mp hp with hp | hp
              · exact H.trans _ _ _ (hmidfacts.1 p hp) h2
              · rw [List.mem_singleton] at hp
                subst hp; exact h2
          have hbR2 : ∀ p ∈ ctxR (⟨.right, i, b, x, l⟩ :: path),
              lt e p.2 = true := by
            rw [ctxR_right]; exact hbR
          obtain ⟨A, B, hA, hB, hres⟩ := ihr (⟨.right, i, b, x, l⟩ :: path)
            hsorted2 hbL2 hbR2
          refine ⟨inorderP l ++ (i, x) :: A, B, ?_, hB, ?_⟩
          · intro p hp
            rcases List.mem_append.mp hp with hp | hp
            · exact H.trans _ _ _ (hmidfacts.1 p hp) h2
            · rcases List.mem_cons.mp hp with hp | hp
              · subst hp; exact h2
              · exact hA p hp
          · rcases hres with ⟨hflag, hsplit, hres⟩ |
              ⟨j, x0, hflag, hsplit, he1, he2, hres⟩
            · exact Or.inl ⟨hflag, by simp [inorderP, hsplit],
                by simpa [inorderP] using hres⟩
            · exact Or.inr ⟨j, x0, hflag, by simp [inorderP, hsplit], he1, he2,
                by simpa [inorderP] using hres⟩
        · -- overwrite in place
          rw [if_neg h2]
          have h2b : lt x e = false := by rwa [Bool.not_eq_true] at h2
          refine ⟨inorderP l, inorderP r, ?_, ?_,
            Or.inr ⟨i, x, rfl, by simp [inorderP], h1b, h2b, ?_⟩⟩
          · intro p hp
            cases hpe : lt p.2 e with
            | true => rfl
            | false =>
                have := H.negTrans p.2 e x hpe h1b
                rw [hmidfacts.1 p hp] at this
                cases this
          · intro p hp
            cases hpe : lt e p.2 with
            | true => rfl
            | false =>
                have := H.negTrans x e p.2 h2b hpe
                rw [hmidfacts.2 p hp] at this
                cases this
          · show inorderP (plug (.node i b l e r) path) = _
            rw [inorderP_plug]
            simp [inorderP]

/-! ## Deletion and lookup: effect on the stored elements (claim C8) -/

theorem plug_succToSlot {α : Type} :
    ∀ (t : TreeNode α) (path : List (Frame α)),
      plug (succToSlot t path).1 (succToSlot t path).2 = plug t path := by
  intro t
  induction t with
  | nil => intro path; rfl
  | node i b l x r ihl ihr =>
      intro path
      cases l with
      | nil => rfl
      | node li lb ll lx lr =>
          rw [succToSlot]
          exact ihl (⟨.left, i, b, x, r⟩ :: path)

theorem ctxL_succToSlot {α : Type} :
    ∀ (t : TreeNode α) (path : List (Frame α)),
      ctxL (succToSlot t path).2 = ctxL path := by
  intro t
  induction t with
  | nil => intro path; rfl
  | node i b l x r ihl ihr =>
      intro path
      cases l with
      | nil => rfl
      | node li lb ll lx lr =>
          rw [succToSlot]
          rw [ihl (⟨.left, i, b, x, r⟩ :: path)]
          exact ctxL_left i b x r path

theorem leftmost_pairs {α : Type} :
    ∀ (t : TreeNode α) (y : α), leftmost t = some y →
      ∃ j tl, inorderP t = (j, y) :: tl := by
  intro t
  induction t with
  | nil => intro y h; cases h
  | node i b l x r ihl ihr =>
      intro y h
      cases l with
      | nil =>
          rw [leftmost] at h
          injection h with h
          subst h
          exact ⟨i, inorderP r, by simp [inorderP]⟩
      | node li lb ll lx lr =>
          rw [leftmost] at h
          obtain ⟨j, tl, htl⟩ := ihl y h
          refine ⟨j, tl ++ (i, x) :: inorderP r, ?_⟩
          show inorderP (TreeNode.node li lb ll lx lr) ++ (i, x) :: inorderP r
            = ((j, y) :: tl) ++ ((i, x) :: inorderP r)
          rw [htl]

/-- The in-order pairs of the tree after `removeAt`: exactly the context
around the removed node with the removed node's children spliced in. -/
theorem removeAt_inorder {α : Type} (m : RedBlackTree α) (ui : Nat) (ub : Bool)
    (ul ur : TreeNode α) (ux : α) (upath : List (Frame α)) :
    ∀ {cu cb : Bool} {n N : Nat}, Bal (.node ui ub ul ux ur) cu n →
      CtxBal upath cb n N → (cb = true → cu = true) →
      (ul = .nil ∨ ur = .nil) →
      ∀ m2, removeAt m (.node ui ub ul ux ur) upath = some m2 →
        inorderP m2.root =
          ctxL upath ++ inorderP ul ++ inorderP ur ++ ctxR upath := by
  intro cu cb n N hu hctx hcompat hone m2 hm2
  cases ub with
  | false =>
      cases hu with
      | red hl hr =>
          have hln : ul = .nil ∧ ur = .nil := by
            cases hone with
            | inl h =>
                subst h
                cases hl
                cases hr with
                | nil => exact ⟨rfl, rfl⟩
                | black hbl _ => exact absurd hbl.one_le (by omega)
            | inr h =>
                subst h
                cases hr
                cases hl with
                | nil => exact ⟨rfl, rfl⟩
                | black hbl _ => exact absurd hbl.one_le (by omega)
          obtain ⟨h1, h2⟩ := hln
          subst h1; subst h2
          rw [removeAt.eq_def] at hm2
          simp only [TreeNode.isNil, Bool.not_false, Bool.true_or, if_true,
            Option.some.injEq] at hm2
          subst hm2
          simp [inorderP_plug, inorderP]
  | true =>
      rw [removeAt.eq_def] at hm2
      simp only [TreeNode.isNil, Bool.not_true, Bool.false_or] at hm2
      cases hul : ul with
      | nil =>
          cases hur : ur with
          | nil =>
              subst hul; subst hur
              cases hpath : upath with
              | nil =>
                  subst hpath
                  simp only [List.isEmpty_nil, Bool.and_true, Bool.true_and,
                    if_true, Option.some.injEq] at hm2
                  subst hm2
                  simp [inorderP, ctxL, ctxR]
              | cons f rest =>
                  subst hpath
                  simp only [List.isEmpty_cons, TreeNode.isNil, Bool.and_true,
                    Bool.false_and, Bool.false_eq_true, if_false] at hm2
                  cases hbal : balanceBlackLeafForDeletion (f :: rest) with
                  | none => rw [hbal] at hm2; cases hm2
                  | some upath2 =>
                      rw [hbal] at hm2
                      simp only [Option.some.injEq] at hm2
                      subst hm2
                      obtain ⟨e1, e2⟩ :=
                        balanceBlackLeafForDeletion_ctx (f :: rest) upath2 hbal
                      simp [inorderP_plug, inorderP, e1, e2]
          | node ri rb rl rx rr =>
              subst hul; subst hur
              simp only [TreeNode.isNil, Bool.and_false, Bool.false_eq_true,
                if_false, Option.some.injEq] at hm2
              subst hm2
              simp [inorderP_plug, inorderP]
      | node li lb ll lx lr =>
          cases hur : ur with
          | nil =>
              subst hul; subst hur
              simp only [TreeNode.isNil, Bool.false_and, Bool.and_false,
                Bool.false_eq_true, if_false, Option.some.injEq] at hm2
              subst hm2
              simp [inorderP_plug, inorderP]
          | node ri rb rl rx rr =>
              cases hone with
              | inl h => rw [hul] at h; cases h
              | inr h => rw [hur] at h; cases h

theorem getRec_nil {α : Type} (lt : α → α → Bool) (e : α) :
    getRecursive lt (.nil : TreeNode α) e = none := rfl

theorem getRec_lt {α : Type} (lt : α → α → Bool) (i : Nat) (b : Bool)
    (l r : TreeNode α) (x e : α) (h1 : lt e x = true) :
    getRecursive lt (.node i b l x r) e = getRecursive lt l e := by
  rw [getRecursive.eq_def]
  simp [h1]

theorem getRec_gt {α : Type} (lt : α → α → Bool) (i : Nat) (b : Bool)
    (l r : TreeNode α) (x e : α) (h1 : lt e x = false) (h2 : lt x e = true) :
    getRecursive lt (.node i b l x r) e = getRecursive lt r e := by
  rw [getRecursive.eq_def]
  simp [h1, h2]

theorem getRec_found {α : Type} (lt : α → α → Bool) (i : Nat) (b : Bool)
    (l r : TreeNode α) (x e : α) (h1 : lt e x = false) (h2 : lt x e = false) :
    getRecursive lt (.node i b l x r) e = some x := by
  rw [getRecursive.eq_def]
  simp [h1, h2]

theorem inorder_node {α : Type} (i : Nat) (b : Bool) (l r : TreeNode α)
    (x : α) :
    inorder (.node i b l x r) = inorder l ++ x :: inorder r := by
  simp [inorder, inorderP]

/-- Effect of `deleteRecursive` on the stored elements: a miss leaves the
tree object unchanged (and the lookup along the same comparisons fails);
a hit removes exactly one element, one that compares equal to the
argument, and keeps every other element. -/
theorem deleteRecursive_inorder {α : Type} (lt : α → α → Bool)
    (m : RedBlackTree α) (e : α) :
    ∀ (t : TreeNode α) (path : List (Frame α)) {c cb : Bool} {n N : Nat},
      Bal t c n → CtxBal path cb n N → (cb = true → c = true) →
      ∀ m2, deleteRecursive lt m t path e = some m2 →
        (m2 = m ∧ getRecursive lt t e = none) ∨
        (∃ A B x0, inorder t = A ++ x0 :: B ∧ lt e x0 = false ∧
          lt x0 e = false ∧
          inorder m2.root =
            (ctxL path).map Prod.snd ++ A ++ B ++
              (ctxR path).map Prod.snd) := by
  intro t
  induction t with
  | nil =>
      intro path c cb n N ht hctx hcompat m2 hm2
      rw [delRec_nil] at hm2
      injection hm2 with hm2
      exact Or.inl ⟨hm2.symm, rfl⟩
  | node i b l x r ihl ihr =>
      intro path c cb n N ht hctx hcompat m2 hm2
      by_cases h1 : lt e x = true
      · rw [delRec_lt lt m i b l r x path e h1] at hm2
        have hrec :
            (m2 = m ∧ getRecursive lt l e = none) ∨
            (∃ A B x0, inorder l = A ++ x0 :: B ∧ lt e x0 = false ∧
              lt x0 e = false ∧
              inorder m2.root =
                (ctxL (⟨Dir.left, i, b, x, r⟩ :: path)).map Prod.snd ++ A ++
                  B ++ (ctxR (⟨Dir.left, i, b, x, r⟩ :: path)).map
                    Prod.snd) := by
          cases ht with
          | red hl hr =>
              exact ihl _ hl (.redF hr (hctx.of_red hcompat)) (fun _ => rfl)
                m2 hm2
          | black hl hr =>
              exact ihl _ hl (.blackF hr hctx) (fun h => by cases h) m2 hm2
        rcases hrec with ⟨hm, hget⟩ | ⟨A, B, x0, hAB, he1, he2, hres⟩
        · refine Or.inl ⟨hm, ?_⟩
          rw [getRec_lt lt i b l r x e h1]
          exact hget
        · refine Or.inr ⟨A, B ++ x :: inorder r, x0, ?_, he1, he2, ?_⟩
          · rw [inorder_node, hAB]
            simp
          · rw [hres]
            simp [inorder]
      · rw [Bool.not_eq_true] at h1
        by_cases h2 : lt x e = true
        · rw [delRec_gt lt m i b l r x path e h1 h2] at hm2
          have hrec :
              (m2 = m ∧ getRecursive lt r e = none) ∨
              (∃ A B x0, inorder r = A ++ x0 :: B ∧ lt e x0 = false ∧
                lt x0 e = false ∧
                inorder m2.root =
                  (ctxL (⟨Dir.right, i, b, x, l⟩ :: path)).map Prod.snd ++
                    A ++ B ++ (ctxR (⟨Dir.right, i, b, x, l⟩ :: path)).map
                      Prod.snd) := by
            cases ht with
            | red hl hr =>
                exact ihr _ hr (.redF hl (hctx.of_red hcompat))
                  (fun _ => rfl) m2 hm2
            | black hl hr =>
                exact ihr _ hr (.blackF hl hctx) (fun h => by cases h) m2 hm2
          rcases hrec with ⟨hm, hget⟩ | ⟨A, B, x0, hAB, he1, he2, hres⟩
          · refine Or.inl ⟨hm, ?_⟩
            rw [getRec_gt lt i b l r x e h1 h2]
            exact hget
          · refine Or.inr ⟨inorder l ++ x :: A, B, x0, ?_, he1, he2, ?_⟩
            · rw [inorder_node, hAB]
              simp
            · rw [hres]
              simp [inorder]
        · rw [Bool.not_eq_true] at h2
          cases hlc : l with
          | nil =>
              subst hlc
              rw [delRec_found_lnil lt m i b r x path e h1 h2] at hm2
              have hres := removeAt_inorder m i b .nil r x path ht hctx
                hcompat (Or.inl rfl) m2 hm2
              refine Or.inr ⟨[], inorder r, x, by rw [inorder_node]; rfl,
                h1, h2, ?_⟩
              rw [inorder, hres]
              simp [inorder, inorderP]
          | node li lb ll lx lr =>
              subst hlc
              cases hrc : r with
              | nil =>
                  subst hrc
                  rw [delRec_found_rnil lt m i li b lb ll lr x lx path e h1
                    h2] at hm2
                  have hres := removeAt_inorder m i b
                    (.node li lb ll lx lr) .nil x path ht hctx hcompat
                    (Or.inr rfl) m2 hm2
                  refine Or.inr ⟨inorder (.node li lb ll lx lr), [], x,
                    by rw [inorder_node]; rfl, h1, h2, ?_⟩
                  rw [inorder, hres]
                  simp [inorder, inorderP]
              | node ri rb rl rx rr =>
                  subst hrc
                  cases hlm : leftmost (.node ri rb rl rx rr) with
                  | none =>
                      have hs := leftmost_isSome
                        (.node ri rb rl rx rr : TreeNode α) rfl
                      rw [hlm] at hs
                      cases hs
                  | some y =>
                      rw [delRec_found_two lt m i li ri b lb rb ll lr rl rr
                        x lx rx y path e h1 h2 hlm] at hm2
                      have hone : ∃ ui2 ub2 ux2 ur2 upath2 cu2 cbu2 nu2,
                          succToSlot (.node ri rb rl rx rr)
                            (⟨.right, i, b, y,
                              .node li lb ll lx lr⟩ :: path) =
                            (.node ui2 ub2 .nil ux2 ur2, upath2) ∧
                          Bal (.node ui2 ub2 .nil ux2 ur2) cu2 nu2 ∧
                          CtxBal upath2 cbu2 nu2 N ∧
                          (cbu2 = true → cu2 = true) := by
                        cases ht with
                        | red hl hr =>
                            exact succToSlot_bal _ _ hr
                              (.redF hl (hctx.of_red hcompat))
                              (fun _ => rfl) rfl
                        | black hl hr =>
                            exact succToSlot_bal _ _ hr (.blackF hl hctx)
                              (fun h => by cases h) rfl
                      obtain ⟨ui2, ub2, ux2, ur2, upath2, cu2, cbu2, nu2,
                        hfst, hbu, hctxu, hcompatu⟩ := hone
                      rw [hfst] at hm2
                      replace hm2 : removeAt m
                          (.node ui2 ub2 .nil ux2 ur2) upath2 = some m2 :=
                        hm2
                      have hres := removeAt_inorder m ui2 ub2 .nil ur2 ux2
                        upath2 hbu hctxu hcompatu (Or.inl rfl) m2 hm2
                      have hctxL0 : ctxL upath2 =
                          ctxL (⟨Dir.right, i, b, y,
                            TreeNode.node li lb ll lx lr⟩ :: path) := by
                        have h0 := ctxL_succToSlot
                          (.node ri rb rl rx rr : TreeNode α)
                          (⟨.right, i, b, y,
                            .node li lb ll lx lr⟩ :: path)
                        rw [hfst] at h0
                        exact h0
                      have hplug : plug
                          (.node ui2 ub2 .nil ux2 ur2 : TreeNode α) upath2 =
                          plug (.node ri rb rl rx rr)
                            (⟨.right, i, b, y,
                              .node li lb ll lx lr⟩ :: path) := by
                        have h0 := plug_succToSlot
                          (.node ri rb rl rx rr : TreeNode α)
                          (⟨.right, i, b, y,
                            .node li lb ll lx lr⟩ :: path)
                        rw [hfst] at h0
                        exact h0
                      obtain ⟨j0, tl, hRtl⟩ := leftmost_pairs
                        (.node ri rb rl rx rr) y hlm
                      have hcancel : inorderP
                          (.node ui2 ub2 .nil ux2 ur2 : TreeNode α) ++
                          ctxR upath2 =
                          inorderP (.node ri rb rl rx rr) ++
                          ctxR (⟨Dir.right, i, b, y,
                            TreeNode.node li lb ll lx lr⟩ :: path) := by
                        have hb := congrArg inorderP hplug
                        rw [inorderP_plug, inorderP_plug, hctxL0] at hb
                        rw [List.append_assoc, List.append_assoc] at hb
                        exact List.append_cancel_left hb
                      rw [hRtl, ctxR_right] at hcancel
                      have hu2 : inorderP
                          (.node ui2 ub2 .nil ux2 ur2 : TreeNode α) =
                          (ui2, ux2) :: inorderP ur2 := by
                        simp [inorderP]
                      rw [hu2] at hcancel
                      simp only [List.cons_append] at hcancel
                      injection hcancel with hhead htail
                      have hRe : inorder (.node ri rb rl rx rr) =
                          y :: tl.map Prod.snd := by
                        rw [inorder, hRtl]
                        rfl
                      refine Or.inr ⟨inorder (.node li lb ll lx lr),
                        y :: tl.map Prod.snd, x, ?_, h1, h2, ?_⟩
                      · rw [inorder_node, hRe]
                      · rw [inorder, hres, hctxL0, ctxL_right]
                        simp only [List.append_assoc, List.nil_append]
                        rw [show inorderP (.nil : TreeNode α) = []
                          from rfl]
                        rw [List.nil_append, htail]
                        simp [inorder]

/-! ## Lookup lemmas and sortedness of `Put` results -/

theorem getRecursive_none {α : Type} (lt : α → α → Bool) (e : α) :
    ∀ (t : TreeNode α), (∀ y ∈ inorder t, lt e y = true ∨ lt y e = true) →
      getRecursive lt t e = none := by
  intro t
  induction t with
  | nil => intro _; rfl
  | node i b l x r ihl ihr =>
      intro habs
      have hx := habs x (by
        rw [inorder_node]
        exact List.mem_append_right _ (List.mem_cons_self _ _))
      by_cases h1 : lt e x = true
      · rw [getRec_lt lt i b l r x e h1]
        exact ihl (fun y hy => habs y (by
          rw [inorder_node]; exact List.mem_append_left _ hy))
      · rw [Bool.not_eq_true] at h1
        by_cases h2 : lt x e = true
        · rw [getRec_gt lt i b l r x e h1 h2]
          exact ihr (fun y hy => habs y (by
            rw [inorder_node]
            exact List.mem_append_right _ (List.mem_cons_of_mem _ hy)))
        · rw [Bool.not_eq_true] at h2
          rw [h1, h2] at hx
          rcases hx with h | h <;> cases h

theorem getRecursive_mem {α : Type} (lt : α → α → Bool)
    (H : OrderingContract lt) :
    ∀ (t : TreeNode α) (j : Nat) (e : α), SortedP lt (inorderP t) →
      (j, e) ∈ inorderP t → getRecursive lt t e = some e := by
  intro t
  induction t with
  | nil =>
      intro j e _ hmem
      simp [inorderP] at hmem
  | node i b l x r ihl ihr =>
      intro j e hs hmem
      have hsx : SortedP lt (inorderP l ++ (i, x) :: inorderP r) := hs
      obtain ⟨hfl, hfr⟩ := sortedP_node_facts hsx
      have hsl : SortedP lt (inorderP l) :=
        List.Pairwise.sublist (List.sublist_append_left _ _) hsx
      have hsr : SortedP lt (inorderP r) :=
        List.Pairwise.sublist
          ((List.sublist_cons_self _ _).trans (List.sublist_append_right _ _)) hsx
      rcases List.mem_append.mp hmem with hL | hcr
      · have h1 : lt e x = true := hfl (j, e) hL
        rw [getRec_lt lt i b l r x e h1]
        exact ihl j e hsl hL
      · rcases List.mem_cons.mp hcr with heq | hR
        · have hex : e = x := congrArg Prod.snd heq
          subst hex
          rw [getRec_found lt i b l r e e (H.irrefl e) (H.irrefl e)]
        · have h2 : lt x e = true := hfr (j, e) hR
          have h1 : lt e x = false := H.asymm x e h2
          rw [getRec_gt lt i b l r x e h1 h2]
          exact ihr j e hsr hR

theorem sortedP_insert {α : Type} {lt : α → α → Bool}
    {A B : List (Nat × α)} {j : Nat} {e : α} (h : SortedP lt (A ++ B))
    (hA : ∀ p ∈ A, lt p.2 e = true) (hB : ∀ p ∈ B, lt e p.2 = true) :
    SortedP lt (A ++ (j, e) :: B) := by
  rw [SortedP, List.pairwise_append] at h ⊢
  obtain ⟨h1, h2, h3⟩ := h
  refine ⟨h1, ?_, ?_⟩
  · rw [List.pairwise_cons]
    exact ⟨fun q hq => hB q hq, h2⟩
  · intro p hp q hq
    rcases List.mem_cons.mp hq with rfl | hq2
    · exact hA p hp
    · exact h3 p hp q hq2

theorem sortedP_drop_mid {α : Type} {lt : α → α → Bool}
    {A B : List (Nat × α)} {p : Nat × α} (h : SortedP lt (A ++ p :: B)) :
    SortedP lt (A ++ B) :=
  List.Pairwise.sublist ((List.sublist_cons_self p B).append_left A) h

/-- A `Put` on a tree with sorted in-order pairs yields sorted in-order
pairs again, with the new element present at its ordered position. -/
theorem Put_inorder {α : Type} (lt : α → α → Bool) (H : OrderingContract lt)
    (m : RedBlackTree α) (e : α) (hs : SortedP lt (inorderP m.root)) :
    SortedP lt (inorderP (Put lt m e).root) ∧
    ∃ j A B, inorderP (Put lt m e).root = A ++ (j, e) :: B := by
  obtain ⟨A, B, hA, hB, hcase⟩ := putRecursive_sorted lt H e m.nextId m.root
    [] (by simpa [ctxL, ctxR] using hs) (by simp [ctxL]) (by simp [ctxR])
  have hroot : (Put lt m e).root =
    (putRecursive lt m.root e m.nextId []).1 := rfl
  rcases hcase with ⟨_, hAB, hres⟩ | ⟨j, x0, _, hAB, _, _, hres⟩
  · rw [hroot, hres]
    have hs2 : SortedP lt (A ++ B) := by rw [← hAB]; exact hs
    simp only [ctxL, ctxR, List.append_nil, List.nil_append]
    exact ⟨sortedP_insert hs2 hA hB, m.nextId, A, B, rfl⟩
  · rw [hroot, hres]
    have hs2 : SortedP lt (A ++ B) :=
      sortedP_drop_mid (by rw [← hAB]; exact hs)
    simp only [ctxL, ctxR, List.append_nil, List.nil_append]
    exact ⟨sortedP_insert hs2 hA hB, j, A, B, rfl⟩

theorem intLt_contract : OrderingContract intLt := by
  refine ⟨fun a => ?_, fun a b c h1 h2 => ?_, fun a b c h1 h2 => ?_,
    fun a b h => ?_⟩ <;> simp [intLt] at * <;> omega

/-- Claim C8: on a tree satisfying the red-black balance invariant whose
in-order pairs are sorted by the ordering, and with an ordering satisfying
the strict-order contract: after `Put k` a `Get k` returns the stored
element (the just-put payload `k`) as found; and `Delete k` succeeds and a
`Get k` on its result reports not-found. -/
theorem claim_C8 {α : Type} (lt : α → α → Bool) (H : OrderingContract lt)
    (m : RedBlackTree α) (k : α) (hbal : ∃ c n, Bal m.root c n)
    (hsorted : SortedP lt (inorderP m.root)) :
    Get lt (Put lt m k) k = some k ∧
    ∃ m2, Delete lt m k = some m2 ∧ Get lt m2 k = none := by
  constructor
  · obtain ⟨hs2, j, A, B, hmem⟩ := Put_inorder lt H m k hsorted
    show getRecursive lt (Put lt m k).root k = some k
    exact getRecursive_mem lt H _ j k hs2 (hmem ▸ List.mem_append_right A
      (List.mem_cons_self _ _))
  · obtain ⟨c, n, hb⟩ := hbal
    obtain ⟨m2, heq, _⟩ := Delete_bal lt m k ⟨c, n, hb⟩
    refine ⟨m2, heq, ?_⟩
    have hdel := deleteRecursive_inorder lt m k m.root [] hb .root
      (fun hc => by cases hc) m2 heq
    rcases hdel with ⟨hm, hget⟩ | ⟨A, B, x0, hAB, he1, he2, hres⟩
    · show getRecursive lt m2.root k = none
      rw [hm]
      exact hget
    · show getRecursive lt m2.root k = none
      refine getRecursive_none lt k m2.root (fun y hy => ?_)
      rw [hres] at hy
      simp only [ctxL, ctxR, List.map_nil, List.nil_append,
        List.append_nil] at hy
      have hsE : List.Pairwise (fun a b => lt a b = true)
          (inorder m.root) := by
        rw [inorder]
        exact (List.pairwise_map).mpr hsorted
      rw [hAB, List.pairwise_append] at hsE
      obtain ⟨hsA, hsxB, hcross⟩ := hsE
      rw [List.pairwise_cons] at hsxB
      rcases List.mem_append.mp hy with hyA | hyB
      · have hyx : lt y x0 = true :=
          hcross y hyA x0 (List.mem_cons_self _ _)
        cases hyk : lt y k with
        | true => exact Or.inr rfl
        | false =>
            have := H.negTrans y k x0 hyk he1
            rw [this] at hyx
            cases hyx
      · have hxy : lt x0 y = true := hsxB.1 y hyB
        cases hky : lt k y with
        | true => exact Or.inl rfl
        | false =>
            have := H.negTrans x0 k y he2 hky
            rw [this] at hxy
            cases hxy

theorem claim_C8_witness :
    OrderingContract intLt ∧ (∃ c n, Bal (emptyTree Int).root c n) ∧
    SortedP intLt (inorderP (emptyTree Int).root) ∧
    (Get intLt (Put intLt (emptyTree Int) 1) 1 = some 1 ∧
     ∃ m2, Delete intLt (emptyTree Int) 1 = some m2 ∧
       Get intLt m2 1 = none) :=
  ⟨intLt_contract, ⟨true, 1, Bal.nil⟩, List.Pairwise.nil,
   claim_C8 intLt intLt_contract (emptyTree Int) 1 ⟨true, 1, Bal.nil⟩
     List.Pairwise.nil⟩

/-! ## The overwrite branch of `Put` (claim C5) -/

/-- BST descent of `putRecursive` when some stored element compares equal
to the new one: the result is exactly the original tree with that one
node's payload replaced, and the no-insertion flag. -/
theorem putRecursive_overwrite {α : Type} (lt : α → α → Bool)
    (H : OrderingContract lt) (e : α) (eid : Nat) :
    ∀ (t : TreeNode α) (path : List (Frame α)),
      SortedP lt (inorderP t) →
      (∃ p ∈ inorderP t, lt e p.2 = false ∧ lt p.2 e = false) →
      ∃ i b l r x0 path2,
        plug (.node i b l x0 r) path2 = plug t path ∧
        lt e x0 = false ∧ lt x0 e = false ∧
        putRecursive lt t e eid path =
          (plug (.node i b l e r) path2, false) := by
  intro t
  induction t with
  | nil =>
      intro path _ hex
      obtain ⟨p, hp, _⟩ := hex
      simp [inorderP] at hp
  | node i b l x r ihl ihr =>
      intro path hs hex
      have hsx : SortedP lt (inorderP l ++ (i, x) :: inorderP r) := hs
      obtain ⟨hfl, hfr⟩ := sortedP_node_facts hsx
      have hsl : SortedP lt (inorderP l) :=
        List.Pairwise.sublist (List.sublist_append_left _ _) hsx
      have hsr : SortedP lt (inorderP r) :=
        List.Pairwise.sublist
          ((List.sublist_cons_self _ _).trans
            (List.sublist_append_right _ _)) hsx
      obtain ⟨p, hp, hpe1, hpe2⟩ := hex
      rcases List.mem_append.mp hp with hL | hcr
      · have hx0x : lt p.2 x = true := hfl p hL
        have h1 : lt e x = true := by
          cases h1 : lt e x with
          | true => rfl
          | false =>
              have := H.negTrans p.2 e x hpe2 h1
              rw [hx0x] at this
              cases this
        rw [putRecursive, if_pos h1]
        exact ihl (⟨.left, i, b, x, r⟩ :: path) hsl ⟨p, hL, hpe1, hpe2⟩
      · rcases List.mem_cons.mp hcr with heq | hR
        · subst heq
          rw [putRecursive, if_neg (by simp [hpe1]),
            if_neg (by simp [hpe2])]
          exact ⟨i, b, l, r, x, path, rfl, hpe1, hpe2, rfl⟩
        · have hxx0 : lt x p.2 = true := hfr p hR
          have h2 : lt x e = true := by
            cases h2 : lt x e with
            | true => rfl
            | false =>
                have := H.negTrans x e p.2 h2 hpe1
                rw [hxx0] at this
                cases this
          have h1 : lt e x = false := H.asymm x e h2
          rw [putRecursive, if_neg (by simp [h1]), if_pos h2]
          exact ihr (⟨.right, i, b, x, l⟩ :: path) hsr ⟨p, hR, hpe1, hpe2⟩

/-- Claim C5: if some stored element compares neither-before-nor-after
the argument, `Put` only overwrites that node's payload in place: the
result is the original tree rebuilt from the same context with the same
id, color and subtrees (no node created or destroyed, no link or color
change, no rebalance), `size` is unchanged, and in general `size` grows
by one exactly when `putRecursive` reports a structural insertion. -/
theorem claim_C5 {α : Type} (lt : α → α → Bool) (H : OrderingContract lt)
    (m : RedBlackTree α) (e : α) (hs : SortedP lt (inorderP m.root))
    (hex : ∃ p ∈ inorderP m.root, lt e p.2 = false ∧ lt p.2 e = false) :
    (∃ i b l r x0 path,
      plug (.node i b l x0 r) path = m.root ∧ lt e x0 = false ∧
      lt x0 e = false ∧
      (Put lt m e).root = plug (.node i b l e r) path ∧
      (putRecursive lt m.root e m.nextId []).2 = false ∧
      (Put lt m e).size = m.size) ∧
    (Put lt m e).size =
      m.size + (if (putRecursive lt m.root e m.nextId []).2
        then 1 else 0) := by
  refine ⟨?_, rfl⟩
  obtain ⟨i, b, l, r, x0, path2, hplugeq, he1, he2, hres⟩ :=
    putRecursive_overwrite lt H e m.nextId m.root [] hs hex
  refine ⟨i, b, l, r, x0, path2, hplugeq, he1, he2, ?_, ?_, ?_⟩
  · show (putRecursive lt m.root e m.nextId []).1 = _
    rw [hres]
  · rw [hres]
  · show m.size + (if (putRecursive lt m.root e m.nextId []).2
      then 1 else 0) = m.size
    rw [hres]
    simp

theorem claim_C5_witness :
    OrderingContract intLt ∧
    SortedP intLt (inorderP (Put intLt (emptyTree Int) 1).root) ∧
    (∃ p ∈ inorderP (Put intLt (emptyTree Int) 1).root,
      intLt 1 p.2 = false ∧ intLt p.2 1 = false) ∧
    ((∃ i b l r x0 path,
      plug (.node i b l x0 r) path = (Put intLt (emptyTree Int) 1).root ∧
      intLt 1 x0 = false ∧ intLt x0 1 = false ∧
      (Put intLt (Put intLt (emptyTree Int) 1) 1).root =
        plug (.node i b l 1 r) path ∧
      (putRecursive intLt (Put intLt (emptyTree Int) 1).root 1
        (Put intLt (emptyTree Int) 1).nextId []).2 = false ∧
      (Put intLt (Put intLt (emptyTree Int) 1) 1).size =
        (Put intLt (emptyTree Int) 1).size) ∧
     (Put intLt (Put intLt (emptyTree Int) 1) 1).size =
       (Put intLt (emptyTree Int) 1).size +
         (if (putRecursive intLt (Put intLt (emptyTree Int) 1).root 1
           (Put intLt (emptyTree Int) 1).nextId []).2 then 1 else 0)) :=
  ⟨intLt_contract, by unfold SortedP; decide, by decide,
   claim_C5 intLt intLt_contract (Put intLt (emptyTree Int) 1) 1
     (by unfold SortedP; decide) (by decide)⟩

/-! ## Declarative reading of `Walk` (claim C7)

The following two definitions transcribe the specification's description
of the `step`/`Walk` operation: the extreme descendant reached by
repeatedly following `child[1-d]`, and the climb to the first ancestor
reached from a `1-d`-side child. -/

/-- Extreme descendant: from `t`, keep following `child e` while that
child is non-empty (specification wording). -/
def followAll {α : Type} (e : Dir) : TreeNode α → TreeNode α
  | .nil => .nil
  | .node i b l x r =>
      match e with
      | .left =>
          match l with
          | .nil => .node i b l x r
          | .node li lb ll lx lr => followAll .left (.node li lb ll lx lr)
      | .right =>
          match r with
          | .nil => .node i b l x r
          | .node ri rb rl rx rr => followAll .right (.node ri rb rl rx rr)

/-- The specification's description of `Walk(n, d)`, as the returned
node: if `n.child[d]` is non-empty, the extreme descendant reached from
it by repeatedly following `child[1-d]`; otherwise climb the parent
chain while the climbed-from node is the `d`-side child, and return the
first ancestor reached from a `1-d`-side child (`none` when the root is
passed without finding one). -/
def walkSpec {α : Type} (t : TreeNode α) (path : List (Frame α))
    (d : Dir) : Option (TreeNode α) :=
  match t with
  | .nil => none
  | .node i b l x r =>
      let c := (TreeNode.node i b l x r).child d
      if c.isNil then
        match path.dropWhile (fun f => decide (f.dir = d)) with
        | [] => none
        | f :: _ =>
            some (f.close (plug (.node i b l x r)
              (path.takeWhile (fun f => decide (f.dir = d)))))
      else
        some (followAll d.flip c)

theorem walkDown_fst {α : Type} (dd : Dir) :
    ∀ (t : TreeNode α) (path : List (Frame α)),
      (walkDown dd t path).1 = followAll dd t := by
  intro t
  induction t with
  | nil => intro path; cases dd <;> rfl
  | node i b l x r ihl ihr =>
      intro path
      cases dd with
      | left =>
          cases l with
          | nil => rfl
          | node li lb ll lx lr =>
              rw [walkDown, followAll]
              exact ihl _
      | right =>
          cases r with
          | nil => rfl
          | node ri rb rl rx rr =>
              rw [walkDown, followAll]
              exact ihr _

theorem walkUp_spec {α : Type} (d : Dir) :
    ∀ (path : List (Frame α)) (t : TreeNode α),
      (walkUp d path t).map (fun lc => lc.1) =
        (match path.dropWhile (fun f => decide (f.dir = d)) with
         | [] => none
         | f :: _ =>
             some (f.close (plug t
               (path.takeWhile (fun f => decide (f.dir = d)))))) := by
  intro path
  induction path with
  | nil => intro t; rfl
  | cons f rest ih =>
      intro t
      by_cases hd : f.dir = d
      · rw [walkUp, if_pos hd]
        rw [List.dropWhile_cons_of_pos (by simp [hd]),
          List.takeWhile_cons_of_pos (by simp [hd])]
        rw [ih (f.close t)]
        rfl
      · rw [walkUp, if_neg hd]
        rw [List.dropWhile_cons_of_neg (by simp [hd]),
          List.takeWhile_cons_of_neg (by simp [hd])]
        rfl

/-- Claim C7: the `Walk` of the code returns exactly the node the
specification describes, for every focused node, parent chain and
direction: the extreme `1-d` descendant of `child[d]` when that child
is non-empty, else the first ancestor reached from a `1-d`-side child,
else nothing. -/
theorem claim_C7 {α : Type} (t : TreeNode α) (path : List (Frame α))
    (d : Dir) :
    (Walk t path d).map (fun lc => lc.1) = walkSpec t path d := by
  cases t with
  | nil => rfl
  | node i b l x r =>
      cases d with
      | left =>
          cases l with
          | nil =>
              rw [Walk, walkSpec]
              simp only [TreeNode.child_left, TreeNode.isNil, if_true]
              exact walkUp_spec .left path (.node i b .nil x r)
          | node li lb ll lx lr =>
              rw [Walk, walkSpec]
              simp only [TreeNode.child_left, TreeNode.isNil, Bool.false_eq_true,
                if_false, Option.map_some', Dir.flip_left]
              rw [walkDown_fst]
      | right =>
          cases r with
          | nil =>
              rw [Walk, walkSpec]
              simp only [TreeNode.child_right, TreeNode.isNil, if_true]
              exact walkUp_spec .right path (.node i b l x .nil)
          | node ri rb rl rx rr =>
              rw [Walk, walkSpec]
              simp only [TreeNode.child_right, TreeNode.isNil, Bool.false_eq_true,
                if_false, Option.map_some']
              rw [walkDown_fst]
              rfl

/-! ## In-order traversal by `First` + repeated `Walk(Right)` (claim C4) -/

/-- Visit the focused node's element, then continue at `Walk(Right)`
(fuel-bounded transcription of `t := tree.First(); for t != nil
{ visit t.Elem; t = t.Walk(Right) }`). -/
def traverseFrom {α : Type} : Nat → TreeNode α → List (Frame α) → List α
  | 0, _, _ => []
  | fuel + 1, t, path =>
      match t with
      | .nil => []
      | .node i b l x r =>
          x :: (match Walk (.node i b l x r) path .right with
                | none => []
                | some lc => traverseFrom fuel lc.1 lc.2)

/-- The full in-order traversal: start at the leftmost node (the node the
`first` cache references) and repeatedly step right. -/
def traverseRBT {α : Type} (m : RedBlackTree α) : List α :=
  traverseFrom (inorderP m.root).length (walkDown .left m.root []).1
    (walkDown .left m.root []).2

theorem walkDown_left_eq {α : Type} :
    ∀ (t : TreeNode α) (path : List (Frame α)),
      walkDown .left t path = succToSlot t path := by
  intro t
  induction t with
  | nil => intro path; rfl
  | node i b l x r ihl ihr =>
      intro path
      cases l with
      | nil => rfl
      | node li lb ll lx lr =>
          rw [walkDown, succToSlot]
          exact ihl _

/-- The left-spine descent lands on the node holding the head of the
focus subtree's in-order stream, and preserves the rebuilt tree and the
remaining stream. -/
theorem succToSlot_stream {α : Type} :
    ∀ (t : TreeNode α) (path : List (Frame α)), t.isNil = false →
      ∃ i2 b2 x2 r2 path2,
        succToSlot t path = (.node i2 b2 .nil x2 r2, path2) ∧
        inorderP t ++ ctxR path =
          (i2, x2) :: (inorderP r2 ++ ctxR path2) ∧
        plug (.node i2 b2 .nil x2 r2) path2 = plug t path := by
  intro t
  induction t with
  | nil => intro path h; cases h
  | node i b l x r ihl ihr =>
      intro path _
      cases l with
      | nil =>
          refine ⟨i, b, x, r, path, by rw [succToSlot], ?_, rfl⟩
          simp [inorderP]
      | node li lb ll lx lr =>
          obtain ⟨i2, b2, x2, r2, path2, heq, hstream, hplug⟩ :=
            ihl (⟨.left, i, b, x, r⟩ :: path) rfl
          refine ⟨i2, b2, x2, r2, path2, by rw [succToSlot]; exact heq,
            ?_, hplug⟩
          rw [← hstream, ctxR_left]
          simp [inorderP]

/-- The climb of `Walk(Right)` from a right-spine position: it returns
the node holding the head of the remaining context stream, or `none`
exactly when that stream is empty; the rebuilt tree is preserved. -/
theorem walkUp_right_stream {α : Type} :
    ∀ (path : List (Frame α)) (t0 : TreeNode α),
      (walkUp .right path t0 = none ∧ ctxR path = []) ∨
      (∃ i2 b2 l2 x2 r2 path2,
        walkUp .right path t0 = some (.node i2 b2 l2 x2 r2, path2) ∧
        ctxR path = (i2, x2) :: (inorderP r2 ++ ctxR path2) ∧
        plug (.node i2 b2 l2 x2 r2) path2 = plug t0 path) := by
  intro path
  induction path with
  | nil => intro t0; exact Or.inl ⟨rfl, rfl⟩
  | cons f rest ih =>
      intro t0
      obtain ⟨fd, fi, fb, fx, fs⟩ := f
      cases fd with
      | right =>
          rcases ih (Frame.close ⟨.right, fi, fb, fx, fs⟩ t0) with
            ⟨hnone, hctx⟩ | ⟨i2, b2, l2, x2, r2, path2, heq, hctx, hplug⟩
          · refine Or.inl ⟨?_, ?_⟩
            · rw [walkUp, if_pos rfl]
              exact hnone
            · rw [ctxR_right]
              exact hctx
          · refine Or.inr ⟨i2, b2, l2, x2, r2, path2, ?_, ?_, hplug⟩
            · rw [walkUp, if_pos rfl]
              exact heq
            · rw [ctxR_right]
              exact hctx
      | left =>
          refine Or.inr ⟨fi, fb, t0, fx, fs, rest, ?_, ?_, rfl⟩
          · rw [walkUp, if_neg (by simp)]
            rfl
          · rw [ctxR_left]
            rfl

/-- One `Walk(Right)` step: from a focused node, the next location holds
the head of the remaining in-order stream (`none` exactly when the
stream is exhausted), and the rebuilt tree is unchanged. -/
theorem walk_right_step {α : Type} (path : List (Frame α)) (i : Nat)
    (b : Bool) (l r : TreeNode α) (x : α) :
    (Walk (.node i b l x r) path .right = none ∧
      inorderP r ++ ctxR path = []) ∨
    (∃ i2 b2 l2 x2 r2 path2,
      Walk (.node i b l x r) path .right =
        some (.node i2 b2 l2 x2 r2, path2) ∧
      inorderP r ++ ctxR path = (i2, x2) :: (inorderP r2 ++ ctxR path2) ∧
      plug (.node i2 b2 l2 x2 r2) path2 = plug (.node i b l x r) path) := by
  cases r with
  | nil =>
      rcases walkUp_right_stream path (.node i b l x .nil) with
        ⟨hnone, hctx⟩ | ⟨i2, b2, l2, x2, r2, path2, heq, hctx, hplug⟩
      · refine Or.inl ⟨?_, ?_⟩
        · rw [Walk]
          exact hnone
        · simp [inorderP, hctx]
      · refine Or.inr ⟨i2, b2, l2, x2, r2, path2, ?_, ?_, hplug⟩
        · rw [Walk]
          exact heq
        · simp [inorderP, hctx]
  | node ri rb rl rx rr =>
      obtain ⟨i2, b2, x2, r2, path2, heq, hstream, hplug⟩ :=
        succToSlot_stream (.node ri rb rl rx rr)
          (⟨.right, i, b, x, l⟩ :: path) rfl
      refine Or.inr ⟨i2, b2, .nil, x2, r2, path2, ?_, ?_, hplug⟩
      · rw [Walk, walkDown_left_eq, heq]
      · rw [← hstream, ctxR_right]

/-- With enough fuel, the visit stream from a focused node is its element
followed by the elements of its right subtree and remaining context. -/
theorem traverseFrom_stream {α : Type} :
    ∀ (fuel : Nat) (i : Nat) (b : Bool) (l r : TreeNode α) (x : α)
      (path : List (Frame α)),
      (inorderP r ++ ctxR path).length < fuel →
      traverseFrom fuel (.node i b l x r) path =
        x :: (inorderP r ++ ctxR path).map Prod.snd := by
  intro fuel
  induction fuel with
  | zero => intro i b l r x path h; omega
  | succ fuel ih =>
      intro i b l r x path h
      rw [traverseFrom]
      rcases walk_right_step path i b l r x with
        ⟨hnone, hctx⟩ | ⟨i2, b2, l2, x2, r2, path2, heq, hctx, _⟩
      · rw [hnone, hctx]
        rfl
      · rw [heq]
        show x :: traverseFrom fuel (.node i2 b2 l2 x2 r2) path2 =
          x :: (inorderP r ++ ctxR path).map Prod.snd
        have hlen : (inorderP r2 ++ ctxR path2).length < fuel := by
          have := congrArg List.length hctx
          simp only [List.length_cons] at this
          omega
        rw [ih i2 b2 l2 r2 x2 path2 hlen, hctx]
        rfl

/-- The traversal that starts at the leftmost node and repeatedly steps
right visits exactly the in-order elements of the tree. -/
theorem traverseRBT_inorder {α : Type} (m : RedBlackTree α) :
    traverseRBT m = inorder m.root := by
  rw [traverseRBT]
  cases hroot : m.root with
  | nil => rfl
  | node i b l x r =>
      rw [walkDown_left_eq]
      obtain ⟨i2, b2, x2, r2, path2, heq, hstream, _⟩ :=
        succToSlot_stream (.node i b l x r) [] rfl
      rw [heq]
      have h2 : inorderP (.node i b l x r : TreeNode α) =
          (i2, x2) :: (inorderP r2 ++ ctxR path2) := by
        rw [← hstream]
        simp [ctxR]
      have hlen : (inorderP r2 ++ ctxR path2).length <
          (inorderP (.node i b l x r)).length := by
        rw [h2, List.length_cons]
        omega
      rw [traverseFrom_stream _ i2 b2 .nil r2 x2 path2 hlen]
      have : inorderP (.node i b l x r) ++ ctxR ([] : List (Frame α)) =
          inorderP (.node i b l x r) := by simp [ctxR]
      rw [this] at hstream
      rw [inorder, hstream]
      rfl

/-! ## Identity and first-cache invariants of `Put` folds (claim C4) -/

theorem elemOfId_none {α : Type} :
    ∀ (t : TreeNode α) (j : Nat), j ∉ (inorderP t).map Prod.fst →
      elemOfId t j = none := by
  intro t
  induction t with
  | nil => intro j _; rfl
  | node i b l x r ihl ihr =>
      intro j hj
      have hmm : ¬ (j ∈ (inorderP l).map Prod.fst ∨ j = i ∨
          j ∈ (inorderP r).map Prod.fst) := by
        simpa [inorderP] using hj
      rw [not_or, not_or] at hmm
      obtain ⟨hl, hji, hr⟩ := hmm
      rw [elemOfId, if_neg (fun h => hji h.symm)]
      simp only [ihl j hl, ihr j hr]
      rfl

theorem elemOfId_unique {α : Type} :
    ∀ (t : TreeNode α) (j : Nat) (y : α),
      ((inorderP t).map Prod.fst).Nodup → (j, y) ∈ inorderP t →
      elemOfId t j = some y := by
  intro t
  induction t with
  | nil => intro j y _ hm; simp [inorderP] at hm
  | node i b l x r ihl ihr =>
      intro j y hnd hm
      have hnd2 : ((inorderP l).map Prod.fst ++
          i :: (inorderP r).map Prod.fst).Nodup := by
        simpa [inorderP] using hnd
      rw [List.nodup_append] at hnd2
      obtain ⟨hndl, hndcr, hdisj⟩ := hnd2
      rw [List.nodup_cons] at hndcr
      obtain ⟨hinotr, hndr⟩ := hndcr
      rcases List.mem_append.mp hm with hL | hcr
      · have hjf : j ∈ (inorderP l).map Prod.fst :=
          List.mem_map_of_mem Prod.fst hL
        have hji : ¬ i = j := fun h =>
          hdisj hjf (by rw [← h]; exact List.mem_cons_self _ _)
        rw [elemOfId, if_neg hji, ihl j y hndl hL]
        rfl
      · rcases List.mem_cons.mp hcr with heq | hR
        · have h1 : j = i := congrArg Prod.fst heq
          have h2 : y = x := congrArg Prod.snd heq
          subst h1
          subst h2
          rw [elemOfId, if_pos rfl]
        · have hjf : j ∈ (inorderP r).map Prod.fst :=
            List.mem_map_of_mem Prod.fst hR
          have hji : ¬ i = j := fun h => hinotr (by rw [h]; exact hjf)
          have hln : j ∉ (inorderP l).map Prod.fst := fun hm2 =>
            hdisj hm2 (List.mem_cons_of_mem _ hjf)
          rw [elemOfId, if_neg hji, elemOfId_none l j hln]
          show elemOfId r j = some y
          exact ihr j y hndr hR

/-- The two outcomes of `Put` on a sorted tree, with the surrounding
pairs preserved: fresh insertion with the fresh id, or in-place
overwrite keeping the existing id. -/
theorem Put_pairs {α : Type} (lt : α → α → Bool) (H : OrderingContract lt)
    (m : RedBlackTree α) (e : α) (hs : SortedP lt (inorderP m.root)) :
    ∃ A B, (∀ p ∈ A, lt p.2 e = true) ∧ (∀ p ∈ B, lt e p.2 = true) ∧
      ((inorderP m.root = A ++ B ∧
        inorderP (Put lt m e).root = A ++ (m.nextId, e) :: B) ∨
       (∃ j x0, inorderP m.root = A ++ (j, x0) :: B ∧
        inorderP (Put lt m e).root = A ++ (j, e) :: B)) := by
  obtain ⟨A, B, hA, hB, hcase⟩ := putRecursive_sorted lt H e m.nextId m.root
    [] (by simpa [ctxL, ctxR] using hs) (by simp [ctxL]) (by simp [ctxR])
  have hroot : (Put lt m e).root =
    (putRecursive lt m.root e m.nextId []).1 := rfl
  refine ⟨A, B, hA, hB, ?_⟩
  rcases hcase with ⟨_, hAB, hres⟩ | ⟨j, x0, _, hAB, _, _, hres⟩
  · exact Or.inl ⟨hAB, by rw [hroot, hres]; simp [ctxL, ctxR]⟩
  · exact Or.inr ⟨j, x0, hAB, by rw [hroot, hres]; simp [ctxL, ctxR]⟩

/-- The invariant a fold of `Put`s maintains: sorted in-order pairs,
pairwise-distinct node ids all below the allocation counter, and a
`first` cache referencing the node holding the minimum. -/
def PutInv {α : Type} (lt : α → α → Bool) (m : RedBlackTree α) : Prop :=
  SortedP lt (inorderP m.root) ∧
  ((inorderP m.root).map Prod.fst).Nodup ∧
  (∀ j ∈ (inorderP m.root).map Prod.fst, j < m.nextId) ∧
  m.first = ((inorderP m.root).head?).map Prod.fst

/-- `Put` preserves the fold invariant. -/
theorem Put_inv {α : Type} (lt : α → α → Bool) (H : OrderingContract lt)
    (m : RedBlackTree α) (e : α) (hinv : PutInv lt m) :
    PutInv lt (Put lt m e) := by
  obtain ⟨hs, hnd, hbound, hfst⟩ := hinv
  obtain ⟨A, B, hA, hB, hcase⟩ := Put_pairs lt H m e hs
  have hnextId : (Put lt m e).nextId = m.nextId + 1 := rfl
  have hids : ((inorderP (Put lt m e).root).map Prod.fst).Nodup ∧
      ∀ j ∈ (inorderP (Put lt m e).root).map Prod.fst,
        j < m.nextId + 1 := by
    rcases hcase with ⟨hold, hnew⟩ | ⟨j0, x0, hold, hnew⟩
    · constructor
      · rw [hnew]
        simp only [List.map_append, List.map_cons]
        rw [List.nodup_middle, List.nodup_cons]
        constructor
        · intro hmem
          have : m.nextId < m.nextId := by
            apply hbound
            rw [hold]
            simpa using hmem
          omega
        · have hnd2 := hnd
          rw [hold] at hnd2
          simpa using hnd2
      · intro j hj
        rw [hnew] at hj
        simp only [List.map_append, List.map_cons] at hj
        rcases List.mem_append.mp hj with h | h
        · have := hbound j (by
            rw [hold]
            simp only [List.map_append]
            exact List.mem_append_left _ h)
          omega
        · rcases List.mem_cons.mp h with h | h
          · omega
          · have := hbound j (by
              rw [hold]
              simp only [List.map_append]
              exact List.mem_append_right _ h)
            omega
    · have hsame : (inorderP (Put lt m e).root).map Prod.fst =
          (inorderP m.root).map Prod.fst := by
        rw [hnew, hold]
        simp
      rw [hsame]
      exact ⟨hnd, fun j hj => by have := hbound j hj; omega⟩
  refine ⟨(Put_inorder lt H m e hs).1, hids.1, ?_, ?_⟩
  · rw [hnextId]
    exact hids.2
  · have hfeq : (Put lt m e).first =
        (match m.first with
         | none => some m.nextId
         | some fid =>
             match elemOfId (Put lt m e).root fid with
             | some fe => if lt e fe then some m.nextId else m.first
             | none => m.first) := rfl
    cases hf : m.first with
    | none =>
        rw [hf] at hfst
        have hempty : inorderP m.root = [] := by
          cases hh : inorderP m.root with
          | nil => rfl
          | cons p rest => rw [hh] at hfst; cases hfst
        rcases hcase with ⟨hold, hnew⟩ | ⟨j0, x0, hold, hnew⟩
        · rw [hempty] at hold
          obtain ⟨hA0, hB0⟩ := List.append_eq_nil.mp hold.symm
          subst hA0
          subst hB0
          have hres : (Put lt m e).first = some m.nextId := by
            rw [hfeq]
            simp only [hf]
          rw [hres, hnew]
          rfl
        · rw [hempty] at hold
          obtain ⟨_, h2⟩ := List.append_eq_nil.mp hold.symm
          exact absurd h2 (List.cons_ne_nil _ _)
    | some fid =>
        rw [hf] at hfst
        cases hh : inorderP m.root with
        | nil => rw [hh] at hfst; cases hfst
        | cons p rest =>
            rw [hh] at hfst
            obtain ⟨p1, p2⟩ := p
            simp only [List.head?_cons, Option.map_some'] at hfst
            injection hfst with hfid
            subst hfid
            rcases hcase with ⟨hold, hnew⟩ | ⟨j0, x0, hold, hnew⟩
            · rw [hh] at hold
              cases hA0 : A with
              | nil =>
                  subst hA0
                  rw [List.nil_append] at hold hnew
                  have hpB : ((fid : Nat), p2) ∈ B := by
                    rw [← hold]
                    exact List.mem_cons_self _ _
                  have helem : elemOfId (Put lt m e).root fid = some p2 :=
                    elemOfId_unique _ fid p2 hids.1
                      (by rw [hnew]; exact List.mem_cons_of_mem _ hpB)
                  have hlt : lt e p2 = true := hB _ hpB
                  have hres : (Put lt m e).first = some m.nextId := by
                    rw [hfeq]
                    simp only [hf, helem, hlt, if_true]
                  rw [hres, hnew]
                  rfl
              | cons a A2 =>
                  subst hA0
                  rw [List.cons_append] at hold
                  obtain ⟨a1, a2⟩ := a
                  injection hold with hpa hrest
                  have e1 : fid = a1 := congrArg Prod.fst hpa
                  have e2 : p2 = a2 := congrArg Prod.snd hpa
                  subst e1
                  subst e2
                  have hlt : lt p2 e = true :=
                    hA _ (List.mem_cons_self _ _)
                  have hltf : lt e p2 = false := H.asymm _ _ hlt
                  have helem : elemOfId (Put lt m e).root fid = some p2 :=
                    elemOfId_unique _ fid p2 hids.1
                      (by rw [hnew, List.cons_append]
                          exact List.mem_cons_self _ _)
                  have hres : (Put lt m e).first = some fid := by
                    rw [hfeq]
                    simp only [hf, helem, hltf, if_false]
                    rfl
                  rw [hres, hnew, List.cons_append]
                  rfl
            · rw [hh] at hold
              cases hA0 : A with
              | nil =>
                  subst hA0
                  rw [List.nil_append] at hold hnew
                  injection hold with hpa hrest
                  have e1 : fid = j0 := congrArg Prod.fst hpa
                  have e2 : p2 = x0 := congrArg Prod.snd hpa
                  subst e1
                  subst e2
                  have helem : elemOfId (Put lt m e).root fid = some e :=
                    elemOfId_unique _ fid e hids.1
                      (by rw [hnew]; exact List.mem_cons_self _ _)
                  have hltf : lt e e = false := H.irrefl e
                  have hres : (Put lt m e).first = some fid := by
                    rw [hfeq]
                    simp only [hf, helem, hltf, if_false]
                    rfl
                  rw [hres, hnew]
                  rfl
              | cons a A2 =>
                  subst hA0
                  rw [List.cons_append] at hold
                  obtain ⟨a1, a2⟩ := a
                  injection hold with hpa hrest
                  have e1 : fid = a1 := congrArg Prod.fst hpa
                  have e2 : p2 = a2 := congrArg Prod.snd hpa
                  subst e1
                  subst e2
                  have hlt : lt p2 e = true :=
                    hA _ (List.mem_cons_self _ _)
                  have hltf : lt e p2 = false := H.asymm _ _ hlt
                  have helem : elemOfId (Put lt m e).root fid = some p2 :=
                    elemOfId_unique _ fid p2 hids.1
                      (by rw [hnew, List.cons_append]
                          exact List.mem_cons_self _ _)
                  have hres : (Put lt m e).first = some fid := by
                    rw [hfeq]
                    simp only [hf, helem, hltf, if_false]
                    rfl
                  rw [hres, hnew, List.cons_append]
                  rfl

theorem emptyTree_inv {α : Type} (lt : α → α → Bool) :
    PutInv lt (emptyTree α) := by
  refine ⟨List.Pairwise.nil, List.nodup_nil, ?_, rfl⟩
  intro j hj
  simp [emptyTree, inorderP] at hj

theorem foldPut_inv {α : Type} (lt : α → α → Bool)
    (H : OrderingContract lt) :
    ∀ (es : List α) (m : RedBlackTree α), PutInv lt m →
      PutInv lt (es.foldl (Put lt) m) := by
  intro es
  induction es with
  | nil => intro m h; exact h
  | cons e es ih =>
      intro m h
      exact ih (Put lt m e) (Put_inv lt H m e h)

/-- Claim C4: after any sequence of `Put`s on the empty tree (ordering
satisfying the strict-order contract), the traversal that starts at the
node referenced by `First()` and repeatedly takes `Walk(Right)` visits
exactly the stored elements, once each (it equals the in-order element
list), in strictly increasing order, with no two visited elements
comparing equal; and `First()` is precisely the id of the leftmost node,
where that traversal starts. -/
theorem claim_C4 {α : Type} (lt : α → α → Bool) (H : OrderingContract lt)
    (es : List α) :
    traverseRBT (es.foldl (Put lt) (emptyTree α)) =
      inorder (es.foldl (Put lt) (emptyTree α)).root ∧
    List.Pairwise (fun a b => lt a b = true)
      (traverseRBT (es.foldl (Put lt) (emptyTree α))) ∧
    List.Pairwise (fun a b => ¬(lt a b = false ∧ lt b a = false))
      (traverseRBT (es.foldl (Put lt) (emptyTree α))) ∧
    First (es.foldl (Put lt) (emptyTree α)) =
      rootId ((walkDown .left
        (es.foldl (Put lt) (emptyTree α)).root []).1) := by
  obtain ⟨hs, hnd, hbound, hfst⟩ :=
    foldPut_inv lt H es (emptyTree α) (emptyTree_inv lt)
  have htrav := traverseRBT_inorder (es.foldl (Put lt) (emptyTree α))
  have hpair : List.Pairwise (fun a b => lt a b = true)
      (inorder (es.foldl (Put lt) (emptyTree α)).root) := by
    rw [inorder]
    exact (List.pairwise_map).mpr hs
  refine ⟨htrav, by rw [htrav]; exact hpair, ?_, ?_⟩
  · rw [htrav]
    refine hpair.imp (fun hab hc => ?_)
    rw [hab] at hc
    exact absurd hc.1 (by simp)
  · rw [show First (es.foldl (Put lt) (emptyTree α)) =
      (es.foldl (Put lt) (emptyTree α)).first from rfl, hfst]
    cases hroot : (es.foldl (Put lt) (emptyTree α)).root with
    | nil => rfl
    | node i b l x r =>
        obtain ⟨i2, b2, x2, r2, path2, heq, hstream, _⟩ :=
          succToSlot_stream (.node i b l x r) [] rfl
        have hh : inorderP (.node i b l x r : TreeNode α) =
            (i2, x2) :: (inorderP r2 ++ ctxR path2) := by
          rw [← hstream]
          simp [ctxR]
        rw [hh, walkDown_left_eq, heq]
        rfl

theorem claim_C4_witness :
    OrderingContract intLt ∧
    (traverseRBT ([2, 1].foldl (Put intLt) (emptyTree Int)) =
      inorder ([2, 1].foldl (Put intLt) (emptyTree Int)).root ∧
     List.Pairwise (fun a b => intLt a b = true)
       (traverseRBT ([2, 1].foldl (Put intLt) (emptyTree Int))) ∧
     List.Pairwise (fun a b => ¬(intLt a b = false ∧ intLt b a = false))
       (traverseRBT ([2, 1].foldl (Put intLt) (emptyTree Int))) ∧
     First ([2, 1].foldl (Put intLt) (emptyTree Int)) =
       rootId ((walkDown .left
         ([2, 1].foldl (Put intLt) (emptyTree Int)).root []).1)) :=
  ⟨intLt_contract, claim_C4 intLt intLt_contract [2, 1]⟩

/-! ## Parent back-links (claim C10)

The Go nodes carry a mutable `parent` pointer.  We model the parent heap
as a map from node id to parent id (`none` = nil), and re-translate the
mutating operations threading this map, with one update per `parent`
assignment in the source: the placement write of `putRecursive` (line
84), the three writes of each `rotate` call (lines 172, 175, 178), and
the one-child unlink writes of `deleteRecursive` (lines 251, 258).
Reads of `x.parent` become reads of the current map. -/

/-- A single `x.parent = y` store. -/
def parSet (par : Nat → Option Nat) (j : Nat) (v : Option Nat) :
    Nat → Option Nat :=
  fun k => if k = j then v else par k

/-- The guarded store `if x != nil { x.parent = y }` (line 174-176). -/
def parSetM (par : Nat → Option Nat) (mid : Option Nat) (v : Option Nat) :
    Nat → Option Nat :=
  match mid with
  | none => par
  | some j => parSet par j v

/-- The id of the parent of the focused slot. -/
def upIdOf {α : Type} : List (Frame α) → Option Nat
  | [] => none
  | f :: _ => some f.id

/-- The multiset of node ids of a subtree. -/
def idsM {α : Type} : TreeNode α → Multiset Nat
  | .nil => 0
  | .node i _ l _ r => i ::ₘ (idsM l + idsM r)

/-- The multiset of node ids stored in a parent chain. -/
def idsMC {α : Type} : List (Frame α) → Multiset Nat
  | [] => 0
  | f :: rest => f.id ::ₘ (idsM f.sib + idsMC rest)

/-- Parent-link consistency of a subtree whose root's parent is `up`:
each node's map entry is its structural parent. -/
def parOk {α : Type} (par : Nat → Option Nat) :
    TreeNode α → Option Nat → Bool
  | .nil, _ => true
  | .node i _ l _ r, up =>
      decide (par i = up) && parOk par l (some i) && parOk par r (some i)

/-- Parent-link consistency of a parent chain: each frame's node points
to the next ancestor, and each sibling subtree hangs off its frame. -/
def parOkC {α : Type} (par : Nat → Option Nat) : List (Frame α) → Bool
  | [] => true
  | f :: rest =>
      decide (par f.id = upIdOf rest) && parOk par f.sib (some f.id) &&
        parOkC par rest

/-- `insertionRebalance` threading the parent map: the output tree is
identical; the map receives the three stores of each `rotate` call in
source order. -/
def insertionRebalanceP {α : Type} (e : TreeNode α) :
    List (Frame α) → (Nat → Option Nat) →
      TreeNode α × (Nat → Option Nat)
  | [], par => (e, par)
  | f :: rest, par =>
      if f.black then (plug e (f :: rest), par)
      else
        match rest with
        | [] => (plug e [⟨f.dir, f.id, true, f.elem, f.sib⟩], par)
        | g :: rest2 =>
            if g.sib.isRed then
              insertionRebalanceP
                (mkN g.dir g.id false (mkN f.dir f.id true e f.elem f.sib)
                  g.elem g.sib.paintBlack) rest2 par
            else
              if f.dir = g.dir then
                -- rotate(grandparent, 1-dir)
                let par1 := parSet par f.id (par g.id)
                let par2 := parSetM par1 (rootId f.sib) (some g.id)
                let par3 := parSet par2 g.id (some f.id)
                (plug (mkN g.dir f.id true e f.elem
                  (mkN g.dir g.id false f.sib g.elem g.sib)) rest2, par3)
              else
                match e with
                | .nil => (plug e (f :: g :: rest2), par)
                | .node ei eb el ex er =>
                    -- rotate(parent, dir), then rotate(grandparent, 1-dir)
                    let par1 := parSet par ei (par f.id)
                    let par2 := parSetM par1
                      (rootId ((TreeNode.node ei eb el ex er).child g.dir))
                      (some f.id)
                    let par3 := parSet par2 f.id (some ei)
                    let par4 := parSet par3 ei (par3 g.id)
                    let par5 := parSetM par4
                      (rootId ((TreeNode.node ei eb el ex
                        er).child g.dir.flip)) (some g.id)
                    let par6 := parSet par5 g.id (some ei)
                    (plug (mkN g.dir ei true
                      (mkN g.dir f.id false f.sib f.elem
                        ((TreeNode.node ei false el ex er).child g.dir))
                      ex
                      (mkN g.dir g.id false
                        ((TreeNode.node ei false el ex er).child g.dir.flip)
                        g.elem g.sib)) rest2, par6)

/-- `putRecursive` threading the parent map (the placement write of
source line 84, then the rebalance). -/
def putRecursiveP {α : Type} (lt : α → α → Bool) :
    TreeNode α → α → Nat → List (Frame α) → (Nat → Option Nat) →
      (TreeNode α × Bool) × (Nat → Option Nat)
  | .nil, e, eid, path, par =>
      let par1 := parSet par eid (upIdOf path)
      let rb := insertionRebalanceP (.node eid false .nil e .nil) path par1
      ((rb.1, true), rb.2)
  | .node i b l x r, e, eid, path, par =>
      if lt e x then
        putRecursiveP lt l e eid (⟨.left, i, b, x, r⟩ :: path) par
      else if lt x e then
        putRecursiveP lt r e eid (⟨.right, i, b, x, l⟩ :: path) par
      else ((plug (.node i b l e r) path, false), par)

/-- `Put` restricted to the root tree and the parent map. -/
def PutP {α : Type} (lt : α → α → Bool) (m : RedBlackTree α) (elem : α)
    (par : Nat → Option Nat) : TreeNode α × (Nat → Option Nat) :=
  ((putRecursiveP lt m.root elem m.nextId [] par).1.1,
   (putRecursiveP lt m.root elem m.nextId [] par).2)

/-- `balanceBlackLeafForDeletion` threading the parent map: each branch
performs the stores of its `rotate` calls in source order. -/
def balanceBlackLeafForDeletionP {α : Type} : List (Frame α) →
    (Nat → Option Nat) → Option (List (Frame α) × (Nat → Option Nat))
  | [], par => some ([], par)
  | f :: rest, par =>
      match f.sib with
      | .nil => none
      | .node sid sb sl sx sr =>
          let S : TreeNode α := .node sid sb sl sx sr
          let C := S.child f.dir
          let F := S.child f.dir.flip
          if S.isRed then
            -- case siblingRed: rotate(parent, dir)
            let par1 := parSet par sid (par f.id)
            let par2 := parSetM par1 (rootId C) (some f.id)
            let par3 := parSet par2 f.id (some sid)
            match C with
            | .nil => none
            | .node cid cb2 cl cx cr =>
                let CN : TreeNode α := .node cid cb2 cl cx cr
                let CF := CN.child f.dir.flip
                if CF.isRed then
                  -- then siblingBlackFarNephewRed: rotate(parent, dir)
                  let par4 := parSet par3 cid (par3 f.id)
                  let par5 := parSetM par4 (rootId (CN.child f.dir))
                    (some f.id)
                  let par6 := parSet par5 f.id (some cid)
                  some (⟨f.dir, f.id, true, f.elem, CN.child f.dir⟩ ::
                        ⟨f.dir, cid, false, cx, CF.paintBlack⟩ ::
                        ⟨f.dir, sid, true, sx, F⟩ :: rest, par6)
                else
                  if (CN.child f.dir).isRed then
                    -- then close-nephew red: rotate(sibling, 1-dir),
                    -- then rotate(parent, dir)
                    match CN.child f.dir with
                    | .node ccid ccb ccl ccx ccr =>
                        let par4 := parSet par3 ccid (par3 cid)
                        let par5 := parSetM par4
                          (rootId ((TreeNode.node ccid ccb ccl ccx
                            ccr).child f.dir.flip)) (some cid)
                        let par6 := parSet par5 cid (some ccid)
                        let par7 := parSet par6 ccid (par6 f.id)
                        let par8 := parSetM par7
                          (rootId ((TreeNode.node ccid ccb ccl ccx
                            ccr).child f.dir)) (some f.id)
                        let par9 := parSet par8 f.id (some ccid)
                        some (⟨f.dir, f.id, true, f.elem,
                                (CN.child f.dir).child f.dir⟩ ::
                              ⟨f.dir, ccid, false, ccx,
                                mkN f.dir cid true
                                  ((CN.child f.dir).child f.dir.flip) cx
                                  CF⟩ ::
                              ⟨f.dir, sid, true, sx, F⟩ :: rest, par9)
                    | .nil => none
                  else
                    -- then parentRedSiblingAndNephewsBlack
                    some (⟨f.dir, f.id, true, f.elem, CN.paintRed⟩ ::
                          ⟨f.dir, sid, true, sx, F⟩ :: rest, par3)
          else if F.isRed then
            -- case siblingBlackFarNephewRed: rotate(parent, dir)
            let par1 := parSet par sid (par f.id)
            let par2 := parSetM par1 (rootId C) (some f.id)
            let par3 := parSet par2 f.id (some sid)
            some (⟨f.dir, f.id, true, f.elem, C⟩ ::
                  ⟨f.dir, sid, f.black, sx, F.paintBlack⟩ :: rest, par3)
          else if C.isRed then
            -- case close-nephew red: rotate(sibling, 1-dir), then
            -- rotate(parent, dir)
            match C with
            | .node cid cb2 cl cx cr =>
                let par1 := parSet par cid (par sid)
                let par2 := parSetM par1
                  (rootId ((TreeNode.node cid cb2 cl cx cr).child
                    f.dir.flip)) (some sid)
                let par3 := parSet par2 sid (some cid)
                let par4 := parSet par3 cid (par3 f.id)
                let par5 := parSetM par4
                  (rootId ((TreeNode.node cid cb2 cl cx cr).child f.dir))
                  (some f.id)
                let par6 := parSet par5 f.id (some cid)
                some (⟨f.dir, f.id, true, f.elem, C.child f.dir⟩ ::
                      ⟨f.dir, cid, f.black, cx,
                        mkN f.dir sid true (C.child f.dir.flip) sx F⟩ ::
                      rest, par6)
            | .nil => none
          else if !f.black then
            some (⟨f.dir, f.id, true, f.elem, S.paintRed⟩ :: rest, par)
          else
            match balanceBlackLeafForDeletionP rest par with
            | none => none
            | some (rest2, par2) =>
                some (⟨f.dir, f.id, true, f.elem, S.paintRed⟩ :: rest2,
                  par2)

/-- The removal tail of `deleteRecursive` threading the parent map; the
result is the new root tree.  The one-child paths perform the unlink
store of source lines 251/258. -/
def removeAtP {α : Type} (u : TreeNode α) (upath : List (Frame α))
    (par : Nat → Option Nat) :
    Option (TreeNode α × (Nat → Option Nat)) :=
  match u with
  | .nil => some (plug .nil upath, par)
  | .node ui ub ul ux ur =>
      if (!ub) || (upath.isEmpty && ul.isNil && ur.isNil) then
        some (plug .nil upath, par)
      else
        match ur with
        | .node ri rb rl rx rr =>
            some (plug (TreeNode.paintBlack (.node ri rb rl rx rr)) upath,
              parSet par ri (par ui))
        | .nil =>
            match ul with
            | .node li lb ll lx lr =>
                some (plug (TreeNode.paintBlack (.node li lb ll lx lr))
                  upath, parSet par li (par ui))
            | .nil =>
                match balanceBlackLeafForDeletionP upath par with
                | none => none
                | some (upath2, par2) => some (plug .nil upath2, par2)

/-- `deleteRecursive` threading the parent map; the result is the new
root tree. -/
def deleteRecursiveP {α : Type} (lt : α → α → Bool) :
    TreeNode α → List (Frame α) → α → (Nat → Option Nat) →
      Option (TreeNode α × (Nat → Option Nat))
  | .nil, path, _, par => some (plug .nil path, par)
  | .node i b l x r, path, elem, par =>
      if lt elem x then
        deleteRecursiveP lt l (⟨.left, i, b, x, r⟩ :: path) elem par
      else if lt x elem then
        deleteRecursiveP lt r (⟨.right, i, b, x, l⟩ :: path) elem par
      else
        match l, r with
        | .node li lb ll lx lr, .node ri rb rl rx rr =>
            match leftmost (.node ri rb rl rx rr) with
            | some y =>
                let sl := succToSlot (.node ri rb rl rx rr)
                  (⟨.right, i, b, y, .node li lb ll lx lr⟩ :: path)
                removeAtP sl.1 sl.2 par
            | none => none
        | _, _ => removeAtP (.node i b l x r) path par

/-- `Delete` restricted to the root tree and the parent map. -/
def DeleteP {α : Type} (lt : α → α → Bool) (m : RedBlackTree α) (elem : α)
    (par : Nat → Option Nat) :
    Option (TreeNode α × (Nat → Option Nat)) :=
  deleteRecursiveP lt m.root [] elem par

theorem insertionRebalanceP_fst {α : Type} :
    ∀ (e : TreeNode α) (path : List (Frame α)) (par : Nat → Option Nat),
      (insertionRebalanceP e path par).1 = insertionRebalance e path := by
  intro e path par
  induction e, path, par using insertionRebalanceP.induct <;>
    rw [insertionRebalanceP.eq_def, insertionRebalance.eq_def] <;>
    simp [*]

theorem putRecursiveP_fst {α : Type} (lt : α → α → Bool) :
    ∀ (t : TreeNode α) (e : α) (eid : Nat) (path : List (Frame α))
      (par : Nat → Option Nat),
      (putRecursiveP lt t e eid path par).1 = putRecursive lt t e eid path := by
  intro t
  induction t with
  | nil =>
      intro e eid path par
      rw [putRecursiveP.eq_def, putRecursive.eq_def]
      simp [insertionRebalanceP_fst]
  | node i b l x r ihl ihr =>
      intro e eid path par
      rw [putRecursiveP.eq_def, putRecursive.eq_def]
      by_cases h1 : lt e x = true
      · simp [h1, ihl]
      · by_cases h2 : lt x e = true <;> simp [h1, h2, ihl, ihr]

theorem PutP_fst {α : Type} (lt : α → α → Bool) (m : RedBlackTree α)
    (e : α) (par : Nat → Option Nat) :
    (PutP lt m e par).1 = (Put lt m e).root := by
  rw [PutP]
  rw [putRecursiveP_fst]
  rfl

@[simp] theorem parSet_same (par : Nat → Option Nat) (j : Nat)
    (v : Option Nat) : parSet par j v j = v := by
  simp [parSet]

theorem parSet_other (par : Nat → Option Nat) (j : Nat) (v : Option Nat)
    (k : Nat) (h : ¬ k = j) : parSet par j v k = par k := by
  simp [parSet, h]

@[simp] theorem parSetM_some (par : Nat → Option Nat) (j : Nat)
    (v : Option Nat) : parSetM par (some j) v = parSet par j v := rfl

@[simp] theorem parSetM_none (par : Nat → Option Nat) (v : Option Nat) :
    parSetM par none v = par := rfl

/-! Branch equations for `balanceBlackLeafForDeletionP`, in the
`mkN`-parameterization of the sibling (close nephew on the deficient
side, far nephew opposite). -/

theorem balDelP_nilSib {α : Type} (d : Dir) (i : Nat) (fb : Bool) (x : α)
    (rest : List (Frame α)) (par : Nat → Option Nat) :
    balanceBlackLeafForDeletionP (⟨d, i, fb, x, .nil⟩ :: rest) par =
      none := by
  rw [balanceBlackLeafForDeletionP.eq_def]

theorem balDelP_sibRed_nilC {α : Type} (d : Dir) (i : Nat) (fb : Bool)
    (x : α) (sid : Nat) (sx : α) (F : TreeNode α) (rest : List (Frame α))
    (par : Nat → Option Nat) :
    balanceBlackLeafForDeletionP
        (⟨d, i, fb, x, mkN d sid false .nil sx F⟩ :: rest) par = none := by
  cases d <;>
    · rw [balanceBlackLeafForDeletionP.eq_def]
      simp [mkN]

theorem balDelP_sibRed_farRed {α : Type} (d : Dir) (i : Nat) (fb : Bool)
    (x : α) (sid : Nat) (sx : α) (cid : Nat) (cb2 : Bool) (CC : TreeNode α)
    (cx : α) (CF F : TreeNode α) (rest : List (Frame α))
    (par : Nat → Option Nat) (hCF : CF.isRed = true) :
    balanceBlackLeafForDeletionP
        (⟨d, i, fb, x,
          mkN d sid false (mkN d cid cb2 CC cx CF) sx F⟩ :: rest) par =
      some (⟨d, i, true, x, CC⟩ :: ⟨d, cid, false, cx, CF.paintBlack⟩ ::
            ⟨d, sid, true, sx, F⟩ :: rest,
        parSet (parSetM (parSet (parSet (parSet (parSet par sid (par i))
          cid (some i)) i (some sid)) cid (some sid)) (rootId CC) (some i))
          i (some cid)) := by
  cases d <;>
    · rw [balanceBlackLeafForDeletionP.eq_def]
      simp [mkN, hCF, rootId]

theorem balDelP_sibRed_closeRed {α : Type} (d : Dir) (i : Nat) (fb : Bool)
    (x : α) (sid : Nat) (sx : α) (cid : Nat) (cb2 : Bool) (cx : α)
    (ccid : Nat) (CCC : TreeNode α) (ccx : α) (CCF CF F : TreeNode α)
    (rest : List (Frame α)) (par : Nat → Option Nat)
    (hCF : CF.isRed = false) :
    balanceBlackLeafForDeletionP
        (⟨d, i, fb, x,
          mkN d sid false
            (mkN d cid cb2 (mkN d ccid false CCC ccx CCF) cx CF) sx
            F⟩ :: rest) par =
      some (⟨d, i, true, x, CCC⟩ ::
            ⟨d, ccid, false, ccx, mkN d cid true CCF cx CF⟩ ::
            ⟨d, sid, true, sx, F⟩ :: rest,
        parSet (parSetM (parSet
          (parSet (parSetM (parSet
            (parSet (parSet (parSet par sid (par i)) cid (some i)) i
              (some sid))
            ccid ((parSet (parSet (parSet par sid (par i)) cid (some i)) i
              (some sid)) cid)) (rootId CCF) (some cid)) cid (some ccid))
          ccid ((parSet (parSetM (parSet
            (parSet (parSet (parSet par sid (par i)) cid (some i)) i
              (some sid))
            ccid ((parSet (parSet (parSet par sid (par i)) cid (some i)) i
              (some sid)) cid)) (rootId CCF) (some cid)) cid (some ccid))
            i)) (rootId CCC) (some i)) i (some ccid)) := by
  cases d <;>
    · rw [balanceBlackLeafForDeletionP.eq_def]
      simp [mkN, hCF, rootId]

theorem balDelP_sibRed_bothBlack {α : Type} (d : Dir) (i : Nat) (fb : Bool)
    (x : α) (sid : Nat) (sx : α) (cid : Nat) (cb2 : Bool) (CC : TreeNode α)
    (cx : α) (CF F : TreeNode α) (rest : List (Frame α))
    (par : Nat → Option Nat) (hCF : CF.isRed = false)
    (hCC : CC.isRed = false) :
    balanceBlackLeafForDeletionP
        (⟨d, i, fb, x,
          mkN d sid false (mkN d cid cb2 CC cx CF) sx F⟩ :: rest) par =
      some (⟨d, i, true, x, mkN d cid false CC cx CF⟩ ::
            ⟨d, sid, true, sx, F⟩ :: rest,
        parSet (parSet (parSet par sid (par i)) cid (some i)) i
          (some sid)) := by
  cases d <;>
    · rw [balanceBlackLeafForDeletionP.eq_def]
      simp [mkN, hCF, hCC, rootId]

theorem balDelP_farRed {α : Type} (d : Dir) (i : Nat) (fb : Bool) (x : α)
    (sid : Nat) (sx : α) (C F : TreeNode α) (rest : List (Frame α))
    (par : Nat → Option Nat) (hF : F.isRed = true) :
    balanceBlackLeafForDeletionP
        (⟨d, i, fb, x, mkN d sid true C sx F⟩ :: rest) par =
      some (⟨d, i, true, x, C⟩ :: ⟨d, sid, fb, sx, F.paintBlack⟩ :: rest,
        parSet (parSetM (parSet par sid (par i)) (rootId C) (some i)) i
          (some sid)) := by
  cases d <;>
    · rw [balanceBlackLeafForDeletionP.eq_def]
      simp [mkN, hF]

theorem balDelP_closeRed {α : Type} (d : Dir) (i : Nat) (fb : Bool) (x : α)
    (sid : Nat) (sx : α) (cid : Nat) (CC : TreeNode α) (cx : α)
    (CF F : TreeNode α) (rest : List (Frame α)) (par : Nat → Option Nat)
    (hF : F.isRed = false) :
    balanceBlackLeafForDeletionP
        (⟨d, i, fb, x,
          mkN d sid true (mkN d cid false CC cx CF) sx F⟩ :: rest) par =
      some (⟨d, i, true, x, CC⟩ ::
            ⟨d, cid, fb, cx, mkN d sid true CF sx F⟩ :: rest,
        parSet (parSetM (parSet
          (parSet (parSetM (parSet par cid (par sid)) (rootId CF)
            (some sid)) sid (some cid))
          cid ((parSet (parSetM (parSet par cid (par sid)) (rootId CF)
            (some sid)) sid (some cid)) i)) (rootId CC) (some i)) i
          (some cid)) := by
  cases d <;>
    · rw [balanceBlackLeafForDeletionP.eq_def]
      simp [mkN, hF, rootId]

theorem balDelP_parentRed {α : Type} (d : Dir) (i : Nat) (x : α)
    (sid : Nat) (sx : α) (C F : TreeNode α) (rest : List (Frame α))
    (par : Nat → Option Nat) (hF : F.isRed = false) (hC : C.isRed = false) :
    balanceBlackLeafForDeletionP
        (⟨d, i, false, x, mkN d sid true C sx F⟩ :: rest) par =
      some (⟨d, i, true, x, mkN d sid false C sx F⟩ :: rest, par) := by
  cases d <;>
    · rw [balanceBlackLeafForDeletionP.eq_def]
      simp [mkN, hF, hC]

theorem balDelP_allBlack {α : Type} (d : Dir) (i : Nat) (x : α)
    (sid : Nat) (sx : α) (C F : TreeNode α) (rest : List (Frame α))
    (par : Nat → Option Nat) (hF : F.isRed = false) (hC : C.isRed = false) :
    balanceBlackLeafForDeletionP
        (⟨d, i, true, x, mkN d sid true C sx F⟩ :: rest) par =
      (balanceBlackLeafForDeletionP rest par).map
        (fun pr => (⟨d, i, true, x, mkN d sid false C sx F⟩ :: pr.1,
          pr.2)) := by
  cases d <;>
    · rw [balanceBlackLeafForDeletionP.eq_def]
      simp [mkN, hF, hC]
      cases balanceBlackLeafForDeletionP rest par <;> simp

theorem balanceBlackLeafForDeletionP_fst {α : Type} :
    ∀ (path : List (Frame α)) (par : Nat → Option Nat),
      (balanceBlackLeafForDeletionP path par).map Prod.fst =
        balanceBlackLeafForDeletion path := by
  intro path
  induction path with
  | nil => intro par; rfl
  | cons f rest ih =>
      intro par
      obtain ⟨d, i, fb, x, sib⟩ := f
      cases sib with
      | nil =>
          exact (congrArg (Option.map Prod.fst)
            (balDelP_nilSib d i fb x rest par)).trans
            (balDel_nilSib d i fb x rest).symm
      | node sid sb sl sx sr =>
          cases d with
          | left =>
              cases sb with
              | false =>
                  cases sl with
                  | nil =>
                      exact (congrArg (Option.map Prod.fst)
                        (balDelP_sibRed_nilC .left i fb x sid sx sr rest
                          par)).trans
                        (balDel_sibRed_nilC .left i fb x sid sx sr rest).symm
                  | node cid cb2 cl2 cx cr2 =>
                      cases hCF : cr2.isRed with
                      | true =>
                          exact (congrArg (Option.map Prod.fst)
                            (balDelP_sibRed_farRed .left i fb x sid sx cid
                              cb2 cl2 cx cr2 sr rest par hCF)).trans
                            (balDel_sibRed_farRed .left i fb x sid sx cid
                              cb2 cl2 cx cr2 sr rest hCF).symm
                      | false =>
                          cases hCC : cl2.isRed with
                          | true =>
                              cases cl2 with
                              | nil => cases hCC
                              | node ccid ccb ccl ccx ccr =>
                                  have hccb : ccb = false := by simpa using hCC
                                  subst hccb
                                  exact (congrArg (Option.map Prod.fst)
                                    (balDelP_sibRed_closeRed .left i fb x sid
                                      sx cid cb2 cx ccid ccl ccx ccr cr2 sr
                                      rest par hCF)).trans
                                    (balDel_sibRed_closeRed .left i fb x sid
                                      sx cid cb2 cx ccid ccl ccx ccr cr2 sr
                                      rest hCF).symm
                          | false =>
                              exact (congrArg (Option.map Prod.fst)
                                (balDelP_sibRed_bothBlack .left i fb x sid sx
                                  cid cb2 cl2 cx cr2 sr rest par hCF
                                  hCC)).trans
                                (balDel_sibRed_bothBlack .left i fb x sid sx
                                  cid cb2 cl2 cx cr2 sr rest hCF hCC).symm
              | true =>
                  cases hF : sr.isRed with
                  | true =>
                      exact (congrArg (Option.map Prod.fst)
                        (balDelP_farRed .left i fb x sid sx sl sr rest par
                          hF)).trans
                        (balDel_farRed .left i fb x sid sx sl sr rest hF).symm
                  | false =>
                      cases hCred : sl.isRed with
                      | true =>
                          cases sl with
                          | nil => cases hCred
                          | node cid ccb cl2 cx cr2 =>
                              have hccb : ccb = false := by simpa using hCred
                              subst hccb
                              exact (congrArg (Option.map Prod.fst)
                                (balDelP_closeRed .left i fb x sid sx cid cl2
                                  cx cr2 sr rest par hF)).trans
                                (balDel_closeRed .left i fb x sid sx cid cl2
                                  cx cr2 sr rest hF).symm
                      | false =>
                          cases fb with
                          | false =>
                              exact (congrArg (Option.map Prod.fst)
                                (balDelP_parentRed .left i x sid sx sl sr
                                  rest par hF hCred)).trans
                                (balDel_parentRed .left i x sid sx sl sr rest
                                  hF hCred).symm
                          | true =>
                              refine (congrArg (Option.map Prod.fst)
                                (balDelP_allBlack .left i x sid sx sl sr rest
                                  par hF hCred)).trans
                                (Eq.trans ?_ (balDel_allBlack .left i x sid
                                  sx sl sr rest hF hCred).symm)
                              rw [← ih par]
                              cases balanceBlackLeafForDeletionP rest par <;>
                                rfl
          | right =>
              cases sb with
              | false =>
                  cases sr with
                  | nil =>
                      exact (congrArg (Option.map Prod.fst)
                        (balDelP_sibRed_nilC .right i fb x sid sx sl rest
                          par)).trans
                        (balDel_sibRed_nilC .right i fb x sid sx sl rest).symm
                  | node cid cb2 cl2 cx cr2 =>
                      cases hCF : cl2.isRed with
                      | true =>
                          exact (congrArg (Option.map Prod.fst)
                            (balDelP_sibRed_farRed .right i fb x sid sx cid
                              cb2 cr2 cx cl2 sl rest par hCF)).trans
                            (balDel_sibRed_farRed .right i fb x sid sx cid
                              cb2 cr2 cx cl2 sl rest hCF).symm
                      | false =>
                          cases hCC : cr2.isRed with
                          | true =>
                              cases cr2 with
                              | nil => cases hCC
                              | node ccid ccb ccl ccx ccr =>
                                  have hccb : ccb = false := by simpa using hCC
                                  subst hccb
                                  exact (congrArg (Option.map Prod.fst)
                                    (balDelP_sibRed_closeRed .right i fb x
                                      sid sx cid cb2 cx ccid ccr ccx ccl cl2
                                      sl rest par hCF)).trans
                                    (balDel_sibRed_closeRed .right i fb x sid
                                      sx cid cb2 cx ccid ccr ccx ccl cl2 sl
                                      rest hCF).symm
                          | false =>
                              exact (congrArg (Option.map Prod.fst)
                                (balDelP_sibRed_bothBlack .right i fb x sid
                                  sx cid cb2 cr2 cx cl2 sl rest par hCF
                                  hCC)).trans
                                (balDel_sibRed_bothBlack .right i fb x sid sx
                                  cid cb2 cr2 cx cl2 sl rest hCF hCC).symm
              | true =>
                  cases hF : sl.isRed with
                  | true =>
                      exact (congrArg (Option.map Prod.fst)
                        (balDelP_farRed .right i fb x sid sx sr sl rest par
                          hF)).trans
                        (balDel_farRed .right i fb x sid sx sr sl rest hF).symm
                  | false =>
                      cases hCred : sr.isRed with
                      | true =>
                          cases sr with
                          | nil => cases hCred
                          | node cid ccb cl2 cx cr2 =>
                              have hccb : ccb = false := by simpa using hCred
                              subst hccb
                              exact (congrArg (Option.map Prod.fst)
                                (balDelP_closeRed .right i fb x sid sx cid
                                  cr2 cx cl2 sl rest par hF)).trans
                                (balDel_closeRed .right i fb x sid sx cid cr2
                                  cx cl2 sl rest hF).symm
                      | false =>
                          cases fb with
                          | false =>
                              exact (congrArg (Option.map Prod.fst)
                                (balDelP_parentRed .right i x sid sx sr sl
                                  rest par hF hCred)).trans
                                (balDel_parentRed .right i x sid sx sr sl
                                  rest hF hCred).symm
                          | true =>
                              refine (congrArg (Option.map Prod.fst)
                                (balDelP_allBlack .right i x sid sx sr sl
                                  rest par hF hCred)).trans
                                (Eq.trans ?_ (balDel_allBlack .right i x sid
                                  sx sr sl rest hF hCred).symm)
                              rw [← ih par]
                              cases balanceBlackLeafForDeletionP rest par <;>
                                rfl

theorem removeAtP_fst {α : Type} (m : RedBlackTree α) (ui : Nat)
    (ub : Bool) (ul ur : TreeNode α) (ux : α) (upath : List (Frame α))
    (par : Nat → Option Nat) :
    (removeAtP (.node ui ub ul ux ur) upath par).map Prod.fst =
      (removeAt m (.node ui ub ul ux ur) upath).map RedBlackTree.root := by
  rw [removeAtP.eq_def, removeAt.eq_def]
  by_cases h1 : ((!ub) || (upath.isEmpty && ul.isNil && ur.isNil)) = true
  · simp [h1]
  · cases ur with
    | node ri rb rl rx rr => simp [h1]
    | nil =>
        cases ul with
        | node li lb ll lx lr => simp [h1]
        | nil =>
            have hb := balanceBlackLeafForDeletionP_fst upath par
            cases hbal : balanceBlackLeafForDeletionP upath par with
            | none =>
                rw [hbal] at hb
                simp only [Option.map_none'] at hb
                simp [h1, hbal, ← hb]
            | some pr =>
                rw [hbal] at hb
                obtain ⟨path2, par2⟩ := pr
                simp only [Option.map_some'] at hb
                simp only [hbal, ← hb]
                rw [if_neg h1, if_neg h1]
                simp

theorem deleteRecursiveP_fst {α : Type} (lt : α → α → Bool) :
    ∀ (t : TreeNode α) (path : List (Frame α)) (elem : α)
      (par : Nat → Option Nat) (m : RedBlackTree α),
      plug t path = m.root →
      (deleteRecursiveP lt t path elem par).map Prod.fst =
        (deleteRecursive lt m t path elem).map RedBlackTree.root := by
  intro t
  induction t with
  | nil =>
      intro path elem par m hroot
      rw [deleteRecursiveP.eq_def, delRec_nil]
      simp [hroot]
  | node i b l x r ihl ihr =>
      intro path elem par m hroot
      rw [deleteRecursiveP.eq_def]
      by_cases h1 : lt elem x = true
      · rw [delRec_lt lt m i b l r x path elem h1]
        simp only [h1, if_true]
        exact ihl _ elem par m hroot
      · have h1b : lt elem x = false := by rwa [Bool.not_eq_true] at h1
        by_cases h2 : lt x elem = true
        · rw [delRec_gt lt m i b l r x path elem h1b h2]
          simp only [h1b, h2, Bool.false_eq_true, if_false, if_true]
          exact ihr _ elem par m hroot
        · have h2b : lt x elem = false := by rwa [Bool.not_eq_true] at h2
          cases hlc : l with
          | nil =>
              subst hlc
              rw [delRec_found_lnil lt m i b r x path elem h1b h2b]
              simp only [h1b, h2b, Bool.false_eq_true, if_false]
              cases r with
              | nil => exact removeAtP_fst m i b .nil .nil x path par
              | node ri rb rl rx rr =>
                  exact removeAtP_fst m i b .nil _ x path par
          | node li lb ll lx lr =>
              subst hlc
              cases hrc : r with
              | nil =>
                  subst hrc
                  rw [delRec_found_rnil lt m i li b lb ll lr x lx path elem
                    h1b h2b]
                  simp only [h1b, h2b, Bool.false_eq_true, if_false]
                  exact removeAtP_fst m i b _ .nil x path par
              | node ri rb rl rx rr =>
                  subst hrc
                  cases hlm : leftmost (.node ri rb rl rx rr) with
                  | none =>
                      have hs := leftmost_isSome
                        (.node ri rb rl rx rr : TreeNode α) rfl
                      rw [hlm] at hs
                      cases hs
                  | some y =>
                      rw [delRec_found_two lt m i li ri b lb rb ll lr rl rr
                        x lx rx y path elem h1b h2b hlm]
                      simp only [h1b, h2b, Bool.false_eq_true, if_false,
                        hlm]
                      obtain ⟨i2, b2, x2, r2, path2, heq, _, _⟩ :=
                        succToSlot_stream (.node ri rb rl rx rr)
                          (⟨.right, i, b, y, .node li lb ll lx lr⟩ :: path)
                          rfl
                      rw [heq]
                      exact removeAtP_fst m i2 b2 .nil r2 x2 path2 par

@[simp] theorem parOk_nil {α : Type} (par : Nat → Option Nat)
    (up : Option Nat) : parOk par (.nil : TreeNode α) up = true := rfl

theorem parOk_node_iff {α : Type} (par : Nat → Option Nat) (i : Nat)
    (b : Bool) (l r : TreeNode α) (x : α) (up : Option Nat) :
    parOk par (.node i b l x r) up = true ↔
      par i = up ∧ parOk par l (some i) = true ∧
        parOk par r (some i) = true := by
  simp [parOk, Bool.and_eq_true, and_assoc]

theorem parOk_mkN_iff {α : Type} (par : Nat → Option Nat) (d : Dir)
    (i : Nat) (b : Bool) (a : TreeNode α) (x : α) (s : TreeNode α)
    (up : Option Nat) :
    parOk par (mkN d i b a x s) up = true ↔
      par i = up ∧ parOk par a (some i) = true ∧
        parOk par s (some i) = true := by
  cases d <;> simp [mkN, parOk, Bool.and_eq_true, and_assoc] <;> tauto

theorem parOk_paintBlack {α : Type} (par : Nat → Option Nat)
    (t : TreeNode α) (up : Option Nat) :
    parOk par t.paintBlack up = parOk par t up := by
  cases t <;> rfl

theorem parOk_paintRed {α : Type} (par : Nat → Option Nat)
    (t : TreeNode α) (up : Option Nat) :
    parOk par t.paintRed up = parOk par t up := by
  cases t <;> rfl

@[simp] theorem parOkC_nil {α : Type} (par : Nat → Option Nat) :
    parOkC par ([] : List (Frame α)) = true := rfl

theorem parOkC_cons_iff {α : Type} (par : Nat → Option Nat) (f : Frame α)
    (rest : List (Frame α)) :
    parOkC par (f :: rest) = true ↔
      par f.id = upIdOf rest ∧ parOk par f.sib (some f.id) = true ∧
        parOkC par rest = true := by
  simp [parOkC, Bool.and_eq_true, and_assoc]

/-- Filling a consistent context with a consistent subtree yields a
consistent tree. -/
theorem parOk_plug {α : Type} (par : Nat → Option Nat) :
    ∀ (path : List (Frame α)) (t : TreeNode α),
      parOk par t (upIdOf path) = true → parOkC par path = true →
      parOk par (plug t path) none = true := by
  intro path
  induction path with
  | nil => intro t h _; exact h
  | cons f rest ih =>
      intro t h hc
      rw [parOkC_cons_iff] at hc
      obtain ⟨h1, h2, h3⟩ := hc
      rw [plug_cons]
      refine ih (f.close t) ?_ h3
      rw [Frame.close, parOk_mkN_iff]
      exact ⟨h1, h, h2⟩

theorem idsM_mkN {α : Type} (d : Dir) (i : Nat) (b : Bool)
    (a : TreeNode α) (x : α) (s : TreeNode α) :
    idsM (mkN d i b a x s) = i ::ₘ (idsM a + idsM s) := by
  cases d with
  | left => rfl
  | right =>
      show idsM (.node i b s x a) = _
      rw [idsM]
      rw [add_comm]

@[simp] theorem idsM_paintBlack {α : Type} (t : TreeNode α) :
    idsM t.paintBlack = idsM t := by
  cases t <;> rfl

@[simp] theorem idsM_paintRed {α : Type} (t : TreeNode α) :
    idsM t.paintRed = idsM t := by
  cases t <;> rfl

theorem rootId_mem {α : Type} (t : TreeNode α) (j : Nat)
    (h : rootId t = some j) : j ∈ idsM t := by
  cases t with
  | nil => cases h
  | node i b l x r =>
      rw [rootId] at h
      injection h with h
      subst h
      simp [idsM]

/-- A store at an id outside a subtree does not affect its
consistency. -/
theorem parOk_parSet {α : Type} (par : Nat → Option Nat) (j : Nat)
    (v : Option Nat) :
    ∀ (t : TreeNode α) (up : Option Nat), j ∉ idsM t →
      parOk (parSet par j v) t up = parOk par t up := by
  intro t
  induction t with
  | nil => intro up _; rfl
  | node i b l x r ihl ihr =>
      intro up hj
      have hmm : ¬ (j = i ∨ j ∈ idsM l ∨ j ∈ idsM r) := by
        simpa [idsM] using hj
      rw [not_or, not_or] at hmm
      obtain ⟨hji, hjl, hjr⟩ := hmm
      rw [parOk, parOk, parSet_other par j v i (fun h => hji h.symm),
        ihl _ hjl, ihr _ hjr]

theorem parOk_parSetM {α : Type} (par : Nat → Option Nat)
    (mid : Option Nat) (v : Option Nat) (t : TreeNode α) (up : Option Nat)
    (h : ∀ j, mid = some j → j ∉ idsM t) :
    parOk (parSetM par mid v) t up = parOk par t up := by
  cases mid with
  | none => rfl
  | some j => exact parOk_parSet par j v t up (h j rfl)

theorem parOkC_parSet {α : Type} (par : Nat → Option Nat) (j : Nat)
    (v : Option Nat) :
    ∀ (path : List (Frame α)), j ∉ idsMC path →
      parOkC (parSet par j v) path = parOkC par path := by
  intro path
  induction path with
  | nil => intro _; rfl
  | cons f rest ih =>
      intro hj
      have hmm : ¬ (j = f.id ∨ j ∈ idsM f.sib ∨ j ∈ idsMC rest) := by
        simpa [idsMC] using hj
      rw [not_or, not_or] at hmm
      obtain ⟨hjf, hjs, hjr⟩ := hmm
      rw [parOkC, parOkC, parSet_other par j v f.id (fun h => hjf h.symm),
        parOk_parSet par j v f.sib _ hjs, ih hjr]

theorem parOkC_parSetM {α : Type} (par : Nat → Option Nat)
    (mid : Option Nat) (v : Option Nat) (path : List (Frame α))
    (h : ∀ j, mid = some j → j ∉ idsMC path) :
    parOkC (parSetM par mid v) path = parOkC par path := by
  cases mid with
  | none => rfl
  | some j => exact parOkC_parSet par j v path (h j rfl)

/-- Storing a new parent for the root of a subtree (the guarded middle
store of `rotate`) re-targets the subtree's up-link and keeps it
consistent. -/
theorem parOk_setRoot {α : Type} (par : Nat → Option Nat)
    (t : TreeNode α) (u v : Option Nat) (h : parOk par t u = true)
    (hnd : (idsM t).Nodup) :
    parOk (parSetM par (rootId t) v) t v = true := by
  cases t with
  | nil => rfl
  | node i b l x r =>
      rw [rootId, parSetM_some, parOk_node_iff]
      rw [parOk_node_iff] at h
      have hmm : i ∉ idsM l ∧ i ∉ idsM r := by
        have := hnd
        rw [idsM, Multiset.nodup_cons] at this
        have h2 := this.1
        rw [Multiset.mem_add] at h2
        exact ⟨fun hm => h2 (Or.inl hm), fun hm => h2 (Or.inr hm)⟩
      rw [parOk_parSet par i v l _ hmm.1, parOk_parSet par i v r _ hmm.2]
      exact ⟨by simp, h.2.1, h.2.2⟩

theorem parSetM_other (par : Nat → Option Nat) (mid : Option Nat)
    (v : Option Nat) (k : Nat) (h : ∀ j, mid = some j → ¬ k = j) :
    parSetM par mid v k = par k := by
  cases mid with
  | none => rfl
  | some j => exact parSet_other par j v k (h j rfl)

/-- The rebalance after placement keeps every parent back-link
consistent with the child links. -/
theorem insertionRebalanceP_parOk {α : Type} :
    ∀ (e : TreeNode α) (path : List (Frame α)) (par : Nat → Option Nat),
      parOk par e (upIdOf path) = true → parOkC par path = true →
      (idsM e + idsMC path).Nodup →
      parOk (insertionRebalanceP e path par).2
        (insertionRebalanceP e path par).1 none = true := by
  intro e path par
  induction e, path, par using insertionRebalanceP.induct with
  | case1 e par =>
      intro he _ _
      exact he
  | case2 e f rest par hb =>
      intro he hc _
      rw [insertionRebalanceP.eq_def]
      simp only [hb, if_true]
      exact parOk_plug par (f :: rest) e he hc
  | case3 e f par hb =>
      intro he hc _
      have hb2 : f.black = false := by rwa [Bool.not_eq_true] at hb
      rw [insertionRebalanceP.eq_def]
      simp only [hb2, Bool.false_eq_true, if_false]
      rw [parOkC_cons_iff] at hc
      refine parOk_plug par _ e he ?_
      rw [parOkC_cons_iff]
      exact ⟨hc.1, hc.2.1, rfl⟩
  | case4 e f par hb g rest2 hred ih =>
      intro he hc hnd
      have hb2 : f.black = false := by rwa [Bool.not_eq_true] at hb
      rw [insertionRebalanceP.eq_def]
      simp only [hb2, Bool.false_eq_true, if_false, hred, if_true]
      rw [parOkC_cons_iff] at hc
      obtain ⟨hc1, hc2, hc3⟩ := hc
      rw [parOkC_cons_iff] at hc3
      obtain ⟨hc4, hc5, hc6⟩ := hc3
      refine ih ?_ hc6 ?_
      · rw [parOk_mkN_iff]
        refine ⟨hc4, ?_, ?_⟩
        · rw [parOk_mkN_iff]
          exact ⟨hc1, he, hc2⟩
        · rw [parOk_paintBlack]
          exact hc5
      · have heq : idsM (mkN g.dir g.id false
            (mkN f.dir f.id true e f.elem f.sib) g.elem
            g.sib.paintBlack) + idsMC rest2 =
            idsM e + idsMC (f :: g :: rest2) := by
          simp only [idsM_mkN, idsM_paintBlack, idsMC,
            ← Multiset.singleton_add]
          abel
        rw [heq]
        exact hnd
  | case5 e f par hb g rest2 hnred hdd =>
      intro he hc hnd
      have hb2 : f.black = false := by rwa [Bool.not_eq_true] at hb
      have hnr : g.sib.isRed = false := by rwa [Bool.not_eq_true] at hnred
      rw [insertionRebalanceP.eq_def]
      simp only [hb2, Bool.false_eq_true, if_false, hnr, hdd, if_true]
      rw [parOkC_cons_iff] at hc
      obtain ⟨hc1, hc2, hc3⟩ := hc
      rw [parOkC_cons_iff] at hc3
      obtain ⟨hc4, hc5, hc6⟩ := hc3
      have hnd2 := hnd
      simp only [idsMC, Multiset.nodup_add, Multiset.nodup_cons,
        Multiset.mem_add, Multiset.mem_cons, not_or,
        Multiset.disjoint_add_right, Multiset.disjoint_cons_right,
        Multiset.disjoint_left] at hnd2
      obtain ⟨hndE, ⟨⟨hfs, hfg, hfG, hfr⟩, hndS,
        ⟨⟨hgG, hgr⟩, hndG, hndR, hGR⟩, hS⟩, hE⟩ := hnd2
      have hgs : g.id ∉ idsM f.sib := fun hm => (hS hm).1 rfl
      have hSr : ∀ j, rootId f.sib = some j → j ∉ idsMC rest2 :=
        fun j hj => (hS (rootId_mem _ j hj)).2.2
      have hSe : ∀ j, rootId f.sib = some j → j ∉ idsM e :=
        fun j hj hm => (hE hm).2.1 (rootId_mem _ j hj)
      have hSf : ∀ j, rootId f.sib = some j → ¬ f.id = j :=
        fun j hj h => hfs (h ▸ rootId_mem _ j hj)
      have hSG : ∀ j, rootId f.sib = some j → j ∉ idsM g.sib :=
        fun j hj => (hS (rootId_mem _ j hj)).2.1
      have hfe : f.id ∉ idsM e := fun hm => (hE hm).1 rfl
      have hge : g.id ∉ idsM e := fun hm => (hE hm).2.2.1 rfl
      refine parOk_plug _ rest2 _ ?_ ?_
      · rw [parOk_mkN_iff]
        refine ⟨?_, ?_, ?_⟩
        · rw [parSet_other _ g.id _ f.id hfg, parSetM_other _ _ _ f.id hSf,
            parSet_same]
          exact hc4
        · rw [parOk_parSet _ g.id _ e _ hge,
            parOk_parSetM _ _ _ e _ hSe, parOk_parSet _ f.id _ e _ hfe]
          exact he
        · rw [parOk_mkN_iff]
          refine ⟨parSet_same _ _ _, ?_, ?_⟩
          · rw [parOk_parSet _ g.id _ f.sib _ hgs]
            refine parOk_setRoot _ f.sib (some f.id) _ ?_ hndS
            rw [parOk_parSet _ f.id _ f.sib _ hfs]
            exact hc2
          · rw [parOk_parSet _ g.id _ g.sib _ hgG,
              parOk_parSetM _ _ _ g.sib _ hSG,
              parOk_parSet _ f.id _ g.sib _ hfG]
            exact hc5
      · rw [parOkC_parSet _ g.id _ rest2 hgr,
          parOkC_parSetM _ _ _ rest2 hSr,
          parOkC_parSet _ f.id _ rest2 hfr]
        exact hc6
  | case6 f par hb g rest2 hnred hdd =>
      intro he hc hnd
      have hb2 : f.black = false := by rwa [Bool.not_eq_true] at hb
      have hnr : g.sib.isRed = false := by rwa [Bool.not_eq_true] at hnred
      rw [insertionRebalanceP.eq_def]
      simp only [hb2, Bool.false_eq_true, if_false, hnr, if_neg hdd]
      exact parOk_plug par _ _ rfl hc
  | case7 f par hb g rest2 hnred hdd ei eb el ex er =>
      intro he hc hnd
      have hb2 : f.black = false := by rwa [Bool.not_eq_true] at hb
      have hnr : g.sib.isRed = false := by rwa [Bool.not_eq_true] at hnred
      rw [insertionRebalanceP.eq_def]
      simp only [hb2, Bool.false_eq_true, if_false, hnr, if_neg hdd]
      have hcc : ∀ d2 : Dir, (TreeNode.node ei false el ex er).child d2 =
          (TreeNode.node ei eb el ex er).child d2 := by
        intro d2; cases d2 <;> rfl
      simp only [hcc]
      rw [parOkC_cons_iff] at hc
      obtain ⟨hc1, hc2, hc3⟩ := hc
      rw [parOkC_cons_iff] at hc3
      obtain ⟨hc4, hc5, hc6⟩ := hc3
      rw [parOk_node_iff] at he
      obtain ⟨hei0, hel, her⟩ := he
      simp only [idsM, idsMC, Multiset.nodup_add, Multiset.nodup_cons,
        Multiset.mem_add, Multiset.mem_cons, not_or,
        Multiset.disjoint_add_right, Multiset.disjoint_cons_right,
        Multiset.disjoint_cons_left, Multiset.disjoint_add_left,
        Multiset.disjoint_left] at hnd
      obtain ⟨⟨⟨heEl, heEr⟩, hndEl, hndEr, hElEr⟩,
        ⟨⟨hfs, hfg, hfG, hfr⟩, hndS, ⟨⟨hgG, hgr⟩, hndG, hndR, hGR⟩, hS⟩,
        hE⟩ := hnd
      have hEei := hE (Or.inl rfl)
      have hok1 : parOk par ((TreeNode.node ei eb el ex er).child g.dir)
          (some ei) = true := by
        cases g.dir
        · exact hel
        · exact her
      have hok2 : parOk par
          ((TreeNode.node ei eb el ex er).child g.dir.flip)
          (some ei) = true := by
        cases g.dir
        · exact her
        · exact hel
      have hm1 : ∀ j, j ∈ idsM ((TreeNode.node ei eb el ex er).child
          g.dir) → j ∈ idsM el ∨ j ∈ idsM er := by
        cases g.dir
        · exact fun j hj => Or.inl hj
        · exact fun j hj => Or.inr hj
      have hm2 : ∀ j, j ∈ idsM ((TreeNode.node ei eb el ex er).child
          g.dir.flip) → j ∈ idsM el ∨ j ∈ idsM er := by
        cases g.dir
        · exact fun j hj => Or.inr hj
        · exact fun j hj => Or.inl hj
      have hndc1 : (idsM ((TreeNode.node ei eb el ex er).child
          g.dir)).Nodup := by
        cases g.dir
        · exact hndEl
        · exact hndEr
      have hndc2 : (idsM ((TreeNode.node ei eb el ex er).child
          g.dir.flip)).Nodup := by
        cases g.dir
        · exact hndEr
        · exact hndEl
      have hei_cd : ei ∉ idsM ((TreeNode.node ei eb el ex er).child
          g.dir) := by
        cases g.dir
        · exact heEl
        · exact heEr
      have hei_cdf : ei ∉ idsM ((TreeNode.node ei eb el ex er).child
          g.dir.flip) := by
        cases g.dir
        · exact heEr
        · exact heEl
      have hdisj21 : ∀ j, j ∈ idsM ((TreeNode.node ei eb el ex er).child
          g.dir) → j ∉ idsM ((TreeNode.node ei eb el ex er).child
            g.dir.flip) := by
        cases g.dir
        · exact fun j hj => hElEr hj
        · exact fun j hj hm => hElEr hm hj
      have hA1 : ∀ j, rootId ((TreeNode.node ei eb el ex er).child
          g.dir) = some j → j ∉ idsMC rest2 :=
        fun j hj => (hE (Or.inr (hm1 j (rootId_mem _ j hj)))).2.2.2.2
      have hA2 : ∀ j, rootId ((TreeNode.node ei eb el ex er).child
          g.dir) = some j → j ∉ idsM f.sib :=
        fun j hj => (hE (Or.inr (hm1 j (rootId_mem _ j hj)))).2.1
      have hA3 : ∀ j, rootId ((TreeNode.node ei eb el ex er).child
          g.dir) = some j → j ∉ idsM g.sib :=
        fun j hj => (hE (Or.inr (hm1 j (rootId_mem _ j hj)))).2.2.2.1
      have hA4 : ∀ j, rootId ((TreeNode.node ei eb el ex er).child
          g.dir) = some j → ¬ f.id = j :=
        fun j hj h =>
          (hE (Or.inr (hm1 j (rootId_mem _ j hj)))).1 h.symm
      have hA5 : ∀ j, rootId ((TreeNode.node ei eb el ex er).child
          g.dir) = some j → ¬ g.id = j :=
        fun j hj h =>
          (hE (Or.inr (hm1 j (rootId_mem _ j hj)))).2.2.1 h.symm
      have hA6 : ∀ j, rootId ((TreeNode.node ei eb el ex er).child
          g.dir) = some j → j ∉ idsM ((TreeNode.node ei eb el ex
            er).child g.dir.flip) :=
        fun j hj => hdisj21 j (rootId_mem _ j hj)
      have hA7 : ∀ j, rootId ((TreeNode.node ei eb el ex er).child
          g.dir) = some j → ¬ ei = j :=
        fun j hj h => hei_cd (by
          have hm := rootId_mem _ j hj
          rw [← h] at hm
          exact hm)
      have hB1 : ∀ j, rootId ((TreeNode.node ei eb el ex er).child
          g.dir.flip) = some j → j ∉ idsMC rest2 :=
        fun j hj => (hE (Or.inr (hm2 j (rootId_mem _ j hj)))).2.2.2.2
      have hB2 : ∀ j, rootId ((TreeNode.node ei eb el ex er).child
          g.dir.flip) = some j → j ∉ idsM f.sib :=
        fun j hj => (hE (Or.inr (hm2 j (rootId_mem _ j hj)))).2.1
      have hB3 : ∀ j, rootId ((TreeNode.node ei eb el ex er).child
          g.dir.flip) = some j → j ∉ idsM g.sib :=
        fun j hj => (hE (Or.inr (hm2 j (rootId_mem _ j hj)))).2.2.2.1
      have hB4 : ∀ j, rootId ((TreeNode.node ei eb el ex er).child
          g.dir.flip) = some j → ¬ f.id = j :=
        fun j hj h =>
          (hE (Or.inr (hm2 j (rootId_mem _ j hj)))).1 h.symm
      have hB6 : ∀ j, rootId ((TreeNode.node ei eb el ex er).child
          g.dir.flip) = some j → j ∉ idsM ((TreeNode.node ei eb el ex
            er).child g.dir) :=
        fun j hj hm => hdisj21 _ hm (rootId_mem _ j hj)
      have hB7 : ∀ j, rootId ((TreeNode.node ei eb el ex er).child
          g.dir.flip) = some j → ¬ ei = j :=
        fun j hj h => hei_cdf (by
          have hm := rootId_mem _ j hj
          rw [← h] at hm
          exact hm)
      have hgS : g.id ∉ idsM f.sib := fun hm => (hS hm).1 rfl
      have hcd_g : g.id ∉ idsM ((TreeNode.node ei eb el ex er).child
          g.dir) := fun hm => (hE (Or.inr (hm1 _ hm))).2.2.1 rfl
      have hcdf_g : g.id ∉ idsM ((TreeNode.node ei eb el ex er).child
          g.dir.flip) := fun hm => (hE (Or.inr (hm2 _ hm))).2.2.1 rfl
      have hcd_f : f.id ∉ idsM ((TreeNode.node ei eb el ex er).child
          g.dir) := fun hm => (hE (Or.inr (hm1 _ hm))).1 rfl
      have hcdf_f : f.id ∉ idsM ((TreeNode.node ei eb el ex er).child
          g.dir.flip) := fun hm => (hE (Or.inr (hm2 _ hm))).1 rfl
      refine parOk_plug _ rest2 _ ?_ ?_
      · rw [parOk_mkN_iff]
        refine ⟨?_, ?_, ?_⟩
        · rw [parSet_other _ g.id _ ei (fun h => hEei.2.2.1 h),
            parSetM_other _ _ _ ei hB7, parSet_same,
            parSet_other _ f.id _ g.id (fun h => hfg h.symm),
            parSetM_other _ _ _ g.id hA5,
            parSet_other _ ei _ g.id (fun h => hEei.2.2.1 h.symm)]
          exact hc4
        · rw [parOk_mkN_iff]
          refine ⟨?_, ?_, ?_⟩
          · rw [parSet_other _ g.id _ f.id hfg,
              parSetM_other _ _ _ f.id hB4,
              parSet_other _ ei _ f.id (fun h => hEei.1 h.symm),
              parSet_same]
          · rw [parOk_parSet _ g.id _ f.sib _ hgS,
              parOk_parSetM _ _ _ f.sib _ hB2,
              parOk_parSet _ ei _ f.sib _ hEei.2.1,
              parOk_parSet _ f.id _ f.sib _ hfs,
              parOk_parSetM _ _ _ f.sib _ hA2,
              parOk_parSet _ ei _ f.sib _ hEei.2.1]
            exact hc2
          · rw [parOk_parSet _ g.id _ _ _ hcd_g,
              parOk_parSetM _ _ _ _ _ hB6,
              parOk_parSet _ ei _ _ _ hei_cd,
              parOk_parSet _ f.id _ _ _ hcd_f]
            refine parOk_setRoot _ _ (some ei) _ ?_ hndc1
            rw [parOk_parSet _ ei _ _ _ hei_cd]
            exact hok1
        · rw [parOk_mkN_iff]
          refine ⟨parSet_same _ _ _, ?_, ?_⟩
          · rw [parOk_parSet _ g.id _ _ _ hcdf_g]
            refine parOk_setRoot _ _ (some ei) _ ?_ hndc2
            rw [parOk_parSet _ ei _ _ _ hei_cdf,
              parOk_parSet _ f.id _ _ _ hcdf_f,
              parOk_parSetM _ _ _ _ _ hA6,
              parOk_parSet _ ei _ _ _ hei_cdf]
            exact hok2
          · rw [parOk_parSet _ g.id _ g.sib _ hgG,
              parOk_parSetM _ _ _ g.sib _ hB3,
              parOk_parSet _ ei _ g.sib _ hEei.2.2.2.1,
              parOk_parSet _ f.id _ g.sib _ hfG,
              parOk_parSetM _ _ _ g.sib _ hA3,
              parOk_parSet _ ei _ g.sib _ hEei.2.2.2.1]
            exact hc5
      · rw [parOkC_parSet _ g.id _ rest2 hgr,
          parOkC_parSetM _ _ _ rest2 hB1,
          parOkC_parSet _ ei _ rest2 hEei.2.2.2.2,
          parOkC_parSet _ f.id _ rest2 hfr,
          parOkC_parSetM _ _ _ rest2 hA1,
          parOkC_parSet _ ei _ rest2 hEei.2.2.2.2]
        exact hc6

/-- `putRecursiveP` keeps the parent map consistent (the freshly placed
node receives its parent at source line 84). -/
theorem putRecursiveP_parOk {α : Type} (lt : α → α → Bool) :
    ∀ (t : TreeNode α) (path : List (Frame α)) (e : α) (eid : Nat)
      (par : Nat → Option Nat),
      parOk par t (upIdOf path) = true → parOkC par path = true →
      (idsM t + idsMC path).Nodup →
      eid ∉ idsM t → eid ∉ idsMC path →
      parOk (putRecursiveP lt t e eid path par).2
        (putRecursiveP lt t e eid path par).1.1 none = true := by
  intro t
  induction t with
  | nil =>
      intro path e eid par he hc hnd hf1 hf2
      rw [putRecursiveP.eq_def]
      simp only []
      refine insertionRebalanceP_parOk _ path _ ?_ ?_ ?_
      · rw [parOk_node_iff]
        exact ⟨parSet_same _ _ _, rfl, rfl⟩
      · rw [parOkC_parSet _ eid _ path hf2]
        exact hc
      · have heq : idsM (.node eid false .nil e .nil : TreeNode α) +
            idsMC path = eid ::ₘ idsMC path := by
          simp [idsM]
        rw [heq, Multiset.nodup_cons]
        refine ⟨hf2, ?_⟩
        have : (0 + idsMC path).Nodup := by
          simpa [idsM] using hnd
        simpa using this
  | node i b l x r ihl ihr =>
      intro path e eid par he hc hnd hf1 hf2
      rw [parOk_node_iff] at he
      obtain ⟨he1, he2, he3⟩ := he
      have hnd2 := hnd
      simp only [idsM, Multiset.nodup_add, Multiset.nodup_cons,
        Multiset.mem_add, Multiset.mem_cons, not_or,
        Multiset.disjoint_add_right, Multiset.disjoint_cons_right,
        Multiset.disjoint_cons_left, Multiset.disjoint_add_left,
        Multiset.disjoint_left] at hnd2
      obtain ⟨⟨hiLR, hndL, hndR, hLR⟩, hndP, hEP⟩ := hnd2
      have hfm : ¬ (eid = i ∨ eid ∈ idsM l ∨ eid ∈ idsM r) := by
        simpa [idsM] using hf1
      rw [not_or, not_or] at hfm
      obtain ⟨hfi, hfl, hfr⟩ := hfm
      rw [putRecursiveP.eq_def]
      by_cases h1 : lt e x = true
      · simp only [h1, if_true]
        refine ihl (⟨.left, i, b, x, r⟩ :: path) e eid par he2 ?_ ?_ hfl ?_
        · rw [parOkC_cons_iff]
          exact ⟨he1, he3, hc⟩
        · have heq : idsM l + idsMC (⟨Dir.left, i, b, x, r⟩ :: path) =
              idsM (.node i b l x r : TreeNode α) + idsMC path := by
            simp only [idsM, idsMC, ← Multiset.singleton_add]
            abel
          rw [heq]
          exact hnd
        · have : ¬ (eid = i ∨ eid ∈ idsM r ∨ eid ∈ idsMC path) := by
            rw [not_or, not_or]
            exact ⟨hfi, hfr, hf2⟩
          simpa [idsMC] using this
      · by_cases h2 : lt x e = true
        · simp only [h1, Bool.false_eq_true, if_false, h2, if_true]
          refine ihr (⟨.right, i, b, x, l⟩ :: path) e eid par he3 ?_ ?_
            hfr ?_
          · rw [parOkC_cons_iff]
            exact ⟨he1, he2, hc⟩
          · have heq : idsM r + idsMC (⟨Dir.right, i, b, x, l⟩ :: path) =
                idsM (.node i b l x r : TreeNode α) + idsMC path := by
              simp only [idsM, idsMC, ← Multiset.singleton_add]
              abel
            rw [heq]
            exact hnd
          · have : ¬ (eid = i ∨ eid ∈ idsM l ∨ eid ∈ idsMC path) := by
              rw [not_or, not_or]
              exact ⟨hfi, hfl, hf2⟩
            simpa [idsMC] using this
        · simp only [h1, h2, Bool.false_eq_true, if_false]
          refine parOk_plug _ path _ ?_ hc
          rw [parOk_node_iff]
          exact ⟨he1, he2, he3⟩

/-- `Put` (via `PutP`) keeps every parent back-link consistent. -/
theorem PutP_parOk {α : Type} (lt : α → α → Bool) (m : RedBlackTree α)
    (e : α) (par : Nat → Option Nat)
    (hpar : parOk par m.root none = true)
    (hnd : (idsM m.root).Nodup)
    (hfresh : ∀ j ∈ idsM m.root, j < m.nextId) :
    parOk (PutP lt m e par).2 (PutP lt m e par).1 none = true := by
  rw [PutP]
  refine putRecursiveP_parOk lt m.root [] e m.nextId par hpar rfl ?_ ?_ ?_
  · simpa [idsMC] using hnd
  · intro hm
    have := hfresh _ hm
    omega
  · simp [idsMC]

theorem TreeNode.as_mkN {α : Type} (d : Dir) (t : TreeNode α)
    (h : t.isNil = false) :
    ∃ i b a x s, t = mkN d i b a x s := by
  cases t with
  | nil => cases h
  | node i b l x r =>
      cases d with
      | left => exact ⟨i, b, l, x, r, rfl⟩
      | right => exact ⟨i, b, r, x, l, rfl⟩

/-- Pointwise-equal maps on a subtree's ids give the same consistency
verdict. -/
theorem parOk_congr {α : Type} (par1 par2 : Nat → Option Nat) :
    ∀ (t : TreeNode α) (up : Option Nat),
      (∀ k, k ∈ idsM t → par1 k = par2 k) →
      parOk par1 t up = parOk par2 t up := by
  intro t
  induction t with
  | nil => intro _ _; rfl
  | node i b l x r ihl ihr =>
      intro up hag
      rw [parOk, parOk, hag i (by simp [idsM]),
        ihl _ (fun k hk => hag k (by simp [idsM, hk])),
        ihr _ (fun k hk => hag k (by simp [idsM, hk]))]

theorem parOkC_congr {α : Type} (par1 par2 : Nat → Option Nat) :
    ∀ (path : List (Frame α)),
      (∀ k, k ∈ idsMC path → par1 k = par2 k) →
      parOkC par1 path = parOkC par2 path := by
  intro path
  induction path with
  | nil => intro _; rfl
  | cons f rest ih =>
      intro hag
      rw [parOkC, parOkC, hag f.id (by simp [idsMC]),
        parOk_congr par1 par2 f.sib _
          (fun k hk => hag k (by simp [idsMC, hk])),
        ih (fun k hk => hag k (by simp [idsMC, hk]))]

theorem balDelP_parOk_farRed {α : Type} (d : Dir) (i : Nat) (fb : Bool)
    (x : α) (sid : Nat) (sx : α) (C F : TreeNode α)
    (rest : List (Frame α)) (par : Nat → Option Nat)
    (hc : parOkC par (⟨d, i, fb, x, mkN d sid true C sx F⟩ :: rest) = true)
    (hnd : (idsMC (⟨d, i, fb, x, mkN d sid true C sx F⟩ :: rest)).Nodup) :
    parOkC (parSet (parSetM (parSet par sid (par i)) (rootId C) (some i))
        i (some sid))
      (⟨d, i, true, x, C⟩ :: ⟨d, sid, fb, sx, F.paintBlack⟩ :: rest) =
      true ∧
    ∀ k, k ∉ idsMC (⟨d, i, fb, x, mkN d sid true C sx F⟩ :: rest) →
      (parSet (parSetM (parSet par sid (par i)) (rootId C) (some i)) i
        (some sid)) k = par k := by
  rw [parOkC_cons_iff] at hc
  obtain ⟨hc1, hc2, hc3⟩ := hc
  rw [parOk_mkN_iff] at hc2
  obtain ⟨hs1, hsC, hsF⟩ := hc2
  simp only [idsMC, idsM_mkN, Multiset.nodup_add, Multiset.nodup_cons,
    Multiset.mem_add, Multiset.mem_cons, not_or,
    Multiset.disjoint_add_right, Multiset.disjoint_cons_right,
    Multiset.disjoint_cons_left, Multiset.disjoint_add_left,
    Multiset.disjoint_left] at hnd
  obtain ⟨⟨⟨hiS, hiC, hiF⟩, hir⟩, ⟨⟨hsC2, hsF2⟩, hndC, hndF, hCF⟩,
    hndR, hrest⟩ := hnd
  have hc1' : par i = upIdOf rest := hc1
  have hCr : ∀ j, rootId C = some j → j ∉ idsMC rest :=
    fun j hj => hrest (Or.inr (Or.inl (rootId_mem _ j hj)))
  have hCs : ∀ j, rootId C = some j → ¬ sid = j :=
    fun j hj h => hsC2 (by
      have hm := rootId_mem _ j hj
      rw [← h] at hm
      exact hm)
  have hCF2 : ∀ j, rootId C = some j → j ∉ idsM F :=
    fun j hj => hCF (rootId_mem _ j hj)
  constructor
  · rw [parOkC_cons_iff]
    refine ⟨parSet_same _ _ _, ?_, ?_⟩
    · show parOk _ C (some i) = true
      rw [parOk_parSet _ i _ C _ hiC]
      refine parOk_setRoot _ C (some sid) _ ?_ hndC
      rw [parOk_parSet _ sid _ C _ hsC2]
      exact hsC
    · rw [parOkC_cons_iff]
      refine ⟨?_, ?_, ?_⟩
      · show (parSet (parSetM (parSet par sid (par i)) (rootId C)
          (some i)) i (some sid)) sid = upIdOf rest
        rw [parSet_other _ i _ sid (fun h => hiS h.symm),
          parSetM_other _ _ _ sid hCs, parSet_same]
        exact hc1'
      · show parOk _ F.paintBlack (some sid) = true
        rw [parOk_paintBlack, parOk_parSet _ i _ F _ hiF,
          parOk_parSetM _ _ _ F _ hCF2, parOk_parSet _ sid _ F _ hsF2]
        exact hsF
      · rw [parOkC_parSet _ i _ rest hir,
          parOkC_parSetM _ _ _ rest hCr,
          parOkC_parSet _ sid _ rest (hrest (Or.inl rfl))]
        exact hc3
  · intro k hk
    have hk_i : ¬ k = i := fun h => hk (by simp [idsMC, h])
    have hk_sid : ¬ k = sid := fun h =>
      hk (by simp [idsMC, idsM_mkN, h])
    have hk_C : ∀ j, rootId C = some j → ¬ k = j :=
      fun j hj h => hk (by
        have hm := rootId_mem _ j hj
        rw [← h] at hm
        simp [idsMC, idsM_mkN, hm])
    rw [parSet_other _ i _ k hk_i, parSetM_other _ _ _ k hk_C,
      parSet_other _ sid _ k hk_sid]

theorem balDelP_parOk_sibRed_farRed {α : Type} (d : Dir) (i : Nat)
    (fb : Bool) (x : α) (sid : Nat) (sx : α) (cid : Nat) (cb2 : Bool)
    (CC : TreeNode α) (cx : α) (CF F : TreeNode α)
    (rest : List (Frame α)) (par : Nat → Option Nat)
    (hc : parOkC par
      (⟨d, i, fb, x, mkN d sid false (mkN d cid cb2 CC cx CF) sx F⟩ ::
        rest) = true)
    (hnd : (idsMC
      (⟨d, i, fb, x, mkN d sid false (mkN d cid cb2 CC cx CF) sx F⟩ ::
        rest)).Nodup) :
    parOkC (parSet (parSetM (parSet (parSet (parSet (parSet par sid
        (par i)) cid (some i)) i (some sid)) cid (some sid)) (rootId CC)
        (some i)) i (some cid))
      (⟨d, i, true, x, CC⟩ :: ⟨d, cid, false, cx, CF.paintBlack⟩ ::
        ⟨d, sid, true, sx, F⟩ :: rest) = true ∧
    ∀ k, k ∉ idsMC
        (⟨d, i, fb, x, mkN d sid false (mkN d cid cb2 CC cx CF) sx F⟩ ::
          rest) →
      (parSet (parSetM (parSet (parSet (parSet (parSet par sid (par i))
        cid (some i)) i (some sid)) cid (some sid)) (rootId CC) (some i))
        i (some cid)) k = par k := by
  rw [parOkC_cons_iff] at hc
  obtain ⟨hc1, hc2, hc3⟩ := hc
  rw [parOk_mkN_iff] at hc2
  obtain ⟨hs1, hsCN, hsF⟩ := hc2
  rw [parOk_mkN_iff] at hsCN
  obtain ⟨hcn1, hCC, hCFp⟩ := hsCN
  simp only [idsMC, idsM_mkN, Multiset.nodup_add, Multiset.nodup_cons,
    Multiset.mem_add, Multiset.mem_cons, not_or,
    Multiset.disjoint_add_right, Multiset.disjoint_cons_right,
    Multiset.disjoint_cons_left, Multiset.disjoint_add_left,
    Multiset.disjoint_left] at hnd
  obtain ⟨⟨⟨hiS, ⟨hiCid, hiCC, hiCF⟩, hiF⟩, hir⟩,
    ⟨⟨⟨hsCid, hsCC, hsCF⟩, hsF2⟩,
     ⟨⟨hcCC, hcCF⟩, hndCC, hndCF, hCCCF⟩, hndF, hSibF⟩,
    hndR, hrest⟩ := hnd
  have hc1' : par i = upIdOf rest := hc1
  have hCCr : ∀ j, rootId CC = some j → j ∉ idsMC rest :=
    fun j hj => hrest (Or.inr (Or.inl (Or.inr (Or.inl
      (rootId_mem _ j hj)))))
  have hCCF2 : ∀ j, rootId CC = some j → j ∉ idsM CF :=
    fun j hj => hCCCF (rootId_mem _ j hj)
  have hCCF3 : ∀ j, rootId CC = some j → j ∉ idsM F :=
    fun j hj => hSibF (Or.inr (Or.inl (rootId_mem _ j hj)))
  have hCC_ne_sid : ∀ j, rootId CC = some j → ¬ sid = j :=
    fun j hj h => hsCC (by
      have hm := rootId_mem _ j hj
      rw [← h] at hm
      exact hm)
  have hCC_ne_cid : ∀ j, rootId CC = some j → ¬ cid = j :=
    fun j hj h => hcCC (by
      have hm := rootId_mem _ j hj
      rw [← h] at hm
      exact hm)
  constructor
  · rw [parOkC_cons_iff]
    refine ⟨parSet_same _ _ _, ?_, ?_⟩
    · show parOk _ CC (some i) = true
      rw [parOk_parSet _ i _ CC _ hiCC]
      refine parOk_setRoot _ CC (some cid) _ ?_ hndCC
      rw [parOk_parSet _ cid _ CC _ hcCC, parOk_parSet _ i _ CC _ hiCC,
        parOk_parSet _ cid _ CC _ hcCC, parOk_parSet _ sid _ CC _ hsCC]
      exact hCC
    · rw [parOkC_cons_iff]
      refine ⟨?_, ?_, ?_⟩
      · show (parSet (parSetM (parSet (parSet (parSet (parSet par sid
          (par i)) cid (some i)) i (some sid)) cid (some sid))
          (rootId CC) (some i)) i (some cid)) cid = some sid
        rw [parSet_other _ i _ cid (fun h => hiCid h.symm),
          parSetM_other _ _ _ cid hCC_ne_cid, parSet_same]
      · show parOk _ CF.paintBlack (some cid) = true
        rw [parOk_paintBlack, parOk_parSet _ i _ CF _ hiCF,
          parOk_parSetM _ _ _ CF _ hCCF2,
          parOk_parSet _ cid _ CF _ hcCF,
          parOk_parSet _ i _ CF _ hiCF,
          parOk_parSet _ cid _ CF _ hcCF,
          parOk_parSet _ sid _ CF _ hsCF]
        exact hCFp
      · rw [parOkC_cons_iff]
        refine ⟨?_, ?_, ?_⟩
        · show (parSet (parSetM (parSet (parSet (parSet (parSet par sid
            (par i)) cid (some i)) i (some sid)) cid (some sid))
            (rootId CC) (some i)) i (some cid)) sid = upIdOf rest
          rw [parSet_other _ i _ sid (fun h => hiS h.symm),
            parSetM_other _ _ _ sid hCC_ne_sid,
            parSet_other _ cid _ sid hsCid,
            parSet_other _ i _ sid (fun h => hiS h.symm),
            parSet_other _ cid _ sid hsCid, parSet_same]
          exact hc1'
        · show parOk _ F (some sid) = true
          rw [parOk_parSet _ i _ F _ hiF,
            parOk_parSetM _ _ _ F _ hCCF3,
            parOk_parSet _ cid _ F _ (hSibF (Or.inl rfl)),
            parOk_parSet _ i _ F _ hiF,
            parOk_parSet _ cid _ F _ (hSibF (Or.inl rfl)),
            parOk_parSet _ sid _ F _ hsF2]
          exact hsF
        · rw [parOkC_parSet _ i _ rest hir,
            parOkC_parSetM _ _ _ rest hCCr,
            parOkC_parSet _ cid _ rest
              (hrest (Or.inr (Or.inl (Or.inl rfl)))),
            parOkC_parSet _ i _ rest hir,
            parOkC_parSet _ cid _ rest
              (hrest (Or.inr (Or.inl (Or.inl rfl)))),
            parOkC_parSet _ sid _ rest (hrest (Or.inl rfl))]
          exact hc3
  · intro k hk
    have hk_i : ¬ k = i := fun h => hk (by simp [idsMC, h])
    have hk_sid : ¬ k = sid := fun h =>
      hk (by simp [idsMC, idsM_mkN, h])
    have hk_cid : ¬ k = cid := fun h =>
      hk (by simp [idsMC, idsM_mkN, h])
    have hk_CC : ∀ j, rootId CC = some j → ¬ k = j :=
      fun j hj h => hk (by
        have hm := rootId_mem _ j hj
        rw [← h] at hm
        simp [idsMC, idsM_mkN, hm])
    rw [parSet_other _ i _ k hk_i, parSetM_other _ _ _ k hk_CC,
      parSet_other _ cid _ k hk_cid, parSet_other _ i _ k hk_i,
      parSet_other _ cid _ k hk_cid, parSet_other _ sid _ k hk_sid]

theorem balDelP_parOk_sibRed_closeRed {α : Type} (d : Dir) (i : Nat)
    (fb : Bool) (x : α) (sid : Nat) (sx : α) (cid : Nat) (cb2 : Bool)
    (cx : α) (ccid : Nat) (CCC : TreeNode α) (ccx : α)
    (CCF CF F : TreeNode α) (rest : List (Frame α))
    (par : Nat → Option Nat)
    (hc : parOkC par
      (⟨d, i, fb, x,
        mkN d sid false
          (mkN d cid cb2 (mkN d ccid false CCC ccx CCF) cx CF) sx
          F⟩ :: rest) = true)
    (hnd : (idsMC
      (⟨d, i, fb, x,
        mkN d sid false
          (mkN d cid cb2 (mkN d ccid false CCC ccx CCF) cx CF) sx
          F⟩ :: rest)).Nodup) :
    parOkC (parSet (parSetM (parSet
        (parSet (parSetM (parSet
          (parSet (parSet (parSet par sid (par i)) cid (some i)) i
            (some sid))
          ccid ((parSet (parSet (parSet par sid (par i)) cid (some i)) i
            (some sid)) cid)) (rootId CCF) (some cid)) cid (some ccid))
        ccid ((parSet (parSetM (parSet
          (parSet (parSet (parSet par sid (par i)) cid (some i)) i
            (some sid))
          ccid ((parSet (parSet (parSet par sid (par i)) cid (some i)) i
            (some sid)) cid)) (rootId CCF) (some cid)) cid (some ccid))
          i)) (rootId CCC) (some i)) i (some ccid))
      (⟨d, i, true, x, CCC⟩ ::
        ⟨d, ccid, false, ccx, mkN d cid true CCF cx CF⟩ ::
        ⟨d, sid, true, sx, F⟩ :: rest) = true ∧
    ∀ k, k ∉ idsMC
        (⟨d, i, fb, x,
          mkN d sid false
            (mkN d cid cb2 (mkN d ccid false CCC ccx CCF) cx CF) sx
            F⟩ :: rest) →
      (parSet (parSetM (parSet
        (parSet (parSetM (parSet
          (parSet (parSet (parSet par sid (par i)) cid (some i)) i
            (some sid))
          ccid ((parSet (parSet (parSet par sid (par i)) cid (some i)) i
            (some sid)) cid)) (rootId CCF) (some cid)) cid (some ccid))
        ccid ((parSet (parSetM (parSet
          (parSet (parSet (parSet par sid (par i)) cid (some i)) i
            (some sid))
          ccid ((parSet (parSet (parSet par sid (par i)) cid (some i)) i
            (some sid)) cid)) (rootId CCF) (some cid)) cid (some ccid))
          i)) (rootId CCC) (some i)) i (some ccid)) k = par k := by
  rw [parOkC_cons_iff] at hc
  obtain ⟨hc1, hc2, hc3⟩ := hc
  rw [parOk_mkN_iff] at hc2
  obtain ⟨hs1, hsCN, hsF⟩ := hc2
  rw [parOk_mkN_iff] at hsCN
  obtain ⟨hcn1, hCCN, hCFp⟩ := hsCN
  rw [parOk_mkN_iff] at hCCN
  obtain ⟨hcc1, hCCC, hCCF⟩ := hCCN
  simp only [idsMC, idsM_mkN, Multiset.nodup_add, Multiset.nodup_cons,
    Multiset.mem_add, Multiset.mem_cons, not_or,
    Multiset.disjoint_add_right, Multiset.disjoint_cons_right,
    Multiset.disjoint_cons_left, Multiset.disjoint_add_left,
    Multiset.disjoint_left] at hnd
  obtain ⟨⟨⟨hiS, ⟨hiCid, ⟨hiCcid, hiCCC, hiCCF⟩, hiCF⟩, hiF⟩, hir⟩,
    ⟨⟨⟨hsCid, ⟨hsCcid, hsCCC, hsCCF⟩, hsCF⟩, hsF2⟩,
     ⟨⟨⟨hcCcid, hcCCC, hcCCF⟩, hcCF⟩,
      ⟨⟨hccCCC, hccCCF⟩, hndCCC, hndCCF, hCCCCCF⟩, hndCF, hCCNCF⟩,
     hndF, hSibF⟩,
    hndR, hrest⟩ := hnd
  have hc1' : par i = upIdOf rest := hc1
  have hCCCr : ∀ j, rootId CCC = some j → j ∉ idsMC rest :=
    fun j hj => hrest (Or.inr (Or.inl (Or.inr (Or.inl (Or.inr (Or.inl
      (rootId_mem _ j hj)))))))
  have hCCFr : ∀ j, rootId CCF = some j → j ∉ idsMC rest :=
    fun j hj => hrest (Or.inr (Or.inl (Or.inr (Or.inl (Or.inr (Or.inr
      (rootId_mem _ j hj)))))))
  have hCCF_CCC : ∀ j, rootId CCF = some j → j ∉ idsM CCC :=
    fun j hj hmem => hCCCCCF hmem (rootId_mem _ j hj)
  have hCCC_CCF : ∀ j, rootId CCC = some j → j ∉ idsM CCF :=
    fun j hj => hCCCCCF (rootId_mem _ j hj)
  have hCCC_CF : ∀ j, rootId CCC = some j → j ∉ idsM CF :=
    fun j hj => hCCNCF (Or.inr (Or.inl (rootId_mem _ j hj)))
  have hCCF_CF : ∀ j, rootId CCF = some j → j ∉ idsM CF :=
    fun j hj => hCCNCF (Or.inr (Or.inr (rootId_mem _ j hj)))
  have hCCC_F : ∀ j, rootId CCC = some j → j ∉ idsM F :=
    fun j hj => hSibF (Or.inr (Or.inl (Or.inr (Or.inl
      (rootId_mem _ j hj)))))
  have hCCF_F : ∀ j, rootId CCF = some j → j ∉ idsM F :=
    fun j hj => hSibF (Or.inr (Or.inl (Or.inr (Or.inr
      (rootId_mem _ j hj)))))
  have hccCF : ccid ∉ idsM CF := hCCNCF (Or.inl rfl)
  have hccF : ccid ∉ idsM F := hSibF (Or.inr (Or.inl (Or.inl rfl)))
  have hcF : cid ∉ idsM F := hSibF (Or.inl rfl)
  have hccr : ccid ∉ idsMC rest :=
    hrest (Or.inr (Or.inl (Or.inr (Or.inl (Or.inl rfl)))))
  have hcr : cid ∉ idsMC rest := hrest (Or.inr (Or.inl (Or.inl rfl)))
  have hsr : sid ∉ idsMC rest := hrest (Or.inl rfl)
  have hCCC_ne_sid : ∀ j, rootId CCC = some j → ¬ sid = j :=
    fun j hj h => hsCCC (by
      have hm := rootId_mem _ j hj
      rw [← h] at hm
      exact hm)
  have hCCF_ne_sid : ∀ j, rootId CCF = some j → ¬ sid = j :=
    fun j hj h => hsCCF (by
      have hm := rootId_mem _ j hj
      rw [← h] at hm
      exact hm)
  have hCCC_ne_cid : ∀ j, rootId CCC = some j → ¬ cid = j :=
    fun j hj h => hcCCC (by
      have hm := rootId_mem _ j hj
      rw [← h] at hm
      exact hm)
  have hCCC_ne_ccid : ∀ j, rootId CCC = some j → ¬ ccid = j :=
    fun j hj h => hccCCC (by
      have hm := rootId_mem _ j hj
      rw [← h] at hm
      exact hm)
  have hCCF_ne_i : ∀ j, rootId CCF = some j → ¬ i = j :=
    fun j hj h => hiCCF (by
      have hm := rootId_mem _ j hj
      rw [← h] at hm
      exact hm)
  constructor
  · rw [parOkC_cons_iff]
    refine ⟨parSet_same _ _ _, ?_, ?_⟩
    · show parOk _ CCC (some i) = true
      rw [parOk_parSet _ i _ CCC _ hiCCC]
      refine parOk_setRoot _ CCC (some ccid) _ ?_ hndCCC
      rw [parOk_parSet _ ccid _ CCC _ hccCCC,
        parOk_parSet _ cid _ CCC _ hcCCC,
        parOk_parSetM _ _ _ CCC _ hCCF_CCC,
        parOk_parSet _ ccid _ CCC _ hccCCC,
        parOk_parSet _ i _ CCC _ hiCCC,
        parOk_parSet _ cid _ CCC _ hcCCC,
        parOk_parSet _ sid _ CCC _ hsCCC]
      exact hCCC
    · rw [parOkC_cons_iff]
      refine ⟨?_, ?_, ?_⟩
      · show parSet _ i (some ccid) ccid = some sid
        rw [parSet_other _ i _ ccid (fun h => hiCcid h.symm),
          parSetM_other _ _ _ ccid hCCC_ne_ccid, parSet_same,
          parSet_other _ cid _ i hiCid,
          parSetM_other _ _ _ i hCCF_ne_i,
          parSet_other _ ccid _ i hiCcid, parSet_same]
      · rw [parOk_mkN_iff]
        refine ⟨?_, ?_, ?_⟩
        · show parSet _ i (some ccid) cid = some ccid
          rw [parSet_other _ i _ cid (fun h => hiCid h.symm),
            parSetM_other _ _ _ cid hCCC_ne_cid,
            parSet_other _ ccid _ cid hcCcid, parSet_same]
        · show parOk _ CCF (some cid) = true
          rw [parOk_parSet _ i _ CCF _ hiCCF,
            parOk_parSetM _ _ _ CCF _ hCCC_CCF,
            parOk_parSet _ ccid _ CCF _ hccCCF,
            parOk_parSet _ cid _ CCF _ hcCCF]
          refine parOk_setRoot _ CCF (some ccid) _ ?_ hndCCF
          rw [parOk_parSet _ ccid _ CCF _ hccCCF,
            parOk_parSet _ i _ CCF _ hiCCF,
            parOk_parSet _ cid _ CCF _ hcCCF,
            parOk_parSet _ sid _ CCF _ hsCCF]
          exact hCCF
        · show parOk _ CF (some cid) = true
          rw [parOk_parSet _ i _ CF _ hiCF,
            parOk_parSetM _ _ _ CF _ hCCC_CF,
            parOk_parSet _ ccid _ CF _ hccCF,
            parOk_parSet _ cid _ CF _ hcCF,
            parOk_parSetM _ _ _ CF _ hCCF_CF,
            parOk_parSet _ ccid _ CF _ hccCF,
            parOk_parSet _ i _ CF _ hiCF,
            parOk_parSet _ cid _ CF _ hcCF,
            parOk_parSet _ sid _ CF _ hsCF]
          exact hCFp
      · rw [parOkC_cons_iff]
        refine ⟨?_, ?_, ?_⟩
        · show parSet _ i (some ccid) sid = upIdOf rest
          rw [parSet_other _ i _ sid (fun h => hiS h.symm),
            parSetM_other _ _ _ sid hCCC_ne_sid,
            parSet_other _ ccid _ sid hsCcid,
            parSet_other _ cid _ sid hsCid,
            parSetM_other _ _ _ sid hCCF_ne_sid,
            parSet_other _ ccid _ sid hsCcid,
            parSet_other _ i _ sid (fun h => hiS h.symm),
            parSet_other _ cid _ sid hsCid, parSet_same]
          exact hc1'
        · show parOk _ F (some sid) = true
          rw [parOk_parSet _ i _ F _ hiF,
            parOk_parSetM _ _ _ F _ hCCC_F,
            parOk_parSet _ ccid _ F _ hccF,
            parOk_parSet _ cid _ F _ hcF,
            parOk_parSetM _ _ _ F _ hCCF_F,
            parOk_parSet _ ccid _ F _ hccF,
            parOk_parSet _ i _ F _ hiF,
            parOk_parSet _ cid _ F _ hcF,
            parOk_parSet _ sid _ F _ hsF2]
          exact hsF
        · rw [parOkC_parSet _ i _ rest hir,
            parOkC_parSetM _ _ _ rest hCCCr,
            parOkC_parSet _ ccid _ rest hccr,
            parOkC_parSet _ cid _ rest hcr,
            parOkC_parSetM _ _ _ rest hCCFr,
            parOkC_parSet _ ccid _ rest hccr,
            parOkC_parSet _ i _ rest hir,
            parOkC_parSet _ cid _ rest hcr,
            parOkC_parSet _ sid _ rest hsr]
          exact hc3
  · intro k hk
    have hk_i : ¬ k = i := fun h => hk (by simp [idsMC, h])
    have hk_sid : ¬ k = sid := fun h =>
      hk (by simp [idsMC, idsM_mkN, h])
    have hk_cid : ¬ k = cid := fun h =>
      hk (by simp [idsMC, idsM_mkN, h])
    have hk_ccid : ¬ k = ccid := fun h =>
      hk (by simp [idsMC, idsM_mkN, h])
    have hk_CCC : ∀ j, rootId CCC = some j → ¬ k = j :=
      fun j hj h => hk (by
        have hm := rootId_mem _ j hj
        rw [← h] at hm
        simp [idsMC, idsM_mkN, hm])
    have hk_CCF : ∀ j, rootId CCF = some j → ¬ k = j :=
      fun j hj h => hk (by
        have hm := rootId_mem _ j hj
        rw [← h] at hm
        simp [idsMC, idsM_mkN, hm])
    rw [parSet_other _ i _ k hk_i, parSetM_other _ _ _ k hk_CCC,
      parSet_other _ ccid _ k hk_ccid, parSet_other _ cid _ k hk_cid,
      parSetM_other _ _ _ k hk_CCF, parSet_other _ ccid _ k hk_ccid,
      parSet_other _ i _ k hk_i, parSet_other _ cid _ k hk_cid,
      parSet_other _ sid _ k hk_sid]

theorem balDelP_parOk_closeRed {α : Type} (d : Dir) (i : Nat) (fb : Bool)
    (x : α) (sid : Nat) (sx : α) (cid : Nat) (CC : TreeNode α) (cx : α)
    (CF F : TreeNode α) (rest : List (Frame α)) (par : Nat → Option Nat)
    (hc : parOkC par
      (⟨d, i, fb, x, mkN d sid true (mkN d cid false CC cx CF) sx F⟩ ::
        rest) = true)
    (hnd : (idsMC
      (⟨d, i, fb, x, mkN d sid true (mkN d cid false CC cx CF) sx F⟩ ::
        rest)).Nodup) :
    parOkC (parSet (parSetM (parSet
        (parSet (parSetM (parSet par cid (par sid)) (rootId CF)
          (some sid)) sid (some cid))
        cid ((parSet (parSetM (parSet par cid (par sid)) (rootId CF)
          (some sid)) sid (some cid)) i)) (rootId CC) (some i)) i
        (some cid))
      (⟨d, i, true, x, CC⟩ ::
        ⟨d, cid, fb, cx, mkN d sid true CF sx F⟩ :: rest) = true ∧
    ∀ k, k ∉ idsMC
        (⟨d, i, fb, x, mkN d sid true (mkN d cid false CC cx CF) sx F⟩ ::
          rest) →
      (parSet (parSetM (parSet
        (parSet (parSetM (parSet par cid (par sid)) (rootId CF)
          (some sid)) sid (some cid))
        cid ((parSet (parSetM (parSet par cid (par sid)) (rootId CF)
          (some sid)) sid (some cid)) i)) (rootId CC) (some i)) i
        (some cid)) k = par k := by
  rw [parOkC_cons_iff] at hc
  obtain ⟨hc1, hc2, hc3⟩ := hc
  rw [parOk_mkN_iff] at hc2
  obtain ⟨hs1, hsC, hsF⟩ := hc2
  rw [parOk_mkN_iff] at hsC
  obtain ⟨hcn1, hCC, hCFp⟩ := hsC
  simp only [idsMC, idsM_mkN, Multiset.nodup_add, Multiset.nodup_cons,
    Multiset.mem_add, Multiset.mem_cons, not_or,
    Multiset.disjoint_add_right, Multiset.disjoint_cons_right,
    Multiset.disjoint_cons_left, Multiset.disjoint_add_left,
    Multiset.disjoint_left] at hnd
  obtain ⟨⟨⟨hiS, ⟨hiCid, hiCC, hiCF⟩, hiF⟩, hir⟩,
    ⟨⟨⟨hsCid, hsCC, hsCF⟩, hsF2⟩,
     ⟨⟨hcCC, hcCF⟩, hndCC, hndCF, hCCCF⟩, hndF, hSibF⟩,
    hndR, hrest⟩ := hnd
  have hc1' : par i = upIdOf rest := hc1
  have hCCr : ∀ j, rootId CC = some j → j ∉ idsMC rest :=
    fun j hj => hrest (Or.inr (Or.inl (Or.inr (Or.inl
      (rootId_mem _ j hj)))))
  have hCFr : ∀ j, rootId CF = some j → j ∉ idsMC rest :=
    fun j hj => hrest (Or.inr (Or.inl (Or.inr (Or.inr
      (rootId_mem _ j hj)))))
  have hCC_CF : ∀ j, rootId CC = some j → j ∉ idsM CF :=
    fun j hj => hCCCF (rootId_mem _ j hj)
  have hCF_CC : ∀ j, rootId CF = some j → j ∉ idsM CC :=
    fun j hj hmem => hCCCF hmem (rootId_mem _ j hj)
  have hCC_F : ∀ j, rootId CC = some j → j ∉ idsM F :=
    fun j hj => hSibF (Or.inr (Or.inl (rootId_mem _ j hj)))
  have hCF_F : ∀ j, rootId CF = some j → j ∉ idsM F :=
    fun j hj => hSibF (Or.inr (Or.inr (rootId_mem _ j hj)))
  have hcF : cid ∉ idsM F := hSibF (Or.inl rfl)
  have hcr : cid ∉ idsMC rest := hrest (Or.inr (Or.inl (Or.inl rfl)))
  have hsr : sid ∉ idsMC rest := hrest (Or.inl rfl)
  have hCC_ne_cid : ∀ j, rootId CC = some j → ¬ cid = j :=
    fun j hj h => hcCC (by
      have hm := rootId_mem _ j hj
      rw [← h] at hm
      exact hm)
  have hCC_ne_sid : ∀ j, rootId CC = some j → ¬ sid = j :=
    fun j hj h => hsCC (by
      have hm := rootId_mem _ j hj
      rw [← h] at hm
      exact hm)
  have hCF_ne_i : ∀ j, rootId CF = some j → ¬ i = j :=
    fun j hj h => hiCF (by
      have hm := rootId_mem _ j hj
      rw [← h] at hm
      exact hm)
  constructor
  · rw [parOkC_cons_iff]
    refine ⟨parSet_same _ _ _, ?_, ?_⟩
    · show parOk _ CC (some i) = true
      rw [parOk_parSet _ i _ CC _ hiCC]
      refine parOk_setRoot _ CC (some cid) _ ?_ hndCC
      rw [parOk_parSet _ cid _ CC _ hcCC,
        parOk_parSet _ sid _ CC _ hsCC,
        parOk_parSetM _ _ _ CC _ hCF_CC,
        parOk_parSet _ cid _ CC _ hcCC]
      exact hCC
    · rw [parOkC_cons_iff]
      refine ⟨?_, ?_, ?_⟩
      · show parSet _ i (some cid) cid = upIdOf rest
        rw [parSet_other _ i _ cid (fun h => hiCid h.symm),
          parSetM_other _ _ _ cid hCC_ne_cid, parSet_same,
          parSet_other _ sid _ i (fun h => hiS h),
          parSetM_other _ _ _ i hCF_ne_i,
          parSet_other _ cid _ i hiCid]
        exact hc1'
      · rw [parOk_mkN_iff]
        refine ⟨?_, ?_, ?_⟩
        · show parSet _ i (some cid) sid = some cid
          rw [parSet_other _ i _ sid (fun h => hiS h.symm),
            parSetM_other _ _ _ sid hCC_ne_sid,
            parSet_other _ cid _ sid hsCid, parSet_same]
        · show parOk _ CF (some sid) = true
          rw [parOk_parSet _ i _ CF _ hiCF,
            parOk_parSetM _ _ _ CF _ hCC_CF,
            parOk_parSet _ cid _ CF _ hcCF,
            parOk_parSet _ sid _ CF _ hsCF]
          refine parOk_setRoot _ CF (some cid) _ ?_ hndCF
          rw [parOk_parSet _ cid _ CF _ hcCF]
          exact hCFp
        · show parOk _ F (some sid) = true
          rw [parOk_parSet _ i _ F _ hiF,
            parOk_parSetM _ _ _ F _ hCC_F,
            parOk_parSet _ cid _ F _ hcF,
            parOk_parSet _ sid _ F _ hsF2,
            parOk_parSetM _ _ _ F _ hCF_F,
            parOk_parSet _ cid _ F _ hcF]
          exact hsF
      · rw [parOkC_parSet _ i _ rest hir,
          parOkC_parSetM _ _ _ rest hCCr,
          parOkC_parSet _ cid _ rest hcr,
          parOkC_parSet _ sid _ rest hsr,
          parOkC_parSetM _ _ _ rest hCFr,
          parOkC_parSet _ cid _ rest hcr]
        exact hc3
  · intro k hk
    have hk_i : ¬ k = i := fun h => hk (by simp [idsMC, h])
    have hk_sid : ¬ k = sid := fun h =>
      hk (by simp [idsMC, idsM_mkN, h])
    have hk_cid : ¬ k = cid := fun h =>
      hk (by simp [idsMC, idsM_mkN, h])
    have hk_CC : ∀ j, rootId CC = some j → ¬ k = j :=
      fun j hj h => hk (by
        have hm := rootId_mem _ j hj
        rw [← h] at hm
        simp [idsMC, idsM_mkN, hm])
    have hk_CF : ∀ j, rootId CF = some j → ¬ k = j :=
      fun j hj h => hk (by
        have hm := rootId_mem _ j hj
        rw [← h] at hm
        simp [idsMC, idsM_mkN, hm])
    rw [parSet_other _ i _ k hk_i, parSetM_other _ _ _ k hk_CC,
      parSet_other _ cid _ k hk_cid, parSet_other _ sid _ k hk_sid,
      parSetM_other _ _ _ k hk_CF, parSet_other _ cid _ k hk_cid]

theorem balDelP_parOk_sibRed_bothBlack {α : Type} (d : Dir) (i : Nat)
    (fb : Bool) (x : α) (sid : Nat) (sx : α) (cid : Nat) (cb2 : Bool)
    (CC : TreeNode α) (cx : α) (CF F : TreeNode α)
    (rest : List (Frame α)) (par : Nat → Option Nat)
    (hc : parOkC par
      (⟨d, i, fb, x, mkN d sid false (mkN d cid cb2 CC cx CF) sx F⟩ ::
        rest) = true)
    (hnd : (idsMC
      (⟨d, i, fb, x, mkN d sid false (mkN d cid cb2 CC cx CF) sx F⟩ ::
        rest)).Nodup) :
    parOkC (parSet (parSet (parSet par sid (par i)) cid (some i)) i
        (some sid))
      (⟨d, i, true, x, mkN d cid false CC cx CF⟩ ::
        ⟨d, sid, true, sx, F⟩ :: rest) = true ∧
    ∀ k, k ∉ idsMC
        (⟨d, i, fb, x, mkN d sid false (mkN d cid cb2 CC cx CF) sx F⟩ ::
          rest) →
      (parSet (parSet (parSet par sid (par i)) cid (some i)) i
        (some sid)) k = par k := by
  rw [parOkC_cons_iff] at hc
  obtain ⟨hc1, hc2, hc3⟩ := hc
  rw [parOk_mkN_iff] at hc2
  obtain ⟨hs1, hsCN, hsF⟩ := hc2
  rw [parOk_mkN_iff] at hsCN
  obtain ⟨hcn1, hCC, hCFp⟩ := hsCN
  simp only [idsMC, idsM_mkN, Multiset.nodup_add, Multiset.nodup_cons,
    Multiset.mem_add, Multiset.mem_cons, not_or,
    Multiset.disjoint_add_right, Multiset.disjoint_cons_right,
    Multiset.disjoint_cons_left, Multiset.disjoint_add_left,
    Multiset.disjoint_left] at hnd
  obtain ⟨⟨⟨hiS, ⟨hiCid, hiCC, hiCF⟩, hiF⟩, hir⟩,
    ⟨⟨⟨hsCid, hsCC, hsCF⟩, hsF2⟩,
     ⟨⟨hcCC, hcCF⟩, hndCC, hndCF, hCCCF⟩, hndF, hSibF⟩,
    hndR, hrest⟩ := hnd
  have hc1' : par i = upIdOf rest := hc1
  have hcF : cid ∉ idsM F := hSibF (Or.inl rfl)
  have hcr : cid ∉ idsMC rest := hrest (Or.inr (Or.inl (Or.inl rfl)))
  have hsr : sid ∉ idsMC rest := hrest (Or.inl rfl)
  constructor
  · rw [parOkC_cons_iff]
    refine ⟨parSet_same _ _ _, ?_, ?_⟩
    · rw [parOk_mkN_iff]
      refine ⟨?_, ?_, ?_⟩
      · show parSet _ i (some sid) cid = some i
        rw [parSet_other _ i _ cid (fun h => hiCid h.symm), parSet_same]
      · show parOk _ CC (some cid) = true
        rw [parOk_parSet _ i _ CC _ hiCC,
          parOk_parSet _ cid _ CC _ hcCC,
          parOk_parSet _ sid _ CC _ hsCC]
        exact hCC
      · show parOk _ CF (some cid) = true
        rw [parOk_parSet _ i _ CF _ hiCF,
          parOk_parSet _ cid _ CF _ hcCF,
          parOk_parSet _ sid _ CF _ hsCF]
        exact hCFp
    · rw [parOkC_cons_iff]
      refine ⟨?_, ?_, ?_⟩
      · show parSet _ i (some sid) sid = upIdOf rest
        rw [parSet_other _ i _ sid (fun h => hiS h.symm),
          parSet_other _ cid _ sid hsCid, parSet_same]
        exact hc1'
      · show parOk _ F (some sid) = true
        rw [parOk_parSet _ i _ F _ hiF,
          parOk_parSet _ cid _ F _ hcF,
          parOk_parSet _ sid _ F _ hsF2]
        exact hsF
      · rw [parOkC_parSet _ i _ rest hir,
          parOkC_parSet _ cid _ rest hcr,
          parOkC_parSet _ sid _ rest hsr]
        exact hc3
  · intro k hk
    have hk_i : ¬ k = i := fun h => hk (by simp [idsMC, h])
    have hk_sid : ¬ k = sid := fun h =>
      hk (by simp [idsMC, idsM_mkN, h])
    have hk_cid : ¬ k = cid := fun h =>
      hk (by simp [idsMC, idsM_mkN, h])
    rw [parSet_other _ i _ k hk_i, parSet_other _ cid _ k hk_cid,
      parSet_other _ sid _ k hk_sid]

theorem balDelP_parOk_parentRed {α : Type} (d : Dir) (i : Nat)
    (x : α) (sid : Nat) (sx : α) (C F : TreeNode α)
    (rest : List (Frame α)) (par : Nat → Option Nat)
    (hc : parOkC par
      (⟨d, i, false, x, mkN d sid true C sx F⟩ :: rest) = true) :
    parOkC par
      (⟨d, i, true, x, mkN d sid false C sx F⟩ :: rest) = true := by
  rw [parOkC_cons_iff] at hc
  obtain ⟨hc1, hc2, hc3⟩ := hc
  rw [parOk_mkN_iff] at hc2
  rw [parOkC_cons_iff, parOk_mkN_iff]
  exact ⟨hc1, hc2, hc3⟩

theorem isNil_false_of_isRed {α : Type} (t : TreeNode α)
    (h : t.isRed = true) : t.isNil = false := by
  cases t with
  | nil => cases h
  | node i b l x r => rfl

/-- The deletion rebalance preserves parent-link consistency: from a
consistent, duplicate-free chain it produces a consistent chain with the
same topmost ancestor, touching no map entry outside the chain. -/
theorem balanceBlackLeafForDeletionP_parOk {α : Type} :
    ∀ (path : List (Frame α)) (par : Nat → Option Nat),
      parOkC par path = true → (idsMC path).Nodup →
      ∀ (path2 : List (Frame α)) (par2 : Nat → Option Nat),
        balanceBlackLeafForDeletionP path par = some (path2, par2) →
        parOkC par2 path2 = true ∧ upIdOf path2 = upIdOf path ∧
          ∀ k, k ∉ idsMC path → par2 k = par k := by
  intro path
  induction path with
  | nil =>
      intro par hc hnd path2 par2 hsome
      injection hsome with heq
      injection heq with h1 h2
      subst h1
      subst h2
      exact ⟨rfl, rfl, fun k _ => rfl⟩
  | cons f rest ih =>
      intro par hc hnd path2 par2 hsome
      obtain ⟨d, i, fb, x, sib⟩ := f
      cases hsnil : sib.isNil with
      | true =>
          have hsib : sib = .nil := by
            cases sib with
            | nil => rfl
            | node a b c e g => cases hsnil
          subst hsib
          exact Option.noConfusion
            ((balDelP_nilSib d i fb x rest par).symm.trans hsome)
      | false =>
          obtain ⟨sid, sb, C, sx, F, hsib⟩ := TreeNode.as_mkN d sib hsnil
          subst hsib
          cases sb with
          | false =>
              cases hCnil : C.isNil with
              | true =>
                  have hC : C = .nil := by
                    cases C with
                    | nil => rfl
                    | node a b c e g => cases hCnil
                  subst hC
                  exact Option.noConfusion
                    ((balDelP_sibRed_nilC d i fb x sid sx F rest
                      par).symm.trans hsome)
              | false =>
                  obtain ⟨cid, cb2, CC, cx, CF, hC⟩ :=
                    TreeNode.as_mkN d C hCnil
                  subst hC
                  cases hCF : CF.isRed with
                  | true =>
                      have heq := (balDelP_sibRed_farRed d i fb x sid sx
                        cid cb2 CC cx CF F rest par hCF).symm.trans hsome
                      injection heq with heq
                      injection heq with h1 h2
                      subst h1
                      subst h2
                      obtain ⟨hok, hag⟩ := balDelP_parOk_sibRed_farRed d i
                        fb x sid sx cid cb2 CC cx CF F rest par hc hnd
                      exact ⟨hok, rfl, hag⟩
                  | false =>
                      cases hCCred : CC.isRed with
                      | true =>
                          obtain ⟨ccid, ccb, CCC, ccx, CCF, hCC2⟩ :=
                            TreeNode.as_mkN d CC
                              (isNil_false_of_isRed CC hCCred)
                          subst hCC2
                          have hccb : ccb = false := by
                            cases d <;> simpa [mkN] using hCCred
                          subst hccb
                          have heq := (balDelP_sibRed_closeRed d i fb x
                            sid sx cid cb2 cx ccid CCC ccx CCF CF F rest
                            par hCF).symm.trans hsome
                          injection heq with heq
                          injection heq with h1 h2
                          subst h1
                          subst h2
                          obtain ⟨hok, hag⟩ :=
                            balDelP_parOk_sibRed_closeRed d i fb x sid sx
                              cid cb2 cx ccid CCC ccx CCF CF F rest par
                              hc hnd
                          exact ⟨hok, rfl, hag⟩
                      | false =>
                          have heq := (balDelP_sibRed_bothBlack d i fb x
                            sid sx cid cb2 CC cx CF F rest par hCF
                            hCCred).symm.trans hsome
                          injection heq with heq
                          injection heq with h1 h2
                          subst h1
                          subst h2
                          obtain ⟨hok, hag⟩ :=
                            balDelP_parOk_sibRed_bothBlack d i fb x sid
                              sx cid cb2 CC cx CF F rest par hc hnd
                          exact ⟨hok, rfl, hag⟩
          | true =>
              cases hF : F.isRed with
              | true =>
                  have heq := (balDelP_farRed d i fb x sid sx C F rest
                    par hF).symm.trans hsome
                  injection heq with heq
                  injection heq with h1 h2
                  subst h1
                  subst h2
                  obtain ⟨hok, hag⟩ := balDelP_parOk_farRed d i fb x sid
                    sx C F rest par hc hnd
                  exact ⟨hok, rfl, hag⟩
              | false =>
                  cases hCred : C.isRed with
                  | true =>
                      obtain ⟨cid, cb2, CC, cx, CF, hC2⟩ :=
                        TreeNode.as_mkN d C (isNil_false_of_isRed C hCred)
                      subst hC2
                      have hcb : cb2 = false := by
                        cases d <;> simpa [mkN] using hCred
                      subst hcb
                      have heq := (balDelP_closeRed d i fb x sid sx cid
                        CC cx CF F rest par hF).symm.trans hsome
                      injection heq with heq
                      injection heq with h1 h2
                      subst h1
                      subst h2
                      obtain ⟨hok, hag⟩ := balDelP_parOk_closeRed d i fb
                        x sid sx cid CC cx CF F rest par hc hnd
                      exact ⟨hok, rfl, hag⟩
                  | false =>
                      cases fb with
                      | false =>
                          have heq := (balDelP_parentRed d i x sid sx C F
                            rest par hF hCred).symm.trans hsome
                          injection heq with heq
                          injection heq with h1 h2
                          subst h1
                          subst h2
                          exact ⟨balDelP_parOk_parentRed d i x sid sx C F
                            rest par hc, rfl, fun k _ => rfl⟩
                      | true =>
                          have heq := (balDelP_allBlack d i x sid sx C F
                            rest par hF hCred).symm.trans hsome
                          rw [parOkC_cons_iff] at hc
                          obtain ⟨hc1, hc2, hc3⟩ := hc
                          rw [parOk_mkN_iff] at hc2
                          obtain ⟨hs1, hsC, hsF⟩ := hc2
                          simp only [idsMC, idsM_mkN, Multiset.nodup_add,
                            Multiset.nodup_cons, Multiset.mem_add,
                            Multiset.mem_cons, not_or,
                            Multiset.disjoint_add_right,
                            Multiset.disjoint_cons_right,
                            Multiset.disjoint_cons_left,
                            Multiset.disjoint_add_left,
                            Multiset.disjoint_left] at hnd
                          obtain ⟨⟨⟨hiS, hiC, hiF⟩, hir⟩,
                            ⟨⟨hsC2, hsF2⟩, hndC, hndF, hCF⟩,
                            hndR, hrest⟩ := hnd
                          cases hrec : balanceBlackLeafForDeletionP rest
                              par with
                          | none => rw [hrec] at heq; cases heq
                          | some pr =>
                              obtain ⟨rest2, par2x⟩ := pr
                              rw [hrec] at heq
                              injection heq with heq
                              injection heq with h1 h2
                              subst h1
                              subst h2
                              obtain ⟨hok2, hup2, hag2⟩ :=
                                ih par hc3 hndR rest2 par2x hrec
                              refine ⟨?_, rfl, ?_⟩
                              · rw [parOkC_cons_iff]
                                refine ⟨?_, ?_, hok2⟩
                                · show par2x i = upIdOf rest2
                                  rw [hag2 i hir, hup2]
                                  exact hc1
                                · show parOk par2x
                                    (mkN d sid false C sx F) (some i) =
                                      true
                                  rw [parOk_congr par2x par _ _
                                    (fun k hk => hag2 k (hrest
                                      (by simpa [idsM_mkN] using hk)))]
                                  rw [parOk_mkN_iff]
                                  exact ⟨hs1, hsC, hsF⟩
                              · intro k hk
                                refine hag2 k (fun hm => hk ?_)
                                simp [idsMC, idsM_mkN, hm]

/-- The removal tail preserves parent-link consistency: detaching the
focused node (and rebalancing if it was a black leaf) yields a tree
whose parent map is consistent with root parent `none`. -/
theorem removeAtP_parOk {α : Type} (u : TreeNode α)
    (upath : List (Frame α)) (par : Nat → Option Nat)
    (hok : parOk par u (upIdOf upath) = true)
    (hc : parOkC par upath = true)
    (hnd : (idsM u + idsMC upath).Nodup) :
    ∀ (t2 : TreeNode α) (par2 : Nat → Option Nat),
      removeAtP u upath par = some (t2, par2) →
      parOk par2 t2 none = true := by
  intro t2 par2 hsome
  rw [Multiset.nodup_add] at hnd
  obtain ⟨hndu, hndp, hdisj⟩ := hnd
  rw [Multiset.disjoint_left] at hdisj
  cases u with
  | nil =>
      injection hsome with heq
      injection heq with h1 h2
      subst h1
      subst h2
      exact parOk_plug par upath .nil rfl hc
  | node ui ub ul ux ur =>
      rw [parOk_node_iff] at hok
      obtain ⟨hok1, hokL, hokR⟩ := hok
      by_cases h1 :
          ((!ub) || (upath.isEmpty && ul.isNil && ur.isNil)) = true
      · have e : removeAtP (.node ui ub ul ux ur) upath par =
            some (plug .nil upath, par) := by
          rw [removeAtP.eq_def]
          simp [h1]
        have heq := e.symm.trans hsome
        injection heq with heq
        injection heq with h1' h2'
        subst h1'
        subst h2'
        exact parOk_plug par upath .nil rfl hc
      · cases ur with
        | node ri rb rl rx rr =>
            have e : removeAtP (.node ui ub ul ux (.node ri rb rl rx rr))
                upath par =
                some (plug (TreeNode.paintBlack (.node ri rb rl rx rr))
                  upath, parSet par ri (par ui)) := by
              rw [removeAtP.eq_def]
              simp [h1]
            have heq := e.symm.trans hsome
            injection heq with heq
            injection heq with h1' h2'
            subst h1'
            subst h2'
            have hndu' : (ui ::ₘ (idsM ul +
                idsM (TreeNode.node ri rb rl rx rr))).Nodup := hndu
            have hndR : (idsM (TreeNode.node ri rb rl rx rr)).Nodup :=
              ((Multiset.nodup_add.mp
                (Multiset.nodup_cons.mp hndu').2).2).1
            have hri : ri ∉ idsMC upath := hdisj (by simp [idsM])
            refine parOk_plug _ upath _ ?_ ?_
            · rw [parOk_paintBlack, ← hok1]
              have hset := parOk_setRoot par (.node ri rb rl rx rr)
                (some ui) (par ui) hokR hndR
              simp only [rootId, parSetM_some] at hset
              exact hset
            · rw [parOkC_parSet par ri _ upath hri]
              exact hc
        | nil =>
            cases ul with
            | node li lb ll lx lr =>
                have e : removeAtP
                    (.node ui ub (.node li lb ll lx lr) ux .nil) upath
                    par =
                    some (plug
                      (TreeNode.paintBlack (.node li lb ll lx lr)) upath,
                      parSet par li (par ui)) := by
                  rw [removeAtP.eq_def]
                  simp [h1]
                have heq := e.symm.trans hsome
                injection heq with heq
                injection heq with h1' h2'
                subst h1'
                subst h2'
                have hndu' : (ui ::ₘ
                    (idsM (TreeNode.node li lb ll lx lr) + 0)).Nodup :=
                  hndu
                have hndL : (idsM (TreeNode.node li lb ll lx lr)).Nodup :=
                  (Multiset.nodup_add.mp
                    (Multiset.nodup_cons.mp hndu').2).1
                have hli : li ∉ idsMC upath := hdisj (by simp [idsM])
                refine parOk_plug _ upath _ ?_ ?_
                · rw [parOk_paintBlack, ← hok1]
                  have hset := parOk_setRoot par (.node li lb ll lx lr)
                    (some ui) (par ui) hokL hndL
                  simp only [rootId, parSetM_some] at hset
                  exact hset
                · rw [parOkC_parSet par li _ upath hli]
                  exact hc
            | nil =>
                have hub : ub = true := by
                  cases ub with
                  | false => exact absurd (by simp) h1
                  | true => rfl
                have hup : upath.isEmpty = false := by
                  cases he : upath.isEmpty with
                  | false => rfl
                  | true => exact absurd (by simp [he, hub, TreeNode.isNil]) h1
                cases hbal : balanceBlackLeafForDeletionP upath par with
                | none =>
                    have e : removeAtP (.node ui ub .nil ux .nil) upath
                        par = none := by
                      rw [removeAtP.eq_def]
                      simp [hub, hup, hbal]
                    exact Option.noConfusion (e.symm.trans hsome)
                | some pr =>
                    obtain ⟨upath2, par2x⟩ := pr
                    have e : removeAtP (.node ui ub .nil ux .nil) upath
                        par = some (plug .nil upath2, par2x) := by
                      rw [removeAtP.eq_def]
                      simp [hub, hup, hbal]
                    have heq := e.symm.trans hsome
                    injection heq with heq
                    injection heq with h1' h2'
                    subst h1'
                    subst h2'
                    obtain ⟨hok2, hup2, hag2⟩ :=
                      balanceBlackLeafForDeletionP_parOk upath par hc
                        hndp upath2 par2x hbal
                    exact parOk_plug par2x upath2 .nil rfl hok2

/-- Descending to the in-order successor slot transports parent-link
consistency and duplicate-freeness. -/
theorem succToSlot_parOk {α : Type} (par : Nat → Option Nat) :
    ∀ (t : TreeNode α) (path : List (Frame α)),
      parOk par t (upIdOf path) = true → parOkC par path = true →
      (idsM t + idsMC path).Nodup →
      parOk par (succToSlot t path).1 (upIdOf (succToSlot t path).2) =
          true ∧
        parOkC par (succToSlot t path).2 = true ∧
        (idsM (succToSlot t path).1 +
          idsMC (succToSlot t path).2).Nodup := by
  intro t
  induction t with
  | nil => intro path h1 h2 h3; exact ⟨h1, h2, h3⟩
  | node i b l x r ihl ihr =>
      intro path h1 h2 h3
      cases l with
      | nil => exact ⟨h1, h2, h3⟩
      | node li lb ll lx lr =>
          rw [succToSlot]
          rw [parOk_node_iff] at h1
          obtain ⟨h11, h12, h13⟩ := h1
          refine ihl (⟨.left, i, b, x, r⟩ :: path) h12 ?_ ?_
          · rw [parOkC_cons_iff]
            exact ⟨h11, h13, h2⟩
          · have heq : idsM (TreeNode.node li lb ll lx lr) +
                idsMC (⟨Dir.left, i, b, x, r⟩ :: path) =
                idsM (.node i b (.node li lb ll lx lr) x r :
                  TreeNode α) + idsMC path := by
              simp only [idsM, idsMC, ← Multiset.singleton_add]
              abel
            rw [heq]
            exact h3

/-- The recursive delete preserves parent-link consistency. -/
theorem deleteRecursiveP_parOk {α : Type} (lt : α → α → Bool) :
    ∀ (t : TreeNode α) (path : List (Frame α)) (elem : α)
      (par : Nat → Option Nat),
      parOk par t (upIdOf path) = true → parOkC par path = true →
      (idsM t + idsMC path).Nodup →
      ∀ (t2 : TreeNode α) (par2 : Nat → Option Nat),
        deleteRecursiveP lt t path elem par = some (t2, par2) →
        parOk par2 t2 none = true := by
  intro t
  induction t with
  | nil =>
      intro path elem par h1 h2 h3 t2 par2 hsome
      injection hsome with heq
      injection heq with ha hb
      subst ha
      subst hb
      exact parOk_plug par path .nil rfl h2
  | node i b l x r ihl ihr =>
      intro path elem par h1 h2 h3 t2 par2 hsome
      rw [parOk_node_iff] at h1
      obtain ⟨h11, h12, h13⟩ := h1
      by_cases hlt : lt elem x = true
      · have e : deleteRecursiveP lt (.node i b l x r) path elem par =
            deleteRecursiveP lt l (⟨.left, i, b, x, r⟩ :: path) elem
              par := by
          rw [deleteRecursiveP.eq_def]
          simp [hlt]
        rw [e] at hsome
        refine ihl (⟨.left, i, b, x, r⟩ :: path) elem par h12 ?_ ?_ t2
          par2 hsome
        · rw [parOkC_cons_iff]
          exact ⟨h11, h13, h2⟩
        · have heq : idsM l + idsMC (⟨Dir.left, i, b, x, r⟩ :: path) =
              idsM (.node i b l x r : TreeNode α) + idsMC path := by
            simp only [idsM, idsMC, ← Multiset.singleton_add]
            abel
          rw [heq]
          exact h3
      · by_cases hgt : lt x elem = true
        · have e : deleteRecursiveP lt (.node i b l x r) path elem par =
              deleteRecursiveP lt r (⟨.right, i, b, x, l⟩ :: path) elem
                par := by
            rw [deleteRecursiveP.eq_def]
            simp [hlt, hgt]
          rw [e] at hsome
          refine ihr (⟨.right, i, b, x, l⟩ :: path) elem par h13 ?_ ?_
            t2 par2 hsome
          · rw [parOkC_cons_iff]
            exact ⟨h11, h12, h2⟩
          · have heq : idsM r + idsMC (⟨Dir.right, i, b, x, l⟩ :: path) =
                idsM (.node i b l x r : TreeNode α) + idsMC path := by
              simp only [idsM, idsMC, ← Multiset.singleton_add]
              abel
            rw [heq]
            exact h3
        · have h1' : parOk par (.node i b l x r) (upIdOf path) = true := by
            rw [parOk_node_iff]
            exact ⟨h11, h12, h13⟩
          cases hlc : l with
          | nil =>
              subst hlc
              have e : deleteRecursiveP lt (.node i b .nil x r) path
                  elem par = removeAtP (.node i b .nil x r) path par := by
                rw [deleteRecursiveP.eq_def]
                cases r <;> simp [hlt, hgt]
              rw [e] at hsome
              exact removeAtP_parOk (.node i b .nil x r) path par h1' h2
                h3 t2 par2 hsome
          | node li lb ll lx lr =>
              subst hlc
              cases hrc : r with
              | nil =>
                  subst hrc
                  have e : deleteRecursiveP lt
                      (.node i b (.node li lb ll lx lr) x .nil) path
                      elem par =
                      removeAtP (.node i b (.node li lb ll lx lr) x .nil)
                        path par := by
                    rw [deleteRecursiveP.eq_def]
                    simp [hlt, hgt]
                  rw [e] at hsome
                  exact removeAtP_parOk _ path par h1' h2 h3 t2 par2
                    hsome
              | node ri rb rl rx rr =>
                  subst hrc
                  cases hlm : leftmost (.node ri rb rl rx rr) with
                  | none =>
                      have hs := leftmost_isSome
                        (.node ri rb rl rx rr : TreeNode α) rfl
                      rw [hlm] at hs
                      cases hs
                  | some y =>
                      have e : deleteRecursiveP lt
                          (.node i b (.node li lb ll lx lr) x
                            (.node ri rb rl rx rr)) path elem par =
                          removeAtP
                            (succToSlot (.node ri rb rl rx rr)
                              (⟨.right, i, b, y,
                                .node li lb ll lx lr⟩ :: path)).1
                            (succToSlot (.node ri rb rl rx rr)
                              (⟨.right, i, b, y,
                                .node li lb ll lx lr⟩ :: path)).2
                            par := by
                        rw [deleteRecursiveP.eq_def]
                        simp [hlt, hgt, hlm]
                      rw [e] at hsome
                      have hpc : parOkC par (⟨Dir.right, i, b, y,
                          .node li lb ll lx lr⟩ :: path) = true := by
                        rw [parOkC_cons_iff]
                        exact ⟨h11, h12, h2⟩
                      have hns : (idsM (TreeNode.node ri rb rl rx rr) +
                          idsMC (⟨Dir.right, i, b, y,
                            .node li lb ll lx lr⟩ :: path)).Nodup := by
                        have heq : idsM (TreeNode.node ri rb rl rx rr) +
                            idsMC (⟨Dir.right, i, b, y,
                              .node li lb ll lx lr⟩ :: path) =
                            idsM (.node i b (.node li lb ll lx lr) x
                              (.node ri rb rl rx rr) : TreeNode α) +
                              idsMC path := by
                          simp only [idsM, idsMC,
                            ← Multiset.singleton_add]
                          abel
                        rw [heq]
                        exact h3
                      obtain ⟨hs1, hs2, hs3⟩ := succToSlot_parOk par
                        (.node ri rb rl rx rr)
                        (⟨.right, i, b, y, .node li lb ll lx lr⟩ :: path)
                        h13 hpc hns
                      exact removeAtP_parOk _ _ par hs1 hs2 hs3 t2
                        par2 hsome

/-- C10: after every Put and every Delete the parent back-links are
consistent with the child links — every reachable non-root node's parent
reference is its structural parent and the root's parent reference is
empty.  Modelled by threading a parent map through `PutP`/`DeleteP`,
whose tree components coincide with `Put`/`Delete` (`PutP_fst`,
`deleteRecursiveP_fst`), with one store per `parent =` assignment of the
source (`putRecursive` line 84, the three stores of `rotate`, the
one-child unlinks of `deleteRecursive`): from a consistent map on a
duplicate-free tree whose ids are below the allocation counter, the map
after `Put` is consistent with the new root, and whenever `Delete`
returns, the map after it is consistent with the new root. -/
theorem claim_C10 {α : Type} (lt : α → α → Bool) (m : RedBlackTree α)
    (e : α) (par : Nat → Option Nat)
    (hpar : parOk par m.root none = true)
    (hnd : (idsM m.root).Nodup)
    (hfresh : ∀ j ∈ idsM m.root, j < m.nextId) :
    ((PutP lt m e par).1 = (Put lt m e).root ∧
      parOk (PutP lt m e par).2 (PutP lt m e par).1 none = true) ∧
    ∀ (t2 : TreeNode α) (par2 : Nat → Option Nat),
      DeleteP lt m e par = some (t2, par2) →
      (Delete lt m e).map RedBlackTree.root = some t2 ∧
        parOk par2 t2 none = true := by
  refine ⟨⟨PutP_fst lt m e par, PutP_parOk lt m e par hpar hnd hfresh⟩,
    ?_⟩
  intro t2 par2 hsome
  constructor
  · have hmap := deleteRecursiveP_fst lt m.root [] e par m rfl
    have hsome' : deleteRecursiveP lt m.root [] e par =
        some (t2, par2) := hsome
    rw [hsome'] at hmap
    exact hmap.symm
  · refine deleteRecursiveP_parOk lt m.root [] e par hpar rfl ?_ t2 par2
      hsome
    simpa [idsMC] using hnd

theorem claim_C10_witness :
    parOk (fun k => if k = 1 then some 0 else if k = 2 then some 0 else none) (⟨.node 0 true (.node 1 false .nil (1 : Int) .nil) 2
      (.node 2 false .nil 3 .nil), some 1, some 2, 3, 3⟩ :
      RedBlackTree Int).root none = true ∧
    (idsM (⟨.node 0 true (.node 1 false .nil (1 : Int) .nil) 2
      (.node 2 false .nil 3 .nil), some 1, some 2, 3, 3⟩ :
      RedBlackTree Int).root).Nodup ∧
    (∀ j ∈ idsM (⟨.node 0 true (.node 1 false .nil (1 : Int) .nil) 2
      (.node 2 false .nil 3 .nil), some 1, some 2, 3, 3⟩ :
      RedBlackTree Int).root, j < (⟨.node 0 true (.node 1 false .nil (1 : Int) .nil) 2
      (.node 2 false .nil 3 .nil), some 1, some 2, 3, 3⟩ :
      RedBlackTree Int).nextId) ∧
    (((PutP intLt (⟨.node 0 true (.node 1 false .nil (1 : Int) .nil) 2
      (.node 2 false .nil 3 .nil), some 1, some 2, 3, 3⟩ :
      RedBlackTree Int) 3 (fun k => if k = 1 then some 0 else if k = 2 then some 0 else none)).1 =
        (Put intLt (⟨.node 0 true (.node 1 false .nil (1 : Int) .nil) 2
      (.node 2 false .nil 3 .nil), some 1, some 2, 3, 3⟩ :
      RedBlackTree Int) 3).root ∧
      parOk (PutP intLt (⟨.node 0 true (.node 1 false .nil (1 : Int) .nil) 2
      (.node 2 false .nil 3 .nil), some 1, some 2, 3, 3⟩ :
      RedBlackTree Int) 3 (fun k => if k = 1 then some 0 else if k = 2 then some 0 else none)).2
        (PutP intLt (⟨.node 0 true (.node 1 false .nil (1 : Int) .nil) 2
      (.node 2 false .nil 3 .nil), some 1, some 2, 3, 3⟩ :
      RedBlackTree Int) 3 (fun k => if k = 1 then some 0 else if k = 2 then some 0 else none)).1 none = true) ∧
     ∀ (t2 : TreeNode Int) (par2 : Nat → Option Nat),
       DeleteP intLt (⟨.node 0 true (.node 1 false .nil (1 : Int) .nil) 2
      (.node 2 false .nil 3 .nil), some 1, some 2, 3, 3⟩ :
      RedBlackTree Int) 3 (fun k => if k = 1 then some 0 else if k = 2 then some 0 else none) = some (t2, par2) →
       (Delete intLt (⟨.node 0 true (.node 1 false .nil (1 : Int) .nil) 2
      (.node 2 false .nil 3 .nil), some 1, some 2, 3, 3⟩ :
      RedBlackTree Int) 3).map RedBlackTree.root = some t2 ∧
         parOk par2 t2 none = true) :=
  ⟨by decide, by decide, by decide,
   claim_C10 intLt (⟨.node 0 true (.node 1 false .nil (1 : Int) .nil) 2
      (.node 2 false .nil 3 .nil), some 1, some 2, 3, 3⟩ :
      RedBlackTree Int) 3 (fun k => if k = 1 then some 0 else if k = 2 then some 0 else none) (by decide) (by decide) (by decide)⟩

end RBV